import Mathlib

/-!
# PebbleSQL: B-link tree index and page codec

A shallow embedding of `internal/index/BlinkTree.go`, `internal/storage/page.go`
and `internal/storage/DiskManager.go`.

## Conventions of the embedding

* A Go pointer `*Node` is an address into a heap of nodes (`List Node`); `nil` is
  `none`.  Allocating a node appends it to the heap.
* A Go slice is a list.  Capacity is not modelled: a slice expression whose bound
  exceeds the length faults.
* A run-time panic (nil dereference, index out of range) is a `Fault`; recursion
  and loops whose termination depends on the heap take a fuel argument and give
  `Fault.outOfFuel` when it is used up.
* The tree operations come twice.  First their data part, without the `sync.RWMutex`
  calls.  Then (`SearchLocked`, `insertLocked`, `splitLocked`) with their lock calls,
  the state of every mutex kept beside the heap: this is what the code does.  The two
  agree where no lock call decides the outcome, that is on a tree of one leaf as long as
  `Insert` does not call `split`; what is stated of `Insert` and `Search` of the code is
  stated of the second kind.
-/

namespace PebbleSQL

/-- A Go `byte`. -/
abbrev Byte := Fin 256

/-- Run-time failures of the embedded code: the panics of the Go run time, the explicit
`panic("buffer too small ...")` of the codec, and the exhaustion of a fuel argument. -/
inductive Fault where
  | nilDeref
  | indexOutOfRange
  | bufferTooSmall
  | outOfFuel
  deriving DecidableEq, Repr

deriving instance DecidableEq for Except

namespace blinktree

/-- The branching factor `maxKeys`. -/
def maxKeys : Nat := 4

/-- The struct `Node` without its mutex; pointers are heap addresses. -/
structure Node where
  isLeaf : Bool
  keys : List Int
  values : List (List Byte)
  children : List Nat
  parent : Option Nat
  rightSibling : Option Nat
  deriving DecidableEq, Repr

/-- The struct `BlinkTree`: the allocated nodes and the root pointer. -/
structure BlinkTree where
  heap : List Node
  root : Nat
  deriving DecidableEq, Repr

/-- The constructor `NewBlinkTree`: one empty leaf, which is the root. -/
def NewBlinkTree : BlinkTree :=
  { heap := [{ isLeaf := true, keys := [], values := [], children := [],
               parent := none, rightSibling := none }],
    root := 0 }

/-- The loop of `sort.Search`: `i, j := 0, n; for i < j { h := (i+j)/2; ... }`. -/
def searchLoop (f : Nat → Bool) : Nat → Nat → Nat → Nat
  | 0, i, _ => i
  | fuel + 1, i, j =>
    if i < j then
      let h := (i + j) / 2
      if !f h then searchLoop f fuel (h + 1) j else searchLoop f fuel i h
    else i

/-- The library function `sort.Search(n, f)`; the interval shrinks at every turn, so
`n` turns are enough. -/
def sortSearch (n : Nat) (f : Nat → Bool) : Nat :=
  searchLoop f n 0 n

/-- The call `sort.Search(len(n.keys), func(i) bool { return key < n.keys[i] })`. -/
def searchUpper (keys : List Int) (key : Int) : Nat :=
  sortSearch keys.length (fun i => decide (key < keys.getD i 0))

/-- The library function `sort.SearchInts(a, x)`, that is
`sort.Search(len(a), func(i) bool { return a[i] >= x })`. -/
def SearchInts (a : List Int) (x : Int) : Nat :=
  sortSearch a.length (fun i => decide (a.getD i 0 ≥ x))

/-- Dereference of a node pointer. -/
def deref (heap : List Node) (a : Nat) : Except Fault Node :=
  match heap[a]? with
  | some n => .ok n
  | none => .error .nilDeref

/-- Assignment through a node pointer: `p.field = ...`. -/
def modify (heap : List Node) (a : Nat) (f : Node → Node) : Except Fault (List Node) :=
  match heap[a]? with
  | some n => .ok (heap.set a (f n))
  | none => .error .nilDeref

/-- The slice expression `s[lo:]`. -/
def sliceFrom {α : Type} (s : List α) (lo : Nat) : Except Fault (List α) :=
  if lo ≤ s.length then .ok (s.drop lo) else .error .indexOutOfRange

/-- The slice expression `s[:hi]`. -/
def sliceTo {α : Type} (s : List α) (hi : Nat) : Except Fault (List α) :=
  if hi ≤ s.length then .ok (s.take hi) else .error .indexOutOfRange

/-- The index expression `s[i]`. -/
def index {α : Type} (s : List α) (i : Nat) : Except Fault α :=
  match s[i]? with
  | some x => .ok x
  | none => .error .indexOutOfRange

/-- The expression `append(s[:idx], append([]T{x}, s[idx:]...)...)`. -/
def insertAt {α : Type} (s : List α) (idx : Nat) (x : α) : Except Fault (List α) := do
  let tl ← sliceFrom s idx
  let hd ← sliceTo s idx
  pure (hd ++ x :: tl)

/-- The expression `append(s[:idx], s[idx+1:]...)`. -/
def removeAt {α : Type} (s : List α) (idx : Nat) : Except Fault (List α) := do
  let hd ← sliceTo s idx
  let tl ← sliceFrom s (idx + 1)
  pure (hd ++ tl)

/-- The descent of `Search`, data part: from node `n` down (or right) to a leaf, without the
`RLock` and `RUnlock` calls of the loop.  With them (`searchDescendLocked`) the loop ends in
a fatal error at the first node that is not a leaf; on a leaf the two agree. -/
def searchDescend (heap : List Node) (key : Int) : Nat → Option Nat → Except Fault Node
  | 0, _ => .error .outOfFuel
  | _ + 1, none => .error .nilDeref
  | fuel + 1, some a =>
    match heap[a]? with
    | none => .error .nilDeref
    | some n =>
      if n.isLeaf then .ok n
      else
        let i := searchUpper n.keys key
        if i = n.children.length then searchDescend heap key fuel n.rightSibling
        else
          match n.children[i]? with
          | none => .error .indexOutOfRange
          | some c => searchDescend heap key fuel (some c)

/-- The final loop of `Search`: `for i, k := range n.keys { if k == key { return n.values[i], true } }`. -/
def scanLeaf (key : Int) (values : List (List Byte)) : List Int → Nat → Except Fault (List Byte × Bool)
  | [], _ => .ok ([], false)
  | k :: ks, i =>
    if k = key then
      match values[i]? with
      | some v => .ok (v, true)
      | none => .error .indexOutOfRange
    else scanLeaf key values ks (i + 1)

/-- The method `Search`, data part: the value stored for `key` and `true`, or
`(nil, false)`.  `SearchLocked` is the method with its lock calls. -/
def Search (fuel : Nat) (tree : BlinkTree) (key : Int) : Except Fault (List Byte × Bool) := do
  let n ← searchDescend tree.heap key fuel (some tree.root)
  scanLeaf key n.values n.keys 0

/-- The loop `for _, child := range right.children { child.parent = right }`. -/
def reparent (r : Nat) : List Nat → List Node → Except Fault (List Node)
  | [], heap => .ok heap
  | c :: cs, heap => do
    let heap ← modify heap c (fun x => { x with parent := some r })
    reparent r cs heap

/-- The statement `if n.isLeaf { ... } else { ... }` of `split`: the upper half of the
values, or of the children, moves to the node `right` (at address `r`). -/
def moveUpperHalf (heap : List Node) (node : Node) (mid n r : Nat) : Except Fault (List Node) :=
  if node.isLeaf then do
    let rv ← sliceFrom node.values mid
    let heap ← modify heap r (fun x => { x with values := rv })
    let lv ← sliceTo node.values mid
    modify heap n (fun x => { x with values := lv })
  else do
    let rc ← sliceFrom node.children (mid + 1)
    let heap ← modify heap r (fun x => { x with children := rc })
    let heap ← reparent r rc heap
    let lc ← sliceTo node.children (mid + 1)
    modify heap n (fun x => { x with children := lc })

/-- The method `split`, data part: what the code does to the nodes once it is past the
statement `if !n.mu.TryLock() { log.Fatal(...) }`, which is left out here.  `splitLocked` is
the method with that statement and the other lock calls. -/
def split : Nat → BlinkTree → Nat → Except Fault BlinkTree
  | 0, _, _ => .error .outOfFuel
  | fuel + 1, tree, n => do
    let node ← deref tree.heap n
    let mid := node.keys.length / 2
    let rightKeys ← sliceFrom node.keys mid
    let r := tree.heap.length
    let right : Node :=
      { isLeaf := node.isLeaf, keys := rightKeys, values := [], children := [],
        rightSibling := node.rightSibling, parent := node.parent }
    let heap := tree.heap ++ [right]
    let heap ← moveUpperHalf heap node mid n r
    let splitKey ← index rightKeys 0
    let lk ← sliceTo node.keys mid
    let heap ← modify heap n (fun x => { x with keys := lk, rightSibling := some r })
    if tree.root = n then
      let newRoot : Node :=
        { isLeaf := false, keys := [splitKey], values := [], children := [n, r],
          parent := none, rightSibling := none }
      let rootAddr := heap.length
      let heap := heap ++ [newRoot]
      let heap ← modify heap n (fun x => { x with parent := some rootAddr })
      let heap ← modify heap r (fun x => { x with parent := some rootAddr })
      pure { heap := heap, root := rootAddr }
    else do
      let cur ← deref heap n
      match cur.parent with
      | none => .error .nilDeref
      | some p =>
        let parent ← deref heap p
        let insertPos := SearchInts parent.keys splitKey
        let pk ← insertAt parent.keys insertPos splitKey
        let pc ← insertAt parent.children (insertPos + 1) r
        let heap ← modify heap p (fun x => { x with keys := pk, children := pc })
        if pk.length > maxKeys then split fuel { heap := heap, root := tree.root } p
        else pure { heap := heap, root := tree.root }

/-- The method `insert`, data part, without its lock calls.  It agrees with the code
(`insertLocked`) on every call that returns without a call of `split`; where it calls
`split`, the code, holding the lock of the leaf, ends in `log.Fatal`
(`insertLocked_leaf`, `InsertLocked_full`). -/
def insert : Nat → BlinkTree → Nat → Int → List Byte → Except Fault BlinkTree
  | 0, _, _, _, _ => .error .outOfFuel
  | fuel + 1, tree, n, key, value => do
    let node ← deref tree.heap n
    if node.isLeaf then
      let idx := SearchInts node.keys key
      let ks ← insertAt node.keys idx key
      let vs ← insertAt node.values idx value
      let heap ← modify tree.heap n (fun x => { x with keys := ks, values := vs })
      if ks.length > maxKeys then split (fuel + 1) { heap := heap, root := tree.root } n
      else pure { heap := heap, root := tree.root }
    else
      let i := searchUpper node.keys key
      let child ← index node.children i
      insert fuel tree child key value

/-- The method `Insert`, data part (see `insert`); `InsertLocked` is the method with its lock
calls. -/
def Insert (fuel : Nat) (tree : BlinkTree) (key : Int) (value : List Byte) : Except Fault BlinkTree :=
  insert fuel tree tree.root key value

/-- The method `delete`. -/
def delete : Nat → BlinkTree → Nat → Int → Except Fault BlinkTree
  | 0, _, _, _ => .error .outOfFuel
  | fuel + 1, tree, n, key => do
    let node ← deref tree.heap n
    if !node.isLeaf then
      let i := searchUpper node.keys key
      let child ← index node.children i
      delete fuel tree child key
    else
      let idx := SearchInts node.keys key
      if idx < node.keys.length ∧ node.keys.getD idx 0 = key then
        let ks ← removeAt node.keys idx
        let vs ← removeAt node.values idx
        let heap ← modify tree.heap n (fun x => { x with keys := ks, values := vs })
        pure { heap := heap, root := tree.root }
      else pure tree

/-- The method `Delete`. -/
def Delete (fuel : Nat) (tree : BlinkTree) (key : Int) : Except Fault BlinkTree :=
  delete fuel tree tree.root key

/-- Run `Insert` for each entry of a list, in order. -/
def insertAll (fuel : Nat) : BlinkTree → List (Int × List Byte) → Except Fault BlinkTree
  | tree, [] => .ok tree
  | tree, (k, v) :: es => do
    let tree ← Insert fuel tree k v
    insertAll fuel tree es

end blinktree

end PebbleSQL

namespace PebbleSQL

namespace blinktree

/-- The node `n` as `split` leaves it (up to its parent pointer): the lower half of the
keys, with the values or children that go with them, and `right` as right sibling. -/
def leftHalf (node : Node) (r : Nat) : Node :=
  { isLeaf := node.isLeaf,
    keys := node.keys.take (node.keys.length / 2),
    values := if node.isLeaf then node.values.take (node.keys.length / 2) else node.values,
    children := if node.isLeaf then node.children else node.children.take (node.keys.length / 2 + 1),
    parent := node.parent,
    rightSibling := some r }

/-- The node `right` that `split` creates (up to its parent pointer). -/
def rightHalf (node : Node) : Node :=
  { isLeaf := node.isLeaf,
    keys := node.keys.drop (node.keys.length / 2),
    values := if node.isLeaf then node.values.drop (node.keys.length / 2) else [],
    children := if node.isLeaf then [] else node.children.drop (node.keys.length / 2 + 1),
    parent := node.parent,
    rightSibling := node.rightSibling }

/-- The heap after the first part of `split` (up to `n.rightSibling = right`), described
node by node: `n` holds the lower half, the new address holds the upper half, every other
node is as before, and a parent pointer either is as before or, when `n` is an internal node,
points to the new node. -/
def Halved (heap : List Node) (n : Nat) (node : Node) (heap1 : List Node) : Prop :=
  heap1.length = heap.length + 1 ∧
  ∀ (a : Nat) (x1 : Node), heap1[a]? = some x1 →
    ∃ x0 : Node, (if a = heap.length then x0 = rightHalf node
           else if a = n then x0 = leftHalf node heap.length
           else heap[a]? = some x0) ∧
      (x1 = x0 ∨ (node.isLeaf = false ∧ x1 = { x0 with parent := some heap.length }))

/-- Every parent pointer that is set points to an internal node. -/
def ParentsInternal (heap : List Node) : Prop :=
  ∀ (a : Nat) (x : Node) (p : Nat), heap[a]? = some x → x.parent = some p →
    ∃ y : Node, heap[p]? = some y ∧ y.isLeaf = false

/-- Every allocated node satisfies `P`. -/
def AllNodes (P : Node → Prop) (heap : List Node) : Prop :=
  ∀ (a : Nat) (x : Node), heap[a]? = some x → P x

/-- What a property `P` of single nodes needs in order to hold of every node after `split`
when `Q` held of the node that is split: it does not look at the parent pointer, it holds of
both halves and of a new root, and a node it holds of satisfies `Q` (when now too full)
or `P` again after it took up a separator. -/
structure SplitStable (P Q : Node → Prop) : Prop where
  parent : ∀ (x : Node) (q : Option Nat), P x → P { x with parent := q }
  left : ∀ (x : Node) (r : Nat), Q x → P (leftHalf x r)
  right : ∀ (x : Node), Q x → P (rightHalf x)
  root : ∀ (k : Int) (a b : Nat),
    P { isLeaf := false, keys := [k], values := [], children := [a, b], parent := none,
        rightSibling := none }
  up : ∀ (y : Node) (k : Int) (c : Nat) (pk : List Int) (pc : List Nat), P y → y.isLeaf = false →
    insertAt y.keys (SearchInts y.keys k) k = .ok pk →
    insertAt y.children (SearchInts y.keys k + 1) c = .ok pc →
    (pk.length > maxKeys → Q { y with keys := pk, children := pc }) ∧
    (¬ pk.length > maxKeys → P { y with keys := pk, children := pc })

/-- A tree that calls of the data part `Insert` built from `NewBlinkTree`, with the entries
inserted, in order.  Every tree that `Insert` calls of the code build (`BuiltLocked`) is among
these (`builtLocked_leaf`); trees with more than one node are among these too, which the code
does not build. -/
inductive Built : BlinkTree → List (Int × List Byte) → Prop where
  | new : Built NewBlinkTree []
  | step {t t1 : BlinkTree} {es : List (Int × List Byte)} {fuel : Nat} {k : Int} {v : List Byte} :
      Built t es → Insert fuel t k v = .ok t1 → Built t1 (es ++ [(k, v)])

end blinktree

end PebbleSQL

namespace PebbleSQL

namespace blinktree

/-- The tree after `Insert(10, [1])`, `Insert(20, [2])`, `Insert(30, [3])`: one leaf. -/
def tree3 : BlinkTree :=
  { heap := [{ isLeaf := true, keys := [10, 20, 30], values := [[1], [2], [3]], children := [],
               parent := none, rightSibling := none }],
    root := 0 }

/-- The tree `tree3` after `Delete(30)`. -/
def tree3del : BlinkTree :=
  { heap := [{ isLeaf := true, keys := [10, 20], values := [[1], [2]], children := [],
               parent := none, rightSibling := none }],
    root := 0 }

/-- The tree after `Insert(30, [1])`, `Insert(30, [2])`: the key 30 is there twice. -/
def treeDup : BlinkTree :=
  { heap := [{ isLeaf := true, keys := [30, 30], values := [[2], [1]], children := [],
               parent := none, rightSibling := none }],
    root := 0 }

/-- The tree `treeDup` after `Delete(30)`. -/
def treeDupDel : BlinkTree :=
  { heap := [{ isLeaf := true, keys := [30], values := [[1]], children := [],
               parent := none, rightSibling := none }],
    root := 0 }

end blinktree

end PebbleSQL

namespace PebbleSQL

namespace blinktree

/-! ## The tree operations with their lock calls

The state of every node's `sync.RWMutex` is kept in a list beside the heap: the mutex of the
node at address `a` is at index `a`.  One goroutine runs; a lock call that would have to wait
for a lock therefore waits for ever. -/

/-- The state of a `sync.RWMutex`: whether the write lock is held, and how many read locks
are held. -/
structure RWMutex where
  writer : Bool
  readers : Nat
  deriving DecidableEq, Repr

/-- How a call ends when it does not return: a panic of the data part, the `log.Fatal` of
`split`, the fatal error of the Go run time for the unlock of a mutex that is not locked
("sync: Unlock of unlocked RWMutex", "sync: RUnlock of unlocked RWMutex"), or a wait for a
lock that nobody releases. -/
inductive Stop where
  | fault (f : Fault)
  | logFatal
  | unlockOfUnlocked
  | blocked
  deriving DecidableEq, Repr

/-- The zero value of `sync.RWMutex`: not locked. -/
def RWMutex.free : RWMutex := { writer := false, readers := 0 }

/-- The method `RLock`: waits while the write lock is held. -/
def RWMutex.RLock (m : RWMutex) : Except Stop RWMutex :=
  if m.writer then .error .blocked else .ok { m with readers := m.readers + 1 }

/-- The method `RUnlock`: a fatal error when no read lock is held. -/
def RWMutex.RUnlock (m : RWMutex) : Except Stop RWMutex :=
  if m.readers = 0 then .error .unlockOfUnlocked else .ok { m with readers := m.readers - 1 }

/-- The method `Lock`: waits while the mutex is locked for reading or writing. -/
def RWMutex.Lock (m : RWMutex) : Except Stop RWMutex :=
  if m.writer ∨ m.readers ≠ 0 then .error .blocked else .ok { m with writer := true }

/-- The method `Unlock`: a fatal error when the write lock is not held. -/
def RWMutex.Unlock (m : RWMutex) : Except Stop RWMutex :=
  if m.writer then .ok { m with writer := false } else .error .unlockOfUnlocked

/-- The method `TryLock`: takes the write lock and reports `true` when the mutex is not
locked, and reports `false` otherwise. -/
def RWMutex.TryLock (m : RWMutex) : Bool × RWMutex :=
  if m.writer ∨ m.readers ≠ 0 then (false, m) else (true, { m with writer := true })

/-- A lock call `n.mu.op()` on the node at address `a`. -/
def lockCall (locks : List RWMutex) (a : Nat) (op : RWMutex → Except Stop RWMutex) :
    Except Stop (List RWMutex) :=
  match locks[a]? with
  | none => .error (.fault .nilDeref)
  | some m => do
    let m ← op m
    pure (locks.set a m)

/-- A step of the data part within a run with locks. -/
def data {α : Type} (x : Except Fault α) : Except Stop α :=
  match x with
  | .ok a => .ok a
  | .error f => .error (.fault f)

/-- The statement `if !n.mu.TryLock() { log.Fatal(...) }` of `split`. -/
def tryLockOrFatal (locks : List RWMutex) (n : Nat) : Except Stop (List RWMutex) :=
  match locks[n]? with
  | none => .error (.fault .nilDeref)
  | some m => if !m.TryLock.1 then .error .logFatal else .ok (locks.set n m.TryLock.2)

/-- The statement `if i == len(n.children) { n = n.rightSibling } else { n = n.children[i] }`
of `Search`. -/
def nextNode (n : Node) (key : Int) : Except Fault (Option Nat) :=
  let i := searchUpper n.keys key
  if i = n.children.length then .ok n.rightSibling
  else
    match n.children[i]? with
    | none => .error .indexOutOfRange
    | some c => .ok (some c)

/-- The loop `for { n.mu.RLock(); ...; n.mu.RUnlock() }` of `Search` with its lock calls:
the leaf that the loop ends at, and the locks. -/
def searchDescendLocked (heap : List Node) (key : Int) :
    Nat → List RWMutex → Option Nat → Except Stop (Nat × List RWMutex)
  | 0, _, _ => .error (.fault .outOfFuel)
  | _ + 1, _, none => .error (.fault .nilDeref)
  | fuel + 1, locks, some a => do
    let locks ← lockCall locks a RWMutex.RLock
    let n ← data (deref heap a)
    if n.isLeaf then pure (a, locks)
    else do
      let next ← data (nextNode n key)
      match next with
      | none => .error (.fault .nilDeref)
      | some b => do
        let locks ← lockCall locks b RWMutex.RUnlock
        searchDescendLocked heap key fuel locks (some b)

/-- The method `Search` with its lock calls: the result and the locks after the call. -/
def SearchLocked (fuel : Nat) (tree : BlinkTree) (locks : List RWMutex) (key : Int) :
    Except Stop ((List Byte × Bool) × List RWMutex) := do
  let (a, locks) ← searchDescendLocked tree.heap key fuel locks (some tree.root)
  let locks ← lockCall locks a RWMutex.RUnlock
  let n ← data (deref tree.heap a)
  let res ← data (scanLeaf key n.values n.keys 0)
  pure (res, locks)

/-- The method `split` with its lock calls.  The new node `right` gets a mutex of its own,
which is locked until `split` returns (`defer right.mu.Unlock()`). -/
def splitLocked : Nat → BlinkTree → List RWMutex → Nat → Except Stop (BlinkTree × List RWMutex)
  | 0, _, _, _ => .error (.fault .outOfFuel)
  | fuel + 1, tree, locks, n => do
    let locks ← tryLockOrFatal locks n
    let node ← data (deref tree.heap n)
    let mid := node.keys.length / 2
    let rightKeys ← data (sliceFrom node.keys mid)
    let r := tree.heap.length
    let right : Node :=
      { isLeaf := node.isLeaf, keys := rightKeys, values := [], children := [],
        rightSibling := node.rightSibling, parent := node.parent }
    let heap := tree.heap ++ [right]
    let locks := locks ++ [RWMutex.free]
    let locks ← lockCall locks r RWMutex.Lock
    let heap ← data (moveUpperHalf heap node mid n r)
    let splitKey ← data (index rightKeys 0)
    let lk ← data (sliceTo node.keys mid)
    let heap ← data (modify heap n (fun x => { x with keys := lk, rightSibling := some r }))
    if tree.root = n then do
      let newRoot : Node :=
        { isLeaf := false, keys := [splitKey], values := [], children := [n, r],
          parent := none, rightSibling := none }
      let rootAddr := heap.length
      let heap := heap ++ [newRoot]
      let locks := locks ++ [RWMutex.free]
      let heap ← data (modify heap n (fun x => { x with parent := some rootAddr }))
      let heap ← data (modify heap r (fun x => { x with parent := some rootAddr }))
      let locks ← lockCall locks r RWMutex.Unlock
      pure ({ heap := heap, root := rootAddr }, locks)
    else do
      let cur ← data (deref heap n)
      match cur.parent with
      | none => .error (.fault .nilDeref)
      | some p => do
        let locks ← lockCall locks p RWMutex.Lock
        let parent ← data (deref heap p)
        let insertPos := SearchInts parent.keys splitKey
        let pk ← data (insertAt parent.keys insertPos splitKey)
        let pc ← data (insertAt parent.children (insertPos + 1) r)
        let heap ← data (modify heap p (fun x => { x with keys := pk, children := pc }))
        let locks ← lockCall locks p RWMutex.Unlock
        if pk.length > maxKeys then do
          let (tree, locks) ← splitLocked fuel { heap := heap, root := tree.root } locks p
          let locks ← lockCall locks r RWMutex.Unlock
          pure (tree, locks)
        else do
          let locks ← lockCall locks r RWMutex.Unlock
          pure ({ heap := heap, root := tree.root }, locks)

/-- The method `insert` with its lock calls. -/
def insertLocked :
    Nat → BlinkTree → List RWMutex → Nat → Int → List Byte → Except Stop (BlinkTree × List RWMutex)
  | 0, _, _, _, _, _ => .error (.fault .outOfFuel)
  | fuel + 1, tree, locks, n, key, value => do
    let node ← data (deref tree.heap n)
    if node.isLeaf then do
      let locks ← lockCall locks n RWMutex.Lock
      let idx := SearchInts node.keys key
      let ks ← data (insertAt node.keys idx key)
      let vs ← data (insertAt node.values idx value)
      let heap ← data (modify tree.heap n (fun x => { x with keys := ks, values := vs }))
      if ks.length > maxKeys then do
        let (tree, locks) ← splitLocked (fuel + 1) { heap := heap, root := tree.root } locks n
        let locks ← lockCall locks n RWMutex.Unlock
        pure (tree, locks)
      else do
        let locks ← lockCall locks n RWMutex.Unlock
        pure ({ heap := heap, root := tree.root }, locks)
    else do
      let i := searchUpper node.keys key
      let locks ← lockCall locks n RWMutex.RLock
      let child ← data (index node.children i)
      let locks ← lockCall locks n RWMutex.RUnlock
      insertLocked fuel tree locks child key value

/-- The method `Insert` with its lock calls. -/
def InsertLocked (fuel : Nat) (tree : BlinkTree) (locks : List RWMutex) (key : Int)
    (value : List Byte) : Except Stop (BlinkTree × List RWMutex) :=
  insertLocked fuel tree locks tree.root key value

/-- Run `Insert`, with its lock calls, for each entry of a list, in order. -/
def insertAllLocked (fuel : Nat) :
    BlinkTree → List RWMutex → List (Int × List Byte) → Except Stop (BlinkTree × List RWMutex)
  | tree, locks, [] => .ok (tree, locks)
  | tree, locks, (k, v) :: es => do
    let (tree, locks) ← InsertLocked fuel tree locks k v
    insertAllLocked fuel tree locks es

/-- A tree that `Insert` calls built from `NewBlinkTree`, every call with its lock calls and
returning, with the locks they left and the entries inserted, in order. -/
inductive BuiltLocked : BlinkTree → List RWMutex → List (Int × List Byte) → Prop where
  | new : BuiltLocked NewBlinkTree [RWMutex.free] []
  | step {t t1 : BlinkTree} {locks locks1 : List RWMutex} {es : List (Int × List Byte)}
      {fuel : Nat} {k : Int} {v : List Byte} :
      BuiltLocked t locks es → InsertLocked fuel t locks k v = .ok (t1, locks1) →
      BuiltLocked t1 locks1 (es ++ [(k, v)])

/-- The entries of `TestBlinkTreeOperations`: the keys 10, 20, ..., 100 with the bytes of
"ten", "twenty", ..., "hundred". -/
def testEntries : List (Int × List Byte) :=
  [(10, [116, 101, 110]), (20, [116, 119, 101, 110, 116, 121]),
   (30, [116, 104, 105, 114, 116, 121]), (40, [102, 111, 114, 116, 121]),
   (50, [102, 105, 102, 116, 121]), (60, [115, 105, 120, 116, 121]),
   (70, [115, 101, 118, 101, 110, 116, 121]), (80, [101, 105, 103, 104, 116, 121]),
   (90, [110, 105, 110, 101, 116, 121]), (100, [104, 117, 110, 100, 114, 101, 100])]

/-- The tree after `Insert` of the first four of the entries `testEntries`: the root is a
leaf with four keys. -/
def treeTest4 : BlinkTree :=
  { heap := [{ isLeaf := true, keys := [10, 20, 30, 40],
               values := [[116, 101, 110], [116, 119, 101, 110, 116, 121],
                          [116, 104, 105, 114, 116, 121], [102, 111, 114, 116, 121]],
               children := [], parent := none, rightSibling := none }],
    root := 0 }

/-- A tree whose root (address 6) is an internal node with five keys over six leaves, as
`split` of a leaf leaves it before it calls `split` on the parent. -/
def treeWide : BlinkTree :=
  { heap :=
      [{ isLeaf := true, keys := [1, 2], values := [[1], [2]], children := [],
         parent := some 6, rightSibling := some 1 },
       { isLeaf := true, keys := [3, 4], values := [[3], [4]], children := [],
         parent := some 6, rightSibling := some 2 },
       { isLeaf := true, keys := [5, 6], values := [[5], [6]], children := [],
         parent := some 6, rightSibling := some 3 },
       { isLeaf := true, keys := [7, 8], values := [[7], [8]], children := [],
         parent := some 6, rightSibling := some 4 },
       { isLeaf := true, keys := [9, 10], values := [[9], [10]], children := [],
         parent := some 6, rightSibling := some 5 },
       { isLeaf := true, keys := [11, 12], values := [[11], [12]], children := [],
         parent := some 6, rightSibling := none },
       { isLeaf := false, keys := [3, 5, 7, 9, 11], values := [], children := [0, 1, 2, 3, 4, 5],
         parent := none, rightSibling := none }],
    root := 6 }

/-- The tree `treeWide` after `split` of its root: the node at address 6 keeps the keys
`[3, 5]` and three children, the new node at address 7 has the keys `[7, 9, 11]` and three
children, and the new root (address 8) has the key 7. -/
def treeWideSplit : BlinkTree :=
  { heap :=
      [{ isLeaf := true, keys := [1, 2], values := [[1], [2]], children := [],
         parent := some 6, rightSibling := some 1 },
       { isLeaf := true, keys := [3, 4], values := [[3], [4]], children := [],
         parent := some 6, rightSibling := some 2 },
       { isLeaf := true, keys := [5, 6], values := [[5], [6]], children := [],
         parent := some 6, rightSibling := some 3 },
       { isLeaf := true, keys := [7, 8], values := [[7], [8]], children := [],
         parent := some 7, rightSibling := some 4 },
       { isLeaf := true, keys := [9, 10], values := [[9], [10]], children := [],
         parent := some 7, rightSibling := some 5 },
       { isLeaf := true, keys := [11, 12], values := [[11], [12]], children := [],
         parent := some 7, rightSibling := none },
       { isLeaf := false, keys := [3, 5], values := [], children := [0, 1, 2],
         parent := some 8, rightSibling := some 7 },
       { isLeaf := false, keys := [7, 9, 11], values := [], children := [3, 4, 5],
         parent := some 8, rightSibling := none },
       { isLeaf := false, keys := [7], values := [], children := [6, 7],
         parent := none, rightSibling := none }],
    root := 8 }

/-- The entries `(1, [1]), ..., (4, [4])`. -/
def seq4 : List (Int × List Byte) := [(1, [1]), (2, [2]), (3, [3]), (4, [4])]

/-- The tree after `Insert` of the entries `seq4`: the root is a leaf with four keys. -/
def tree4 : BlinkTree :=
  { heap := [{ isLeaf := true, keys := [1, 2, 3, 4], values := [[1], [2], [3], [4]],
               children := [], parent := none, rightSibling := none }],
    root := 0 }

/-- A tree whose root is a leaf with five keys, as `insert` leaves it before it calls
`split`. -/
def treeFive : BlinkTree :=
  { heap := [{ isLeaf := true, keys := [1, 2, 3, 4, 5], values := [[1], [2], [3], [4], [5]],
               children := [], parent := none, rightSibling := none }],
    root := 0 }

/-- The tree `treeFive` after `split` of its root: an internal root (address 2) over the
leaves at the addresses 0 and 1. -/
def tree5 : BlinkTree :=
  { heap :=
      [{ isLeaf := true, keys := [1, 2], values := [[1], [2]], children := [],
         parent := some 2, rightSibling := some 1 },
       { isLeaf := true, keys := [3, 4, 5], values := [[3], [4], [5]], children := [],
         parent := some 2, rightSibling := none },
       { isLeaf := false, keys := [3], values := [], children := [0, 1],
         parent := none, rightSibling := none }],
    root := 2 }

end blinktree

end PebbleSQL

/-!
## The page codec (`internal/storage/page.go`) and the page store (`DiskManager.go`)

A buffer `[]byte` is a list of bytes.  A function that writes through a sub-slice
`buf[lo:hi]` is modelled by taking the sub-slice (`slice`), computing its new contents,
and putting them back in place (`splice`).  Unsigned machine integers are natural numbers
reduced modulo `2^16`, `2^32` or `2^64` where the code computes with them.
-/

namespace PebbleSQL

namespace storage

def PageSize : Nat := 4096
def PageHeaderSize : Nat := 20
def OverflowHeaderSize : Nat := 6
def OverflowDataSize : Nat := PageSize - OverflowHeaderSize
def MagicNumberBLinkTree : Nat := 0xB10CDBDB
def CurrentPageVersion : Nat := 1
def InlineThreshold : Nat := PageSize / 4

/-- The struct `PageHeader`. -/
structure PageHeader where
  MagicNumber : Nat
  PageVersion : Nat
  IsLeaf : Bool
  NumKeys : Nat
  FreeSpaceOffset : Nat
  FreeSpaceEnd : Nat
  RightSiblingPageID : Nat
  deriving DecidableEq, Repr

/-- The struct `SlotEntry`. -/
structure SlotEntry where
  Key : Nat
  ValueOffset : Nat
  ValueLength : Nat
  OverflowPageID : Nat
  ChildPageID : Nat
  Deleted : Bool
  deriving DecidableEq, Repr

/-- The struct `OverflowPageHeader`. -/
structure OverflowPageHeader where
  NextOverflowPageID : Nat
  DataLength : Nat
  deriving DecidableEq, Repr

/-- The struct `BLinkTreePage`. -/
structure BLinkTreePage where
  Buf : List Byte
  deriving DecidableEq, Repr

/-- The struct `OverflowPage`. -/
structure OverflowPage where
  Buf : List Byte
  deriving DecidableEq, Repr

/-- The value of `unsafe.Sizeof(PageHeader{})`: the fields lie at offsets 0, 4, 6, 8, 10,
12 and 16, and the last one is four bytes wide. -/
def sizeofPageHeader : Nat := 20

/-- The value of `unsafe.Sizeof(SlotEntry{})`: the fields `Key` to `ChildPageID` take the
offsets 0 to 19, the field `Deleted bool` lies at offset 20, and the size of a struct is
rounded up to its alignment (that of `uint64`), which gives 24. -/
def sizeofSlotEntry : Nat := 24

/-- The errors returned as Go `error` values: `ErrorKeyNotFound`, and whatever the
overflow loader reports. -/
inductive Err where
  | ErrorKeyNotFound
  | loadFailed (code : Nat)
  deriving DecidableEq, Repr

/-- Conversion of a number to a byte, the low eight bits. -/
def toByte (v : Nat) : Byte := ⟨v % 256, Nat.mod_lt _ (by decide)⟩

/-- The slice expression `buf[lo:hi]`. -/
def slice (buf : List Byte) (lo hi : Nat) : Except Fault (List Byte) :=
  if lo ≤ hi ∧ hi ≤ buf.length then .ok ((buf.take hi).drop lo) else .error .indexOutOfRange

/-- The buffer after the bytes from `lo` on were overwritten with `w`. -/
def splice (buf : List Byte) (lo : Nat) (w : List Byte) : List Byte :=
  buf.take lo ++ w ++ buf.drop (lo + w.length)

/-- The builtin `copy(dst, src)`: the new contents of `dst`. -/
def copyBytes (dst src : List Byte) : List Byte :=
  src.take dst.length ++ dst.drop src.length

/-- The bytes written by `binary.LittleEndian.PutUint16`. -/
def putUint16 (v : Nat) : List Byte := [toByte v, toByte (v / 2 ^ 8)]

/-- The bytes written by `binary.LittleEndian.PutUint32`. -/
def putUint32 (v : Nat) : List Byte :=
  [toByte v, toByte (v / 2 ^ 8), toByte (v / 2 ^ 16), toByte (v / 2 ^ 24)]

/-- The bytes written by `binary.LittleEndian.PutUint64`. -/
def putUint64 (v : Nat) : List Byte :=
  [toByte v, toByte (v / 2 ^ 8), toByte (v / 2 ^ 16), toByte (v / 2 ^ 24),
   toByte (v / 2 ^ 32), toByte (v / 2 ^ 40), toByte (v / 2 ^ 48), toByte (v / 2 ^ 56)]

/-- The byte `b[i]` as a number. -/
def byteAt (b : List Byte) (i : Nat) : Nat := (b.getD i 0).val

/-- The value of `binary.LittleEndian.Uint16(b[off:off+2])`. -/
def getUint16 (b : List Byte) (off : Nat) : Nat :=
  byteAt b off + 2 ^ 8 * byteAt b (off + 1)

/-- The value of `binary.LittleEndian.Uint32(b[off:off+4])`. -/
def getUint32 (b : List Byte) (off : Nat) : Nat :=
  byteAt b off + 2 ^ 8 * byteAt b (off + 1) + 2 ^ 16 * byteAt b (off + 2)
    + 2 ^ 24 * byteAt b (off + 3)

/-- The value of `binary.LittleEndian.Uint64(b[off:off+8])`. -/
def getUint64 (b : List Byte) (off : Nat) : Nat :=
  byteAt b off + 2 ^ 8 * byteAt b (off + 1) + 2 ^ 16 * byteAt b (off + 2)
    + 2 ^ 24 * byteAt b (off + 3) + 2 ^ 32 * byteAt b (off + 4) + 2 ^ 40 * byteAt b (off + 5)
    + 2 ^ 48 * byteAt b (off + 6) + 2 ^ 56 * byteAt b (off + 7)

def boolToByte (b : Bool) : Byte := if b then 1 else 0

def byteToBool (b : Byte) : Bool := b != 0

/-- The function `WriteHeader`: the new contents of `buf`. -/
def WriteHeader (buf : List Byte) (header : PageHeader) : Except Fault (List Byte) :=
  if buf.length < sizeofPageHeader then .error .bufferTooSmall
  else
    .ok (putUint32 header.MagicNumber ++ putUint16 header.PageVersion
      ++ [boolToByte header.IsLeaf, 0]
      ++ putUint16 header.NumKeys ++ putUint16 header.FreeSpaceOffset
      ++ putUint16 header.FreeSpaceEnd ++ [0, 0]
      ++ putUint32 header.RightSiblingPageID ++ buf.drop 20)

/-- The function `ReadHeader`. -/
def ReadHeader (buf : List Byte) : Except Fault PageHeader :=
  if buf.length < sizeofPageHeader then .error .bufferTooSmall
  else
    .ok { MagicNumber := getUint32 buf 0,
          PageVersion := getUint16 buf 4,
          IsLeaf := byteToBool (buf.getD 6 0),
          NumKeys := getUint16 buf 8,
          FreeSpaceOffset := getUint16 buf 10,
          FreeSpaceEnd := getUint16 buf 12,
          RightSiblingPageID := getUint32 buf 16 }

/-- The function `WriteSlot`: the new contents of `buf`; the field `Deleted` is not
written. -/
def WriteSlot (buf : List Byte) (slot : SlotEntry) : Except Fault (List Byte) :=
  if buf.length < sizeofSlotEntry then .error .bufferTooSmall
  else
    .ok (putUint64 slot.Key ++ putUint16 slot.ValueOffset ++ putUint16 slot.ValueLength
      ++ putUint32 slot.OverflowPageID ++ putUint32 slot.ChildPageID ++ buf.drop 20)

/-- The function `ReadSlot`; the field `Deleted` takes its zero value. -/
def ReadSlot (buf : List Byte) : Except Fault SlotEntry :=
  if buf.length < sizeofSlotEntry then .error .bufferTooSmall
  else
    .ok { Key := getUint64 buf 0,
          ValueOffset := getUint16 buf 8,
          ValueLength := getUint16 buf 10,
          OverflowPageID := getUint32 buf 12,
          ChildPageID := getUint32 buf 16,
          Deleted := false }

/-- The function `WriteOverflowHeader`: the new contents of `buf`. -/
def WriteOverflowHeader (buf : List Byte) (header : OverflowPageHeader) : Except Fault (List Byte) :=
  if buf.length < OverflowHeaderSize then .error .bufferTooSmall
  else .ok (putUint32 header.NextOverflowPageID ++ putUint16 header.DataLength ++ buf.drop 6)

/-- The function `ReadOverflowHeader`. -/
def ReadOverflowHeader (buf : List Byte) : Except Fault OverflowPageHeader :=
  if buf.length < OverflowHeaderSize then .error .bufferTooSmall
  else .ok { NextOverflowPageID := getUint32 buf 0, DataLength := getUint16 buf 4 }

/-- The slot read by `ReadSlot(buf[slotOffset : slotOffset+slotSize])` for slot number `i`. -/
def readSlotAt (buf : List Byte) (i : Nat) : Except Fault SlotEntry := do
  let slotOffset := sizeofPageHeader + i * sizeofSlotEntry
  let s ← slice buf slotOffset (slotOffset + sizeofSlotEntry)
  ReadSlot s

/-- The loop of `findInsertPosition`, from index `i` with `todo` indices left. -/
def findInsertLoop (buf : List Byte) (key : Nat) : Nat → Nat → Except Fault Nat
  | 0, i => .ok i
  | todo + 1, i => do
    let existingSlot ← readSlotAt buf i
    if key < existingSlot.Key then pure i else findInsertLoop buf key todo (i + 1)

/-- The function `findInsertPosition`. -/
def findInsertPosition (buf : List Byte) (numKeys : Nat) (key : Nat) : Except Fault Nat :=
  findInsertLoop buf key numKeys 0

/-- The function `shiftSlots`: the new contents of `buf`. -/
def shiftSlots (buf : List Byte) (insertPos : Nat) (numKeys : Nat) : Except Fault (List Byte) := do
  let srcOffset := sizeofPageHeader + insertPos * sizeofSlotEntry
  let dstOffset := srcOffset + sizeofSlotEntry
  let moveSize := (numKeys - insertPos) * sizeofSlotEntry
  let dst ← slice buf dstOffset (dstOffset + moveSize)
  let src ← slice buf srcOffset (srcOffset + moveSize)
  pure (splice buf dstOffset (copyBytes dst src))

/-- The state of the overflow loop of `InsertKeyValue`: the pages that are complete, the
page `lastOverFlowPage` points to, and the allocator. -/
structure ChainState (σ : Type) where
  firstOverFlowPageID : Nat
  done : List (Nat × OverflowPage)
  last : Option (Nat × OverflowPage)
  alloc : σ

/-- The statement `if lastOverFlowPage != nil { ... } else { ... }` of the overflow loop:
the page written before gets the id of the new page as next-id, or the new page is the first
of the chain.  The result is the id of the first page and the pages that are complete. -/
def linkLast {σ : Type} (st : ChainState σ) (overflowPageID : Nat) :
    Except Fault (Nat × List (Nat × OverflowPage)) :=
  match st.last with
  | some (lastID, lastPage) => do
    let lbuf ← WriteOverflowHeader lastPage.Buf
      { NextOverflowPageID := overflowPageID, DataLength := OverflowDataSize }
    pure (st.firstOverFlowPageID, st.done ++ [(lastID, { Buf := lbuf })])
  | none => pure (overflowPageID, st.done)

/-- The loop `for remaining > 0 { ... }` of `InsertKeyValue`.  Every call of the allocator
returns a page object of its own. -/
def overflowLoop {σ : Type} (allocateOverflowPage : σ → (OverflowPage × Nat) × σ) :
    Nat → Nat → List Byte → ChainState σ → Except Fault (ChainState σ)
  | 0, remaining, _, st => if remaining > 0 then .error .outOfFuel else .ok st
  | fuel + 1, remaining, currentData, st =>
    if remaining > 0 then do
      let overflowPage := (allocateOverflowPage st.alloc).1.1
      let overflowPageID := (allocateOverflowPage st.alloc).1.2
      let alloc := (allocateOverflowPage st.alloc).2
      let chunkSize := if remaining < OverflowDataSize then remaining else OverflowDataSize
      let buf ← WriteOverflowHeader overflowPage.Buf
        { NextOverflowPageID := 0, DataLength := chunkSize % 2 ^ 16 }
      let dst ← slice buf OverflowHeaderSize (OverflowHeaderSize + chunkSize)
      let src ← slice currentData 0 chunkSize
      let buf := splice buf OverflowHeaderSize (copyBytes dst src)
      let linked ← linkLast st overflowPageID
      let rest ← slice currentData chunkSize currentData.length
      overflowLoop allocateOverflowPage fuel (remaining - chunkSize) rest
        { firstOverFlowPageID := linked.1, done := linked.2,
          last := some (overflowPageID, { Buf := buf }), alloc := alloc }
    else .ok st

/-- What `InsertKeyValue` leaves behind: the page, the overflow pages it obtained from the
allocator (in the order of allocation, with their final contents), the allocator, and the
returned `error`. -/
structure InsertOutcome (σ : Type) where
  page : BLinkTreePage
  overflow : List (Nat × OverflowPage)
  alloc : σ
  err : Option Err
  deriving DecidableEq

/-- The statement `if fitsInline && valueSize > 0 { ... } else { ... }` of `InsertKeyValue`:
the value goes to the tail of the free space of the page, or to overflow pages.  The result is
the buffer of the page, the slot, the header and the overflow pages. -/
def placeValue {σ : Type} (buf : List Byte) (header : PageHeader) (slot : SlotEntry)
    (value : List Byte) (allocateOverflowPage : σ → (OverflowPage × Nat) × σ) (alloc : σ) :
    Except Fault (List Byte × SlotEntry × PageHeader × ChainState σ) :=
  let slotSize := sizeofSlotEntry % 2 ^ 16
  let freeSpace := (header.FreeSpaceEnd + 2 ^ 16 - header.FreeSpaceOffset) % 2 ^ 16
  let valueSize := value.length % 2 ^ 16
  let neededSpace := (slotSize + valueSize) % 2 ^ 16
  let fitsInline := decide (freeSpace ≥ neededSpace) && decide (value.length ≤ InlineThreshold)
  if fitsInline && decide (valueSize > 0) then do
    let dataEnd := (header.FreeSpaceEnd + 2 ^ 16 - valueSize) % 2 ^ 16
    let dst ← slice buf dataEnd header.FreeSpaceEnd
    let buf := splice buf dataEnd (copyBytes dst value)
    pure (buf, { slot with ValueOffset := dataEnd, ValueLength := valueSize },
      { header with FreeSpaceEnd := dataEnd },
      { firstOverFlowPageID := 0, done := [], last := none, alloc := alloc })
  else do
    let st ← overflowLoop allocateOverflowPage value.length value.length value
      { firstOverFlowPageID := 0, done := [], last := none, alloc := alloc }
    pure (buf, { slot with OverflowPageID := st.firstOverFlowPageID }, header, st)

/-- The last part of `InsertKeyValue` (from `insertPos := findInsertPosition(...)` to
`WriteHeader`): the slot goes to its place in the slot array and the header is written. -/
def insertSlot (buf : List Byte) (header : PageHeader) (slot : SlotEntry) (key : Nat) :
    Except Fault (List Byte) := do
  let slotSize := sizeofSlotEntry % 2 ^ 16
  let insertPos ← findInsertPosition buf header.NumKeys key
  let buf ← (if insertPos < header.NumKeys then shiftSlots buf insertPos header.NumKeys
    else pure buf)
  let slotOffset := sizeofPageHeader + insertPos * slotSize
  let s ← slice buf slotOffset (slotOffset + slotSize)
  let s ← WriteSlot s slot
  let buf := splice buf slotOffset s
  let header := { header with NumKeys := (header.NumKeys + 1) % 2 ^ 16,
                              FreeSpaceOffset := (header.FreeSpaceOffset + slotSize) % 2 ^ 16 }
  let h ← slice buf 0 PageHeaderSize
  let h ← WriteHeader h header
  pure (splice buf 0 h)

/-- The method `InsertKeyValue`. -/
def InsertKeyValue {σ : Type} (p : BLinkTreePage) (key : Nat) (value : List Byte)
    (allocateOverflowPage : σ → (OverflowPage × Nat) × σ) (alloc : σ) :
    Except Fault (InsertOutcome σ) := do
  let hb ← slice p.Buf 0 PageHeaderSize
  let header ← ReadHeader hb
  let slot : SlotEntry :=
    { Key := key, ValueOffset := 0, ValueLength := 0, OverflowPageID := 0, ChildPageID := 0,
      Deleted := false }
  let (buf, slot, header, st) ← placeValue p.Buf header slot value allocateOverflowPage alloc
  let buf ← insertSlot buf header slot key
  pure { page := { Buf := buf }, overflow := st.done ++ st.last.toList, alloc := st.alloc,
         err := none }

/-- The loop `for overflowPageID != 0 { ... }` of `FindKey`. -/
def readChain (loadOverflowPage : Nat → Except Err OverflowPage) :
    Nat → Nat → List Byte → Except Fault (List Byte × Option Err)
  | 0, overflowPageID, result =>
    if overflowPageID ≠ 0 then .error .outOfFuel else .ok (result, none)
  | fuel + 1, overflowPageID, result =>
    if overflowPageID ≠ 0 then
      match loadOverflowPage overflowPageID with
      | .error err => .ok ([], some err)
      | .ok overflowPage => do
        let overflowHeader ← ReadOverflowHeader overflowPage.Buf
        let dataStart := OverflowHeaderSize
        let dataEnd := dataStart + overflowHeader.DataLength
        let data ← slice overflowPage.Buf dataStart dataEnd
        readChain loadOverflowPage fuel overflowHeader.NextOverflowPageID (result ++ data)
    else .ok (result, none)

/-- The branch `if key == slot.Key { ... }` of `FindKey`: the value of a slot, taken from
the page or put together from its overflow pages. -/
def loadValue (buf : List Byte) (slot : SlotEntry)
    (loadOverflowPage : Nat → Except Err OverflowPage) (chainFuel : Nat) :
    Except Fault (List Byte × Option Err) :=
  if slot.OverflowPageID = 0 then do
    let valueStart := slot.ValueOffset
    let valueEnd := (valueStart + slot.ValueLength) % 2 ^ 16
    let value ← slice buf valueStart valueEnd
    pure (value, none)
  else readChain loadOverflowPage chainFuel slot.OverflowPageID []

/-- The loop `for low <= high { ... }` of `FindKey`; `high - low` falls at every turn. -/
def findLoop (buf : List Byte) (key : Nat) (loadOverflowPage : Nat → Except Err OverflowPage)
    (chainFuel : Nat) : Nat → Int → Int → Except Fault (List Byte × Option Err)
  | 0, _, _ => .error .outOfFuel
  | fuel + 1, low, high =>
    if low ≤ high then do
      let mid := (low + high) / 2
      let slot ← readSlotAt buf mid.toNat
      if key = slot.Key then loadValue buf slot loadOverflowPage chainFuel
      else if key < slot.Key then findLoop buf key loadOverflowPage chainFuel fuel low (mid - 1)
      else findLoop buf key loadOverflowPage chainFuel fuel (mid + 1) high
    else .ok ([], some .ErrorKeyNotFound)

/-- The method `FindKey`; `chainFuel` bounds the number of overflow pages followed. -/
def FindKey (p : BLinkTreePage) (key : Nat) (loadOverflowPage : Nat → Except Err OverflowPage)
    (chainFuel : Nat) : Except Fault (List Byte × Option Err) := do
  let hb ← slice p.Buf 0 20
  let header ← ReadHeader hb
  findLoop p.Buf key loadOverflowPage chainFuel (header.NumKeys + 1) 0 ((header.NumKeys : Int) - 1)

/-- The loop of `DeleteKey`: the new contents of the buffer and the returned `error`. -/
def deleteLoop (buf : List Byte) (key : Nat) : Nat → Int → Int → Except Fault (List Byte × Option Err)
  | 0, _, _ => .error .outOfFuel
  | fuel + 1, low, high =>
    if low ≤ high then do
      let mid := (low + high) / 2
      let slotOffset := sizeofPageHeader + mid.toNat * sizeofSlotEntry
      let slot ← readSlotAt buf mid.toNat
      if slot.Key = key then do
        let slot := { slot with Deleted := true }
        let s ← slice buf slotOffset (slotOffset + sizeofSlotEntry)
        let s ← WriteSlot s slot
        pure (splice buf slotOffset s, none)
      else if key < slot.Key then deleteLoop buf key fuel low (mid - 1)
      else deleteLoop buf key fuel (mid + 1) high
    else .ok (buf, some .ErrorKeyNotFound)

/-- The method `DeleteKey`. -/
def DeleteKey (p : BLinkTreePage) (key : Nat) : Except Fault (BLinkTreePage × Option Err) := do
  let hb ← slice p.Buf 0 20
  let header ← ReadHeader hb
  let (buf, err) ← deleteLoop p.Buf key (header.NumKeys + 1) 0 ((header.NumKeys : Int) - 1)
  pure ({ Buf := buf }, err)

/-- The struct `PebbleSQLDiskManager`, as far as page allocation goes: the counter. -/
structure PebbleSQLDiskManager where
  nextPageID : Nat
  deriving DecidableEq, Repr

/-- The method `AllocatePage`: `atomic.AddUint32(&d.nextPageID, 1) - 1`. -/
def AllocatePage (d : PebbleSQLDiskManager) : Nat × PebbleSQLDiskManager :=
  let new := (d.nextPageID + 1) % 2 ^ 32
  ((new + 2 ^ 32 - 1) % 2 ^ 32, { nextPageID := new })

/-- The method `AllocateOverflowPage`. -/
def AllocateOverflowPage (d : PebbleSQLDiskManager) : (OverflowPage × Nat) × PebbleSQLDiskManager :=
  let (pageID, d) := AllocatePage d
  (({ Buf := List.replicate PageSize 0 }, pageID), d)

/-- A loader that finds a page among given ones by its id (the first with that id), and
fails for an id that is not there. -/
def loaderOf (pages : List (Nat × OverflowPage)) (pageID : Nat) : Except Err OverflowPage :=
  match pages.find? (fun q => q.1 = pageID) with
  | some q => .ok q.2
  | none => .error (.loadFailed pageID)

/-- The empty page that insertions start from (the repository has no constructor of pages):
a zeroed buffer of `size` bytes whose header has key count 0, free-space-start 20 and
free-space-end `size`. -/
def emptyPage (size : Nat) : Except Fault BLinkTreePage := do
  let h ← WriteHeader (List.replicate size 0)
    { MagicNumber := MagicNumberBLinkTree, PageVersion := CurrentPageVersion, IsLeaf := true,
      NumKeys := 0, FreeSpaceOffset := PageHeaderSize, FreeSpaceEnd := size % 2 ^ 16,
      RightSiblingPageID := 0 }
  pure { Buf := h }

end storage

end PebbleSQL

namespace PebbleSQL

namespace storage

/-- The slot number `i` of a buffer, as `ReadSlot` decodes it from the bytes
`buf[20 + 24*i : 20 + 24*i + 24]`. -/
def slotOf (buf : List Byte) (i : Nat) : SlotEntry :=
  { Key := getUint64 buf (sizeofPageHeader + i * sizeofSlotEntry),
    ValueOffset := getUint16 buf (sizeofPageHeader + i * sizeofSlotEntry + 8),
    ValueLength := getUint16 buf (sizeofPageHeader + i * sizeofSlotEntry + 10),
    OverflowPageID := getUint32 buf (sizeofPageHeader + i * sizeofSlotEntry + 12),
    ChildPageID := getUint32 buf (sizeofPageHeader + i * sizeofSlotEntry + 16),
    Deleted := false }

/-- The slot that `ReadSlot` reads after `WriteSlot` wrote `slot`: every field is cut down to
the width of its type, and `Deleted`, which is not written, is `false`. -/
def normSlot (slot : SlotEntry) : SlotEntry :=
  { Key := slot.Key % 2 ^ 64, ValueOffset := slot.ValueOffset % 2 ^ 16,
    ValueLength := slot.ValueLength % 2 ^ 16, OverflowPageID := slot.OverflowPageID % 2 ^ 32,
    ChildPageID := slot.ChildPageID % 2 ^ 32, Deleted := false }

/-- The keys of the first `n` slots of a buffer, in the order of the slots. -/
def slotKeys (buf : List Byte) (n : Nat) : List Nat :=
  (List.range n).map (fun i => (slotOf buf i).Key)

/-- The header of a page, as `ReadHeader(p.Buf[:PageHeaderSize])` gives it. -/
def pageHeader (p : BLinkTreePage) : Except Fault PageHeader := do
  let hb ← slice p.Buf 0 PageHeaderSize
  ReadHeader hb

/-- The ids that the first `k` calls of an allocator return, from the state `s` on. -/
def allocIds {σ : Type} (allocateOverflowPage : σ → (OverflowPage × Nat) × σ) : Nat → σ → List Nat
  | 0, _ => []
  | k + 1, s => (allocateOverflowPage s).1.2 :: allocIds allocateOverflowPage k (allocateOverflowPage s).2

/-- The ids that `k` calls of `AllocatePage` return, one after the other, from the store
`d` on. -/
def allocatePages : Nat → PebbleSQLDiskManager → List Nat
  | 0, _ => []
  | k + 1, d => (AllocatePage d).1 :: allocatePages k (AllocatePage d).2

/-- The number of overflow pages a value of `len` bytes takes: `len / 4090`, rounded up. -/
def chunkCount (len : Nat) : Nat := (len + OverflowDataSize - 1) / OverflowDataSize

/-- An overflow page after the overflow loop wrote the id of the page allocated after it into
its header (with data length `OverflowDataSize`). -/
def linkTo (id : Nat) (q : Nat × OverflowPage) : Nat × OverflowPage :=
  (q.1, { Buf := putUint32 id ++ putUint16 OverflowDataSize ++ q.2.Buf.drop 6 })

/-- An overflow chain that holds `data`: every page has a header with the data length of its
chunk (`OverflowDataSize`, or all that is left of the data when that is less) and the id of
the page after it (0 for the last page), and holds its chunk behind the header; the chunks,
in the order of the pages, make up `data`. -/
def ChainHolds : List (Nat × OverflowPage) → List Byte → Prop
  | [], data => data = []
  | (_, pg) :: rest, data =>
    ∃ hdr : OverflowPageHeader, ReadOverflowHeader pg.Buf = .ok hdr ∧
      hdr.NextOverflowPageID = (rest.head?.map Prod.fst).getD 0 ∧
      0 < hdr.DataLength ∧ hdr.DataLength ≤ data.length ∧
      hdr.DataLength = min data.length OverflowDataSize ∧
      slice pg.Buf OverflowHeaderSize (OverflowHeaderSize + hdr.DataLength)
        = .ok (data.take hdr.DataLength) ∧
      ChainHolds rest (data.drop hdr.DataLength)

/-- A page that holds the keys `ks`: its header is consistent with its slot array (the slot
array ends at or before free-space-start, free-space-start is not behind free-space-end, and
free-space-end lies within the buffer), its slot keys are in non-decreasing order, and they
are the keys `ks`, each as often as it is in `ks`. -/
def PageOK (p : BLinkTreePage) (ks : List Nat) : Prop :=
  ∃ h : PageHeader, pageHeader p = .ok h ∧
    sizeofPageHeader + h.NumKeys * sizeofSlotEntry ≤ h.FreeSpaceOffset ∧
    h.FreeSpaceOffset ≤ h.FreeSpaceEnd ∧ h.FreeSpaceEnd ≤ p.Buf.length ∧
    (slotKeys p.Buf h.NumKeys).Pairwise (· ≤ ·) ∧ (slotKeys p.Buf h.NumKeys).Perm ks

/-- A page that `InsertKeyValue` calls built from an empty page (of less than `2^16` bytes),
with the keys inserted, in order; each call was made with a key of 64 bits while the page had
24 free bytes for the slot, and returned. -/
inductive PageBuilt : BLinkTreePage → List Nat → Prop where
  | empty {size : Nat} {p : BLinkTreePage} :
      size < 2 ^ 16 → emptyPage size = .ok p → PageBuilt p []
  | step {σ : Type} {p : BLinkTreePage} {ks : List Nat} {h : PageHeader} {key : Nat}
      {value : List Byte} {alloc : σ → (OverflowPage × Nat) × σ} {a : σ} {out : InsertOutcome σ} :
      PageBuilt p ks → pageHeader p = .ok h →
      h.FreeSpaceOffset + sizeofSlotEntry ≤ h.FreeSpaceEnd → key < 2 ^ 64 →
      InsertKeyValue p key value alloc a = .ok out → PageBuilt out.page (ks ++ [key])

end storage

end PebbleSQL

namespace PebbleSQL

namespace storage

/-- The header of a leaf page without right sibling that holds `n` keys and whose free space
runs from `off` to `fin`. -/
def leafHeader (n off fin : Nat) : PageHeader :=
  { MagicNumber := MagicNumberBLinkTree, PageVersion := CurrentPageVersion, IsLeaf := true,
    NumKeys := n, FreeSpaceOffset := off, FreeSpaceEnd := fin, RightSiblingPageID := 0 }

/-- The empty page of 100 bytes, `emptyPage 100`. -/
def page100 : BLinkTreePage :=
  { Buf := [219, 219, 12, 177, 1, 0, 1, 0, 0, 0, 20, 0, 100, 0, 0, 0, 0, 0, 0, 0]
      ++ List.replicate 80 0 }

/-- The page `page100` after `InsertKeyValue(5, [1, 2, 3])`: one slot, the value in the last
three bytes. -/
def pageWith5 : BLinkTreePage :=
  { Buf := [219, 219, 12, 177, 1, 0, 1, 0, 1, 0, 44, 0, 97, 0, 0, 0, 0, 0, 0, 0]
      ++ [5, 0, 0, 0, 0, 0, 0, 0, 97, 0, 3, 0, 0, 0, 0, 0, 0, 0, 0, 0]
      ++ List.replicate 57 0 ++ [1, 2, 3] }

/-- The page `pageWith5` after `InsertKeyValue(3, [4, 5])`: the slot of key 3 went before the
slot of key 5. -/
def pageWith35 : BLinkTreePage :=
  { Buf := [219, 219, 12, 177, 1, 0, 1, 0, 2, 0, 68, 0, 95, 0, 0, 0, 0, 0, 0, 0]
      ++ [3, 0, 0, 0, 0, 0, 0, 0, 95, 0, 2, 0, 0, 0, 0, 0, 0, 0, 0, 0] ++ [0, 0, 0, 0]
      ++ [5, 0, 0, 0, 0, 0, 0, 0, 97, 0, 3, 0, 0, 0, 0, 0, 0, 0, 0, 0]
      ++ List.replicate 31 0 ++ [4, 5, 1, 2, 3] }

/-- The page `pageWith5` after `InsertKeyValue(5, [4, 5])`, the key 5 for the second time:
two slots with key 5, the first with the value `[1, 2, 3]`. -/
def pageWith55 : BLinkTreePage :=
  { Buf := [219, 219, 12, 177, 1, 0, 1, 0, 2, 0, 68, 0, 95, 0, 0, 0, 0, 0, 0, 0]
      ++ [5, 0, 0, 0, 0, 0, 0, 0, 97, 0, 3, 0, 0, 0, 0, 0, 0, 0, 0, 0] ++ [0, 0, 0, 0]
      ++ [5, 0, 0, 0, 0, 0, 0, 0, 95, 0, 2, 0, 0, 0, 0, 0, 0, 0, 0, 0]
      ++ List.replicate 31 0 ++ [4, 5, 1, 2, 3] }

/-- The page `page100` after `InsertKeyValue(1, v)` for a value `v` of 56 bytes `7`: slot and
value take up the 80 free bytes, free-space-start and free-space-end are both 44. -/
def pageFull100 : BLinkTreePage :=
  { Buf := [219, 219, 12, 177, 1, 0, 1, 0, 1, 0, 44, 0, 44, 0, 0, 0, 0, 0, 0, 0]
      ++ [1, 0, 0, 0, 0, 0, 0, 0, 44, 0, 56, 0, 0, 0, 0, 0, 0, 0, 0, 0] ++ [0, 0, 0, 0]
      ++ List.replicate 56 7 }

/-- The page `pageFull100` after `InsertKeyValue(2, [])`: the slot of key 2 lies in the bytes
44 to 67, where the value of key 1 began, and free-space-start is 68, free-space-end 44. -/
def pageOver100 : BLinkTreePage :=
  { Buf := [219, 219, 12, 177, 1, 0, 1, 0, 2, 0, 68, 0, 44, 0, 0, 0, 0, 0, 0, 0]
      ++ [1, 0, 0, 0, 0, 0, 0, 0, 44, 0, 56, 0, 0, 0, 0, 0, 0, 0, 0, 0] ++ [0, 0, 0, 0]
      ++ [2, 0, 0, 0, 0, 0, 0, 0, 0, 0, 0, 0, 0, 0, 0, 0, 0, 0, 0, 0]
      ++ List.replicate 36 7 }

/-- The page `pageWith5` after `InsertKeyValue(5, [])`, the key 5 for the second time with an
empty value: two slots with key 5, the first with the value `[1, 2, 3]`. -/
def pageWith5E : BLinkTreePage :=
  { Buf := [219, 219, 12, 177, 1, 0, 1, 0, 2, 0, 68, 0, 97, 0, 0, 0, 0, 0, 0, 0]
      ++ [5, 0, 0, 0, 0, 0, 0, 0, 97, 0, 3, 0, 0, 0, 0, 0, 0, 0, 0, 0] ++ [0, 0, 0, 0]
      ++ [5, 0, 0, 0, 0, 0, 0, 0, 0, 0, 0, 0, 0, 0, 0, 0, 0, 0, 0, 0]
      ++ List.replicate 33 0 ++ [1, 2, 3] }

/-- The page `pageOver100` (free-space-start 68, free-space-end 44) after
`InsertKeyValue(3, v)` with 24 bytes `9` as `v`: the value went to the bytes 20 to 43, where
the slot of key 1 was, and the slot of key 3 went to the front. -/
def pageBad : BLinkTreePage :=
  { Buf := [219, 219, 12, 177, 1, 0, 1, 0, 3, 0, 92, 0, 20, 0, 0, 0, 0, 0, 0, 0]
      ++ [3, 0, 0, 0, 0, 0, 0, 0, 20, 0, 24, 0, 0, 0, 0, 0, 0, 0, 0, 0]
      ++ List.replicate 28 9
      ++ [2, 0, 0, 0, 0, 0, 0, 0, 0, 0, 0, 0, 0, 0, 0, 0, 0, 0, 0, 0]
      ++ List.replicate 12 7 }

/-- The empty page of `PageSize = 4096` bytes, `emptyPage 4096`. -/
def page4096 : BLinkTreePage :=
  { Buf := [219, 219, 12, 177, 1, 0, 1, 0, 0, 0, 20, 0, 0, 16, 0, 0, 0, 0, 0, 0]
      ++ List.replicate 4076 0 }

/-- A page store whose counter of pages stands at `n`. -/
def store (n : Nat) : PebbleSQLDiskManager := { nextPageID := n }

end storage

end PebbleSQL
namespace PebbleSQL

theorem bind_eq_ok {ε α β : Type} (x : Except ε α) (f : α → Except ε β) (b : β) :
    (x >>= f) = .ok b ↔ ∃ a, x = .ok a ∧ f a = .ok b := by
  cases x with
  | error e => simp [bind, Except.bind]
  | ok a => simp [bind, Except.bind]

namespace blinktree

theorem deref_eq_ok {heap : List Node} {a : Nat} {x : Node} :
    deref heap a = .ok x ↔ heap[a]? = some x := by
  unfold deref
  cases h : heap[a]? <;> simp

theorem modify_eq_ok {heap heap1 : List Node} {a : Nat} {f : Node → Node} :
    modify heap a f = .ok heap1 ↔ ∃ x, heap[a]? = some x ∧ heap1 = heap.set a (f x) := by
  unfold modify
  cases h : heap[a]? <;> simp [eq_comm]

theorem sliceFrom_eq_ok {α : Type} {s t : List α} {lo : Nat} :
    sliceFrom s lo = .ok t ↔ lo ≤ s.length ∧ t = s.drop lo := by
  unfold sliceFrom
  by_cases h : lo ≤ s.length <;> simp [h, eq_comm]

theorem sliceTo_eq_ok {α : Type} {s t : List α} {hi : Nat} :
    sliceTo s hi = .ok t ↔ hi ≤ s.length ∧ t = s.take hi := by
  unfold sliceTo
  by_cases h : hi ≤ s.length <;> simp [h, eq_comm]

theorem index_eq_ok {α : Type} {s : List α} {i : Nat} {x : α} :
    index s i = .ok x ↔ s[i]? = some x := by
  unfold index
  cases h : s[i]? <;> simp

theorem insertAt_eq_ok {α : Type} {s t : List α} {idx : Nat} {x : α} :
    insertAt s idx x = .ok t ↔ idx ≤ s.length ∧ t = s.take idx ++ x :: s.drop idx := by
  unfold insertAt
  simp only [bind_eq_ok, sliceFrom_eq_ok, sliceTo_eq_ok, pure, Except.pure, Except.ok.injEq]
  constructor
  · rintro ⟨_, ⟨h1, rfl⟩, _, ⟨_, rfl⟩, rfl⟩
    exact ⟨h1, rfl⟩
  · rintro ⟨h1, rfl⟩
    exact ⟨_, ⟨h1, rfl⟩, _, ⟨h1, rfl⟩, rfl⟩

theorem removeAt_eq_ok {α : Type} {s t : List α} {idx : Nat} :
    removeAt s idx = .ok t ↔ idx + 1 ≤ s.length ∧ t = s.take idx ++ s.drop (idx + 1) := by
  unfold removeAt
  simp only [bind_eq_ok, sliceFrom_eq_ok, sliceTo_eq_ok, pure, Except.pure, Except.ok.injEq]
  constructor
  · rintro ⟨_, ⟨h1, rfl⟩, _, ⟨h2, rfl⟩, rfl⟩
    exact ⟨h2, rfl⟩
  · rintro ⟨h1, rfl⟩
    exact ⟨_, ⟨by omega, rfl⟩, _, ⟨h1, rfl⟩, rfl⟩

/-- The loop over the children of `right` changes parent pointers only. -/
theorem reparent_spec (r : Nat) : ∀ (cs : List Nat) (heap heap1 : List Node),
    reparent r cs heap = .ok heap1 →
    heap1.length = heap.length ∧
    ∀ (a : Nat) (x1 : Node), heap1[a]? = some x1 →
      ∃ x0 : Node, heap[a]? = some x0 ∧ (x1 = x0 ∨ x1 = { x0 with parent := some r }) := by
  intro cs
  induction cs with
  | nil =>
    intro heap heap1 h
    simp only [reparent, Except.ok.injEq] at h
    subst h
    exact ⟨rfl, fun a x1 hx => ⟨x1, hx, Or.inl rfl⟩⟩
  | cons c cs ih =>
    intro heap heap1 h
    simp only [reparent, bind_eq_ok, modify_eq_ok] at h
    obtain ⟨h2, ⟨x, hx, rfl⟩, h⟩ := h
    obtain ⟨hl, hs⟩ := ih _ _ h
    refine ⟨by simpa using hl, fun a x1 hx1 => ?_⟩
    obtain ⟨x0, h0, hor⟩ := hs a x1 hx1
    rw [List.getElem?_set] at h0
    split at h0
    · rename_i hca
      subst hca
      split at h0
      · simp only [Option.some.injEq] at h0
        subst h0
        refine ⟨x, hx, Or.inr ?_⟩
        rcases hor with rfl | rfl <;> rfl
      · simp at h0
    · exact ⟨x0, h0, hor⟩

end blinktree

end PebbleSQL
namespace PebbleSQL
namespace blinktree

theorem getElem?_lt_length {α : Type} {heap : List α} {a : Nat} {x : α} (h : heap[a]? = some x) :
    a < heap.length := by
  by_contra hc
  rw [List.getElem?_eq_none (by omega)] at h
  exact Option.noConfusion h

/-- The first part of `split`, node by node. -/
theorem moveUpperHalf_halved {heap heapA : List Node} {n : Nat} {node xn : Node}
    (hnode : heap[n]? = some node)
    (hA : moveUpperHalf
      (heap ++ [{ isLeaf := node.isLeaf, keys := node.keys.drop (node.keys.length / 2),
                  values := [], children := [], parent := node.parent,
                  rightSibling := node.rightSibling }])
      node (node.keys.length / 2) n heap.length = .ok heapA)
    (hxn : heapA[n]? = some xn) :
    Halved heap n node
      (heapA.set n { xn with keys := node.keys.take (node.keys.length / 2),
                             rightSibling := some heap.length }) := by
  have hn : n < heap.length := getElem?_lt_length hnode
  have hne : n ≠ heap.length := by omega
  unfold moveUpperHalf at hA
  by_cases hleaf : node.isLeaf = true
  · simp only [hleaf, if_true, bind_eq_ok, sliceFrom_eq_ok, sliceTo_eq_ok, modify_eq_ok] at hA
    obtain ⟨rv, ⟨_, rfl⟩, heapB, ⟨xr, hxr, rfl⟩, lv, ⟨_, rfl⟩, xn1, hxn1, rfl⟩ := hA
    simp only [List.getElem?_append_right (le_refl _), Nat.sub_self, List.getElem?_cons_zero,
      Option.some.injEq] at hxr
    subst hxr
    rw [List.getElem?_set_ne (by omega), List.getElem?_append_left hn, hnode] at hxn1
    simp only [Option.some.injEq] at hxn1
    subst hxn1
    rw [List.getElem?_set_self (by simp; omega)] at hxn
    simp only [Option.some.injEq] at hxn
    subst hxn
    refine ⟨by simp, fun a x1 hx1 => ?_⟩
    by_cases ha : a = heap.length
    · subst ha
      simp only [List.set_set, List.getElem?_set_ne hne] at hx1
      rw [List.getElem?_set_self (by simp)] at hx1
      simp only [Option.some.injEq] at hx1
      subst hx1
      refine ⟨_, by simp only [if_true]; rfl, Or.inl ?_⟩
      simp [rightHalf, hleaf]
    · by_cases han : a = n
      · subst han
        simp only [List.set_set] at hx1
        rw [List.getElem?_set_self (by simp; omega)] at hx1
        simp only [Option.some.injEq] at hx1
        subst hx1
        refine ⟨_, by simp only [ha, if_false, if_true]; rfl, Or.inl ?_⟩
        simp [leftHalf, hleaf]
      · simp only [List.set_set] at hx1
        rw [List.getElem?_set_ne (Ne.symm han), List.getElem?_set_ne (Ne.symm ha)] at hx1
        have hlt : a < heap.length := by
          have := getElem?_lt_length hx1
          simp at this; omega
        rw [List.getElem?_append_left hlt] at hx1
        exact ⟨x1, by simp only [ha, han, if_false]; exact hx1, Or.inl rfl⟩
  · simp only [Bool.not_eq_true] at hleaf
    simp only [hleaf, Bool.false_eq_true, if_false, bind_eq_ok, sliceFrom_eq_ok, sliceTo_eq_ok,
      modify_eq_ok] at hA
    obtain ⟨rc, ⟨_, rfl⟩, heapB, ⟨xr, hxr, rfl⟩, heapC, hC, lc, ⟨_, rfl⟩, xn1, hxn1, rfl⟩ := hA
    simp only [List.getElem?_append_right (le_refl _), Nat.sub_self, List.getElem?_cons_zero,
      Option.some.injEq] at hxr
    subst hxr
    obtain ⟨hlen, hC⟩ := reparent_spec _ _ _ _ hC
    rw [List.getElem?_set_self (by rw [hlen]; simp; omega)] at hxn
    simp only [Option.some.injEq] at hxn
    subst hxn
    refine ⟨by simp [hlen], fun a x1 hx1 => ?_⟩
    simp only [List.set_set] at hx1
    by_cases han : a = n
    · subst han
      rw [List.getElem?_set_self (by rw [hlen]; simp; omega)] at hx1
      simp only [Option.some.injEq] at hx1
      subst hx1
      obtain ⟨x0, hx0, hor⟩ := hC a xn1 hxn1
      rw [List.getElem?_set_ne (by omega), List.getElem?_append_left hn, hnode] at hx0
      simp only [Option.some.injEq] at hx0
      subst hx0
      refine ⟨_, by simp only [hne, if_false, if_true]; rfl, ?_⟩
      rcases hor with rfl | rfl
      · left; simp [leftHalf, hleaf]
      · right; exact ⟨hleaf, by simp [leftHalf, hleaf]⟩
    · rw [List.getElem?_set_ne (Ne.symm han)] at hx1
      obtain ⟨x0, hx0, hor⟩ := hC a x1 hx1
      by_cases ha : a = heap.length
      · subst ha
        rw [List.getElem?_set_self (by simp)] at hx0
        simp only [Option.some.injEq] at hx0
        subst hx0
        refine ⟨_, by simp only [if_true]; rfl, ?_⟩
        rcases hor with rfl | rfl
        · left; simp [rightHalf, hleaf]
        · right; exact ⟨hleaf, by simp [rightHalf, hleaf]⟩
      · rw [List.getElem?_set_ne (Ne.symm ha)] at hx0
        have hlt : a < heap.length := by
          have := getElem?_lt_length hx0
          simp at this; omega
        rw [List.getElem?_append_left hlt] at hx0
        refine ⟨x0, by simp only [ha, han, if_false]; exact hx0, ?_⟩
        rcases hor with rfl | rfl
        · left; rfl
        · right; exact ⟨hleaf, rfl⟩

end blinktree
end PebbleSQL
namespace PebbleSQL
namespace blinktree

/-- One turn of `split`: the halving, then either a new root or the insertion of the
separator into the parent, followed by the split of the parent when it is too full. -/
theorem split_unfold {fuel : Nat} {tree tree1 : BlinkTree} {n : Nat}
    (h : split (fuel + 1) tree n = .ok tree1) :
    ∃ (node : Node) (heap1 : List Node) (splitKey : Int),
      tree.heap[n]? = some node ∧ Halved tree.heap n node heap1 ∧
      (node.keys.drop (node.keys.length / 2))[0]? = some splitKey ∧
      ((tree.root = n ∧ tree1.root = heap1.length ∧ tree1.heap.length = heap1.length + 1 ∧
          tree1.heap[heap1.length]? = some
            { isLeaf := false, keys := [splitKey], values := [], children := [n, tree.heap.length],
              parent := none, rightSibling := none } ∧
          ∀ (a : Nat) (x1 : Node), a < heap1.length → tree1.heap[a]? = some x1 →
            ∃ x0 : Node, heap1[a]? = some x0 ∧
              (x1 = x0 ∨ x1 = { x0 with parent := some heap1.length })) ∨
       (tree.root ≠ n ∧ ∃ (cur : Node) (p : Nat) (parent : Node) (pk : List Int) (pc : List Nat),
          heap1[n]? = some cur ∧ cur.parent = some p ∧ heap1[p]? = some parent ∧
          insertAt parent.keys (SearchInts parent.keys splitKey) splitKey = .ok pk ∧
          insertAt parent.children (SearchInts parent.keys splitKey + 1) tree.heap.length = .ok pc ∧
          (if pk.length > maxKeys then
             split fuel { heap := heap1.set p { parent with keys := pk, children := pc },
                          root := tree.root } p = .ok tree1
           else tree1 = { heap := heap1.set p { parent with keys := pk, children := pc },
                          root := tree.root }))) := by
  simp only [split, bind_eq_ok, deref_eq_ok, sliceFrom_eq_ok, index_eq_ok, sliceTo_eq_ok,
    modify_eq_ok] at h
  obtain ⟨node, hnode, rk, ⟨hmid, rfl⟩, heapA, hA, splitKey, hsk, lk, ⟨hlk, rfl⟩, heap1,
    ⟨xn, hxn, rfl⟩, h⟩ := h
  have hH := moveUpperHalf_halved hnode hA hxn
  refine ⟨node, _, splitKey, hnode, hH, hsk, ?_⟩
  have hn : n < tree.heap.length := getElem?_lt_length hnode
  by_cases hroot : tree.root = n
  · left
    simp only [hroot, if_true, bind_eq_ok, modify_eq_ok, pure, Except.pure, Except.ok.injEq] at h
    obtain ⟨heapB, ⟨y1, hy1, rfl⟩, heapC, ⟨y2, hy2, rfl⟩, rfl⟩ := h
    have hl1 := hH.1
    simp only [List.length_set] at hl1
    refine ⟨hroot, rfl, by simp, ?_, ?_⟩
    · rw [List.getElem?_set_ne (by simp only [List.length_set]; omega),
        List.getElem?_set_ne (by simp only [List.length_set]; omega),
        List.getElem?_append_right (le_refl _)]
      simp
    · intro a x1 ha0 hx1
      have ha := ha0
      simp only [List.length_set] at ha
      simp only at hx1
      by_cases har : a = tree.heap.length
      · subst har
        rw [List.getElem?_set_self (by simp; omega)] at hx1
        simp only [Option.some.injEq] at hx1
        subst hx1
        by_cases hrn : n = tree.heap.length
        · omega
        · rw [List.getElem?_set_ne hrn, List.getElem?_append_left ha0] at hy2
          exact ⟨y2, hy2, Or.inr rfl⟩
      · rw [List.getElem?_set_ne (Ne.symm har)] at hx1
        by_cases han : a = n
        · subst han
          rw [List.getElem?_set_self (by simp; omega)] at hx1
          simp only [Option.some.injEq] at hx1
          subst hx1
          rw [List.getElem?_append_left ha0] at hy1
          exact ⟨y1, hy1, Or.inr rfl⟩
        · rw [List.getElem?_set_ne (Ne.symm han), List.getElem?_append_left ha0] at hx1
          exact ⟨x1, hx1, Or.inl rfl⟩
  · right
    simp only [hroot, if_false, bind_eq_ok, deref_eq_ok] at h
    obtain ⟨cur, hcur, h⟩ := h
    refine ⟨hroot, ?_⟩
    cases hp : cur.parent with
    | none => simp [hp] at h
    | some p =>
      simp only [hp, bind_eq_ok, deref_eq_ok, modify_eq_ok] at h
      obtain ⟨parent, hparent, pk, hpk, pc, hpc, heap2, ⟨y, hy, rfl⟩, h⟩ := h
      rw [hparent] at hy
      simp only [Option.some.injEq] at hy
      subst hy
      refine ⟨cur, p, parent, pk, pc, hcur, hp, hparent, hpk, hpc, ?_⟩
      by_cases hgt : pk.length > maxKeys
      · simp only [hgt, if_true] at h ⊢
        exact h
      · simp only [hgt, if_false, pure, Except.pure, Except.ok.injEq] at h ⊢
        exact h.symm

end blinktree
end PebbleSQL
namespace PebbleSQL
namespace blinktree

theorem Halved.allNodes {P Q : Node → Prop} (hS : SplitStable P Q) {heap heap1 : List Node}
    {n : Nat} {node : Node} (hH : Halved heap n node heap1)
    (hP : ∀ (a : Nat) (x : Node), heap[a]? = some x → a ≠ n → P x) (hQ : Q node) :
    AllNodes P heap1 := by
  intro a x1 hx1
  obtain ⟨x0, h0, hor⟩ := hH.2 a x1 hx1
  have hP0 : P x0 := by
    by_cases ha : a = heap.length
    · simp only [ha, if_true] at h0
      subst h0
      exact hS.right _ hQ
    · by_cases han : a = n
      · subst han
        simp only [ha, if_false, if_true] at h0
        subst h0
        exact hS.left _ _ hQ
      · simp only [ha, han, if_false] at h0
        exact hP a x0 h0 han
  rcases hor with rfl | ⟨_, rfl⟩
  · exact hP0
  · exact hS.parent _ _ hP0

theorem Halved.parentsInternal {heap heap1 : List Node} {n : Nat} {node : Node}
    (hH : Halved heap n node heap1) (hnode : heap[n]? = some node)
    (hPI : ParentsInternal heap) : ParentsInternal heap1 := by
  have hn : n < heap.length := getElem?_lt_length hnode
  -- every address of the old heap still holds a node of the same kind
  have hkeep : ∀ (p : Nat) (y0 : Node), heap[p]? = some y0 →
      ∃ y : Node, heap1[p]? = some y ∧ y.isLeaf = y0.isLeaf := by
    intro p y0 hy0
    have hp : p < heap.length := getElem?_lt_length hy0
    have hp1 : p < heap1.length := by rw [hH.1]; omega
    refine ⟨heap1[p], List.getElem?_eq_getElem hp1, ?_⟩
    obtain ⟨z0, hz0, hor⟩ := hH.2 p _ (List.getElem?_eq_getElem hp1)
    have hne : p ≠ heap.length := by omega
    have hz : z0.isLeaf = y0.isLeaf := by
      by_cases hpn : p = n
      · subst hpn
        simp only [hne, if_false, if_true] at hz0
        subst hz0
        rw [hnode] at hy0
        simp only [Option.some.injEq] at hy0
        subst hy0
        rfl
      · simp only [hne, hpn, if_false] at hz0
        rw [hy0] at hz0
        simp only [Option.some.injEq] at hz0
        rw [hz0]
    rcases hor with h | ⟨_, h⟩ <;> rw [h] <;> exact hz
  intro a x1 p hx1 hpar
  obtain ⟨x0, h0, hor⟩ := hH.2 a x1 hx1
  have hold : x0.parent = some p → ∃ y : Node, heap1[p]? = some y ∧ y.isLeaf = false := by
    intro hp0
    have : ∃ (a0 : Nat) (z : Node), heap[a0]? = some z ∧ z.parent = some p := by
      by_cases ha : a = heap.length
      · simp only [ha, if_true] at h0
        subst h0
        exact ⟨n, node, hnode, hp0⟩
      · by_cases han : a = n
        · subst han
          simp only [ha, if_false, if_true] at h0
          subst h0
          exact ⟨a, node, hnode, hp0⟩
        · simp only [ha, han, if_false] at h0
          exact ⟨a, x0, h0, hp0⟩
    obtain ⟨a0, z, hz, hzp⟩ := this
    obtain ⟨y0, hy0, hleaf⟩ := hPI a0 z p hz hzp
    obtain ⟨y, hy, hyl⟩ := hkeep p y0 hy0
    exact ⟨y, hy, by rw [hyl, hleaf]⟩
  rcases hor with rfl | ⟨hleaf, rfl⟩
  · exact hold hpar
  · simp only [Option.some.injEq] at hpar
    subst hpar
    have hp1 : heap.length < heap1.length := by rw [hH.1]; omega
    refine ⟨heap1[heap.length], List.getElem?_eq_getElem hp1, ?_⟩
    obtain ⟨z0, hz0, hor⟩ := hH.2 heap.length _ (List.getElem?_eq_getElem hp1)
    simp only [if_true] at hz0
    subst hz0
    rcases hor with h | ⟨_, h⟩ <;> rw [h] <;> exact hleaf

end blinktree
end PebbleSQL
namespace PebbleSQL
namespace blinktree

/-- A property of single nodes that is stable under splitting holds of every node after
`split`, and parent pointers keep pointing to internal nodes. -/
theorem split_preserves {P Q : Node → Prop} (hS : SplitStable P Q) :
    ∀ (fuel : Nat) (tree tree1 : BlinkTree) (n : Nat), split fuel tree n = .ok tree1 →
      ParentsInternal tree.heap →
      (∀ (a : Nat) (x : Node), tree.heap[a]? = some x → a ≠ n → P x) →
      (∀ x : Node, tree.heap[n]? = some x → Q x) →
      ParentsInternal tree1.heap ∧ AllNodes P tree1.heap := by
  intro fuel
  induction fuel with
  | zero => intro tree tree1 n h; simp [split] at h
  | succ fuel ih =>
    intro tree tree1 n h hPI hP hQ
    obtain ⟨node, heap1, splitKey, hnode, hH, _, hcase⟩ := split_unfold h
    have hA1 : AllNodes P heap1 := hH.allNodes hS hP (hQ node hnode)
    have hPI1 : ParentsInternal heap1 := hH.parentsInternal hnode hPI
    rcases hcase with ⟨_, hroot, hlen, hnew, hold⟩ | ⟨_, cur, p, parent, pk, pc, hcur, hcp, hpar, hpk, hpc, hrest⟩
    · constructor
      · intro a x1 q hx1 hq
        have ha : a < tree1.heap.length := getElem?_lt_length hx1
        by_cases hlast : a = heap1.length
        · subst hlast
          rw [hnew] at hx1
          simp only [Option.some.injEq] at hx1
          subst hx1
          simp at hq
        · obtain ⟨x0, hx0, hor⟩ := hold a x1 (by omega) hx1
          rcases hor with rfl | rfl
          · obtain ⟨y0, hy0, hl⟩ := hPI1 a x1 q hx0 hq
            have hq1 : q < heap1.length := getElem?_lt_length hy0
            have hq2 : q < tree1.heap.length := by omega
            refine ⟨tree1.heap[q], List.getElem?_eq_getElem hq2, ?_⟩
            obtain ⟨z0, hz0, hor⟩ := hold q _ hq1 (List.getElem?_eq_getElem hq2)
            rw [hy0] at hz0
            simp only [Option.some.injEq] at hz0
            subst hz0
            rcases hor with h | h <;> rw [h] <;> exact hl
          · simp only [Option.some.injEq] at hq
            subst hq
            exact ⟨_, hnew, rfl⟩
      · intro a x1 hx1
        have ha : a < tree1.heap.length := getElem?_lt_length hx1
        by_cases hlast : a = heap1.length
        · subst hlast
          rw [hnew] at hx1
          simp only [Option.some.injEq] at hx1
          subst hx1
          exact hS.root _ _ _
        · obtain ⟨x0, hx0, hor⟩ := hold a x1 (by omega) hx1
          rcases hor with rfl | rfl
          · exact hA1 a _ hx0
          · exact hS.parent _ _ (hA1 a _ hx0)
    · obtain ⟨y, hy, hyl⟩ := hPI1 n cur p hcur hcp
      rw [hpar] at hy
      simp only [Option.some.injEq] at hy
      subst hy
      have hup := hS.up parent splitKey tree.heap.length pk pc (hA1 p parent hpar) hyl hpk hpc
      have hp : p < heap1.length := getElem?_lt_length hpar
      have hPI2 : ParentsInternal (heap1.set p { parent with keys := pk, children := pc }) := by
        intro a x q hx hq
        rw [List.getElem?_set] at hx
        have hx' : ∃ x0 : Node, heap1[a]? = some x0 ∧ x0.parent = some q := by
          split at hx
          · rename_i hpa
            subst hpa
            simp only [hp, if_true, Option.some.injEq] at hx
            subst hx
            exact ⟨parent, hpar, hq⟩
          · exact ⟨x, hx, hq⟩
        obtain ⟨x0, hx0, hq0⟩ := hx'
        obtain ⟨y0, hy0, hl⟩ := hPI1 a x0 q hx0 hq0
        by_cases hqp : p = q
        · subst hqp
          rw [hpar] at hy0
          simp only [Option.some.injEq] at hy0
          subst hy0
          exact ⟨_, List.getElem?_set_self hp, hl⟩
        · exact ⟨y0, by rw [List.getElem?_set_ne hqp]; exact hy0, hl⟩
      have hP2 : ∀ (a : Nat) (x : Node),
          (heap1.set p { parent with keys := pk, children := pc })[a]? = some x → a ≠ p → P x := by
        intro a x hx hap
        rw [List.getElem?_set_ne (Ne.symm hap)] at hx
        exact hA1 a x hx
      by_cases hgt : pk.length > maxKeys
      · simp only [hgt, if_true] at hrest
        refine ih _ _ p hrest hPI2 hP2 ?_
        intro x hx
        rw [List.getElem?_set_self hp] at hx
        simp only [Option.some.injEq] at hx
        subst hx
        exact hup.1 hgt
      · simp only [hgt, if_false] at hrest
        subst hrest
        refine ⟨hPI2, ?_⟩
        intro a x hx
        by_cases hap : a = p
        · subst hap
          rw [List.getElem?_set_self hp] at hx
          simp only [Option.some.injEq] at hx
          subst hx
          exact hup.2 hgt
        · exact hP2 a x hx hap

end blinktree
end PebbleSQL
namespace PebbleSQL
namespace blinktree

/-- One turn of `insert`: at a leaf the entry goes in at the position `SearchInts` gives and
the leaf is split when it is too full; at an internal node the descent goes on. -/
theorem insert_unfold {fuel : Nat} {tree tree1 : BlinkTree} {n : Nat} {key : Int}
    {value : List Byte} (h : insert (fuel + 1) tree n key value = .ok tree1) :
    ∃ node : Node, tree.heap[n]? = some node ∧
      ((node.isLeaf = true ∧ ∃ (ks : List Int) (vs : List (List Byte)),
          insertAt node.keys (SearchInts node.keys key) key = .ok ks ∧
          insertAt node.values (SearchInts node.keys key) value = .ok vs ∧
          (if ks.length > maxKeys then
             split (fuel + 1) { heap := tree.heap.set n { node with keys := ks, values := vs },
                                root := tree.root } n = .ok tree1
           else tree1 = { heap := tree.heap.set n { node with keys := ks, values := vs },
                          root := tree.root })) ∨
       (node.isLeaf = false ∧ ∃ child : Nat,
          node.children[searchUpper node.keys key]? = some child ∧
          insert fuel tree child key value = .ok tree1)) := by
  simp only [insert, bind_eq_ok, deref_eq_ok] at h
  obtain ⟨node, hnode, h⟩ := h
  refine ⟨node, hnode, ?_⟩
  by_cases hleaf : node.isLeaf = true
  · left
    simp only [hleaf, if_true, bind_eq_ok, modify_eq_ok] at h
    obtain ⟨ks, hks, vs, hvs, heap1, ⟨x, hx, rfl⟩, h⟩ := h
    rw [hnode] at hx
    simp only [Option.some.injEq] at hx
    subst hx
    refine ⟨hleaf, ks, vs, hks, hvs, ?_⟩
    by_cases hgt : ks.length > maxKeys
    · simp only [hgt, if_true] at h ⊢
      exact h
    · simp only [hgt, if_false, pure, Except.pure, Except.ok.injEq] at h ⊢
      exact h.symm
  · right
    simp only [Bool.not_eq_true] at hleaf
    simp only [hleaf, Bool.false_eq_true, if_false, bind_eq_ok, index_eq_ok] at h
    obtain ⟨child, hchild, h⟩ := h
    exact ⟨hleaf, child, hchild, h⟩

/-- A property of single nodes that is stable under splitting and under the insertion of
`key` into a leaf holds of every node after `insert`. -/
theorem insert_preserves {P P1 Q1 : Node → Prop} (hS : SplitStable P1 Q1)
    (hmono : ∀ x : Node, P x → P1 x) (key : Int) (value : List Byte)
    (hins : ∀ (x : Node) (ks : List Int) (vs : List (List Byte)), P x → x.isLeaf = true →
      insertAt x.keys (SearchInts x.keys key) key = .ok ks →
      insertAt x.values (SearchInts x.keys key) value = .ok vs →
      (ks.length > maxKeys → Q1 { x with keys := ks, values := vs }) ∧
      (¬ ks.length > maxKeys → P1 { x with keys := ks, values := vs })) :
    ∀ (fuel : Nat) (tree tree1 : BlinkTree) (n : Nat), insert fuel tree n key value = .ok tree1 →
      ParentsInternal tree.heap → AllNodes P tree.heap →
      ParentsInternal tree1.heap ∧ AllNodes P1 tree1.heap := by
  intro fuel
  induction fuel with
  | zero => intro tree tree1 n h; simp [insert] at h
  | succ fuel ih =>
    intro tree tree1 n h hPI hP
    obtain ⟨node, hnode, hcase⟩ := insert_unfold h
    rcases hcase with ⟨hleaf, ks, vs, hks, hvs, hrest⟩ | ⟨_, child, _, hrec⟩
    · have hn : n < tree.heap.length := getElem?_lt_length hnode
      have hi := hins node ks vs (hP n node hnode) hleaf hks hvs
      have hPI2 : ParentsInternal (tree.heap.set n { node with keys := ks, values := vs }) := by
        intro a x q hx hq
        rw [List.getElem?_set] at hx
        have hx' : ∃ x0 : Node, tree.heap[a]? = some x0 ∧ x0.parent = some q := by
          split at hx
          · rename_i hpa
            subst hpa
            simp only [hn, if_true, Option.some.injEq] at hx
            subst hx
            exact ⟨node, hnode, hq⟩
          · exact ⟨x, hx, hq⟩
        obtain ⟨x0, hx0, hq0⟩ := hx'
        obtain ⟨y0, hy0, hl⟩ := hPI a x0 q hx0 hq0
        by_cases hqp : n = q
        · subst hqp
          rw [hnode] at hy0
          simp only [Option.some.injEq] at hy0
          subst hy0
          exact ⟨_, List.getElem?_set_self hn, hl⟩
        · exact ⟨y0, by rw [List.getElem?_set_ne hqp]; exact hy0, hl⟩
      have hP2 : ∀ (a : Nat) (x : Node),
          (tree.heap.set n { node with keys := ks, values := vs })[a]? = some x → a ≠ n → P1 x := by
        intro a x hx hap
        rw [List.getElem?_set_ne (Ne.symm hap)] at hx
        exact hmono _ (hP a x hx)
      by_cases hgt : ks.length > maxKeys
      · simp only [hgt, if_true] at hrest
        refine split_preserves hS _ _ _ n hrest hPI2 hP2 ?_
        intro x hx
        rw [List.getElem?_set_self hn] at hx
        simp only [Option.some.injEq] at hx
        subst hx
        exact hi.1 hgt
      · simp only [hgt, if_false] at hrest
        subst hrest
        refine ⟨hPI2, ?_⟩
        intro a x hx
        by_cases hap : a = n
        · subst hap
          rw [List.getElem?_set_self hn] at hx
          simp only [Option.some.injEq] at hx
          subst hx
          exact hi.2 hgt
        · exact hP2 a x hx hap
    · exact ih _ _ child hrec hPI hP

theorem parentsInternal_new : ParentsInternal NewBlinkTree.heap := by
  intro a x p hx hp
  have ha : a < 1 := getElem?_lt_length hx
  have h0 : a = 0 := by omega
  subst h0
  simp [NewBlinkTree] at hx
  subst hx
  simp at hp

end blinktree
end PebbleSQL
namespace PebbleSQL
namespace blinktree

theorem searchLoop_spec (f : Nat → Bool) (n : Nat) :
    ∀ fuel i j, i ≤ j → j ≤ n → j - i ≤ fuel →
      (i = 0 ∨ f (i - 1) = false) → (j = n ∨ f j = true) →
      searchLoop f fuel i j ≤ n ∧
      (searchLoop f fuel i j = 0 ∨ f (searchLoop f fuel i j - 1) = false) ∧
      (searchLoop f fuel i j = n ∨ f (searchLoop f fuel i j) = true) := by
  intro fuel
  induction fuel with
  | zero =>
    intro i j hij hjn hf hi hj
    have : i = j := by omega
    subst this
    simp only [searchLoop]
    exact ⟨hjn, hi, hj⟩
  | succ fuel ih =>
    intro i j hij hjn hf hi hj
    simp only [searchLoop]
    by_cases hlt : i < j
    · simp only [hlt, if_true]
      by_cases hfh : f ((i + j) / 2) = true
      · simp only [hfh, Bool.not_true, Bool.false_eq_true, if_false]
        exact ih i ((i + j) / 2) (by omega) (by omega) (by omega) hi (Or.inr hfh)
      · simp only [Bool.not_eq_true] at hfh
        simp only [hfh, Bool.not_false, if_true]
        exact ih ((i + j) / 2 + 1) j (by omega) hjn (by omega) (Or.inr (by simpa using hfh)) hj
    · simp only [hlt, if_false]
      have : i = j := by omega
      subst this
      exact ⟨hjn, hi, hj⟩

theorem sortSearch_spec (f : Nat → Bool) (n : Nat) :
    sortSearch n f ≤ n ∧
      (sortSearch n f = 0 ∨ f (sortSearch n f - 1) = false) ∧
      (sortSearch n f = n ∨ f (sortSearch n f) = true) :=
  searchLoop_spec f n n 0 n (Nat.zero_le _) (Nat.le_refl _) (by omega) (Or.inl rfl) (Or.inl rfl)

theorem SearchInts_le (a : List Int) (x : Int) : SearchInts a x ≤ a.length :=
  (sortSearch_spec _ _).1

theorem searchUpper_le (a : List Int) (x : Int) : searchUpper a x ≤ a.length :=
  (sortSearch_spec _ _).1

/-- Elements before the position found by `SearchInts` in a sorted slice are smaller than `x`. -/
theorem SearchInts_before (a : List Int) (x : Int) (hs : a.Pairwise (· ≤ ·)) :
    ∀ y ∈ a.take (SearchInts a x), y < x := by
  intro y hy
  obtain ⟨i, hi, rfl⟩ := List.mem_iff_getElem.1 hy
  have hi' : i < SearchInts a x ∧ i < a.length := by
    have := hi; simp only [List.length_take] at this; omega
  have hb := SearchInts_le a x
  have h2 := (sortSearch_spec (fun i => decide (a.getD i 0 ≥ x)) a.length).2.1
  change SearchInts a x = 0 ∨ _ at h2
  rcases h2 with h0 | h1
  · omega
  · simp only [ge_iff_le, decide_eq_false_iff_not, not_le] at h1
    change a.getD (SearchInts a x - 1) 0 < x at h1
    rw [List.getElem_take]
    have hle : a[i] ≤ a.getD (SearchInts a x - 1) 0 := by
      rw [List.getD_eq_getElem _ _ (by omega)]
      rcases Nat.lt_or_ge i (SearchInts a x - 1) with hlt | hge
      · exact List.pairwise_iff_getElem.1 hs i _ (by omega) (by omega) hlt
      · have : i = SearchInts a x - 1 := by omega
        subst this; exact le_refl _
    omega

/-- Elements from the position found by `SearchInts` on in a sorted slice are at least `x`. -/
theorem SearchInts_after (a : List Int) (x : Int) (hs : a.Pairwise (· ≤ ·)) :
    ∀ y ∈ a.drop (SearchInts a x), x ≤ y := by
  intro y hy
  obtain ⟨i, hi, rfl⟩ := List.mem_iff_getElem.1 hy
  have hi' : i < a.length - SearchInts a x := by
    have := hi; simp only [List.length_drop] at this; omega
  have hb := SearchInts_le a x
  have h2 := (sortSearch_spec (fun i => decide (a.getD i 0 ≥ x)) a.length).2.2
  change SearchInts a x = a.length ∨ _ at h2
  rcases h2 with h0 | h1
  · omega
  · simp only [ge_iff_le, decide_eq_true_eq] at h1
    change x ≤ a.getD (SearchInts a x) 0 at h1
    rw [List.getElem_drop]
    have hle : a.getD (SearchInts a x) 0 ≤ a[SearchInts a x + i] := by
      rw [List.getD_eq_getElem _ _ (by omega)]
      rcases Nat.eq_zero_or_pos i with h0 | hpos
      · subst h0; simp
      · exact List.pairwise_iff_getElem.1 hs _ _ (by omega) (by omega) (by omega)
    omega

end blinktree
end PebbleSQL
namespace PebbleSQL
namespace blinktree

/-- Insertion at the position `SearchInts` gives keeps a slice sorted. -/
theorem sorted_insert (a : List Int) (x : Int) (hs : a.Pairwise (· ≤ ·)) :
    (a.take (SearchInts a x) ++ x :: a.drop (SearchInts a x)).Pairwise (· ≤ ·) := by
  rw [List.pairwise_append]
  refine ⟨hs.sublist (List.take_sublist _ _), ?_, ?_⟩
  · rw [List.pairwise_cons]
    exact ⟨fun z hz => SearchInts_after a x hs z hz, hs.sublist (List.drop_sublist _ _)⟩
  · intro y hy z hz
    have h1 := SearchInts_before a x hs y hy
    rcases List.mem_cons.1 hz with rfl | hz
    · omega
    · have h2 := SearchInts_after a x hs z hz
      omega

/-- Insertion of a key that is not there yet keeps a slice strictly sorted. -/
theorem strict_insert (a : List Int) (x : Int) (hs : a.Pairwise (· < ·)) (hx : x ∉ a) :
    (a.take (SearchInts a x) ++ x :: a.drop (SearchInts a x)).Pairwise (· < ·) := by
  have hle : a.Pairwise (· ≤ ·) := hs.imp (fun h => le_of_lt h)
  have hafter : ∀ z ∈ a.drop (SearchInts a x), x < z := by
    intro z hz
    have h2 := SearchInts_after a x hle z hz
    have hne : z ≠ x := fun h => hx (h ▸ List.mem_of_mem_drop hz)
    omega
  rw [List.pairwise_append]
  refine ⟨hs.sublist (List.take_sublist _ _), ?_, ?_⟩
  · rw [List.pairwise_cons]
    exact ⟨hafter, hs.sublist (List.drop_sublist _ _)⟩
  · intro y hy z hz
    have h1 := SearchInts_before a x hle y hy
    rcases List.mem_cons.1 hz with rfl | hz
    · omega
    · have h2 := hafter z hz
      omega

/-- A property of single nodes that holds of the empty leaf and is stable under splitting and
under every insertion into a leaf holds of every node of a tree built by `Insert` calls; the
property may depend on the entries inserted so far. -/
theorem built_preserves (P Q : List (Int × List Byte) → Node → Prop)
    (hnew : P [] { isLeaf := true, keys := [], values := [], children := [], parent := none,
                   rightSibling := none })
    (hS : ∀ es, SplitStable (P es) (Q es))
    (hmono : ∀ es k v (x : Node), P es x → P (es ++ [(k, v)]) x)
    (hins : ∀ es k v (x : Node) (ks : List Int) (vs : List (List Byte)), P es x → x.isLeaf = true →
      insertAt x.keys (SearchInts x.keys k) k = .ok ks →
      insertAt x.values (SearchInts x.keys k) v = .ok vs →
      (ks.length > maxKeys → Q (es ++ [(k, v)]) { x with keys := ks, values := vs }) ∧
      (¬ ks.length > maxKeys → P (es ++ [(k, v)]) { x with keys := ks, values := vs }))
    {t : BlinkTree} {es : List (Int × List Byte)} (hb : Built t es) :
    ParentsInternal t.heap ∧ AllNodes (P es) t.heap := by
  induction hb with
  | new =>
    refine ⟨parentsInternal_new, ?_⟩
    intro a x hx
    have ha : a < 1 := getElem?_lt_length hx
    have h0 : a = 0 := by omega
    subst h0
    simp [NewBlinkTree] at hx
    subst hx
    exact hnew
  | @step t t1 es fuel k v _ hins1 ih =>
    exact insert_preserves (hS (es ++ [(k, v)])) (hmono es k v) k v (hins es k v) fuel t t1 t.root
      hins1 ih.1 ih.2

theorem splitStable_maxKeys :
    SplitStable (fun x => x.keys.length ≤ maxKeys) (fun x => x.keys.length ≤ maxKeys + 1) where
  parent := fun x q h => h
  left := fun x r h => by
    simp only [leftHalf, List.length_take, maxKeys] at h ⊢
    omega
  right := fun x h => by
    simp only [rightHalf, List.length_drop, maxKeys] at h ⊢
    omega
  root := fun k a b => by simp [maxKeys]
  up := fun y k c pk pc hy _ hpk _ => by
    rw [insertAt_eq_ok] at hpk
    obtain ⟨hle, rfl⟩ := hpk
    simp only [List.length_append, List.length_take, List.length_cons, List.length_drop, maxKeys] at hy ⊢
    omega

theorem splitStable_sorted :
    SplitStable (fun x => x.keys.Pairwise (· ≤ ·)) (fun x => x.keys.Pairwise (· ≤ ·)) where
  parent := fun x q h => h
  left := fun x r h => h.sublist (List.take_sublist _ _)
  right := fun x h => h.sublist (List.drop_sublist _ _)
  root := fun k a b => List.pairwise_singleton _ _
  up := fun y k c pk pc hy _ hpk _ => by
    rw [insertAt_eq_ok] at hpk
    obtain ⟨hle, rfl⟩ := hpk
    exact ⟨fun _ => sorted_insert _ _ hy, fun _ => sorted_insert _ _ hy⟩

end blinktree
end PebbleSQL
namespace PebbleSQL
namespace blinktree

theorem scanLeaf_shift (key : Int) (vs : List (List Byte)) (i0 : Nat) :
    ∀ (ks : List Int) (i : Nat), i0 ≤ i →
      scanLeaf key (vs.eraseIdx i0) ks i = scanLeaf key vs ks (i + 1) := by
  intro ks
  induction ks with
  | nil => intro i _; rfl
  | cons k ks ih =>
    intro i hi
    simp only [scanLeaf]
    by_cases hk : k = key
    · simp only [hk, if_true]
      rw [List.getElem?_eraseIdx]
      simp only [show ¬ i < i0 by omega, if_false]
    · simp only [hk, if_false]
      exact ih (i + 1) (by omega)

/-- Removing the entry of another key does not change what the scan of a leaf finds. -/
theorem scanLeaf_eraseIdx (key : Int) :
    ∀ (ks : List Int) (idx i : Nat) (vs : List (List Byte)), idx < ks.length →
      ks.getD idx 0 ≠ key →
      scanLeaf key (vs.eraseIdx (i + idx)) (ks.eraseIdx idx) i = scanLeaf key vs ks i := by
  intro ks
  induction ks with
  | nil => intro idx i vs h; simp at h
  | cons k ks ih =>
    intro idx i vs hidx hne
    cases idx with
    | zero =>
      simp only [List.getD_cons_zero] at hne
      simp only [List.eraseIdx_cons_zero, scanLeaf, hne, if_false, Nat.add_zero]
      exact scanLeaf_shift key vs i ks i (le_refl _)
    | succ idx =>
      simp only [List.getD_cons_succ] at hne
      simp only [List.eraseIdx_cons_succ, scanLeaf]
      by_cases hk : k = key
      · simp only [hk, if_true]
        rw [List.getElem?_eraseIdx]
        simp only [show i < i + (idx + 1) by omega, if_true]
      · simp only [hk, if_false]
        have := ih idx (i + 1) vs (by simpa using hidx) hne
        rw [show i + 1 + idx = i + (idx + 1) by omega] at this
        exact this

/-- The scan of a leaf that does not hold the key reports not-found. -/
theorem scanLeaf_not_mem (key : Int) (vs : List (List Byte)) :
    ∀ (ks : List Int) (i : Nat), key ∉ ks → scanLeaf key vs ks i = .ok ([], false) := by
  intro ks
  induction ks with
  | nil => intro i _; rfl
  | cons k ks ih =>
    intro i hk
    simp only [List.mem_cons, not_or] at hk
    simp only [scanLeaf, Ne.symm hk.1, if_false]
    exact ih (i + 1) hk.2

/-- The scan of a leaf finds nothing but a key of the leaf. -/
theorem scanLeaf_found (key : Int) (vs : List (List Byte)) :
    ∀ (ks : List Int) (i : Nat) (v : List Byte), scanLeaf key vs ks i = .ok (v, true) → key ∈ ks := by
  intro ks
  induction ks with
  | nil => intro i v h; simp [scanLeaf] at h
  | cons k ks ih =>
    intro i v h
    by_cases hk : k = key
    · simp [hk]
    · simp only [scanLeaf, hk, if_false] at h
      exact List.mem_cons_of_mem _ (ih _ _ h)

theorem removeAt_eq_eraseIdx {α : Type} {s t : List α} {idx : Nat} (h : removeAt s idx = .ok t) :
    t = s.eraseIdx idx := by
  rw [removeAt_eq_ok] at h
  rw [h.2, List.eraseIdx_eq_take_drop_succ]

end blinktree
end PebbleSQL
namespace PebbleSQL
namespace blinktree

/-- What `delete` does: it walks down to a leaf at some address `a`, the same way `Search`
does in any heap that differs at `a` only and has a leaf there, and removes from that leaf the
entry at the position `SearchInts` gives, if that entry has the key. -/
theorem delete_spec (key : Int) :
    ∀ (fuel : Nat) (tree tree1 : BlinkTree) (n : Nat), delete fuel tree n key = .ok tree1 →
      ∃ (a : Nat) (leaf : Node), tree.heap[a]? = some leaf ∧ leaf.isLeaf = true ∧
        (∀ (heap1 : List Node) (leaf1 : Node), (∀ b : Nat, b ≠ a → heap1[b]? = tree.heap[b]?) →
          heap1[a]? = some leaf1 → leaf1.isLeaf = true →
          searchDescend heap1 key fuel (some n) = .ok leaf1) ∧
        ((SearchInts leaf.keys key < leaf.keys.length ∧
            leaf.keys.getD (SearchInts leaf.keys key) 0 = key ∧
            ∃ (ks : List Int) (vs : List (List Byte)),
              removeAt leaf.keys (SearchInts leaf.keys key) = .ok ks ∧
              removeAt leaf.values (SearchInts leaf.keys key) = .ok vs ∧
              tree1 = { heap := tree.heap.set a { leaf with keys := ks, values := vs },
                        root := tree.root }) ∨
         (¬ (SearchInts leaf.keys key < leaf.keys.length ∧
              leaf.keys.getD (SearchInts leaf.keys key) 0 = key) ∧ tree1 = tree)) := by
  intro fuel
  induction fuel with
  | zero => intro tree tree1 n h; simp [delete] at h
  | succ fuel ih =>
    intro tree tree1 n h
    simp only [delete, bind_eq_ok, deref_eq_ok] at h
    obtain ⟨node, hnode, h⟩ := h
    by_cases hleaf : node.isLeaf = true
    · simp only [hleaf, Bool.not_true, Bool.false_eq_true, if_false] at h
      refine ⟨n, node, hnode, hleaf, ?_, ?_⟩
      · intro heap1 leaf1 _ h1 hl1
        simp only [searchDescend, h1, hl1, if_true]
      · by_cases hc : SearchInts node.keys key < node.keys.length ∧
            node.keys.getD (SearchInts node.keys key) 0 = key
        · left
          simp only [hc, and_self, if_true, bind_eq_ok, modify_eq_ok, pure, Except.pure,
            Except.ok.injEq] at h
          obtain ⟨ks, hks, vs, hvs, heap1, ⟨x, hx, rfl⟩, rfl⟩ := h
          rw [hnode] at hx
          simp only [Option.some.injEq] at hx
          subst hx
          exact ⟨hc.1, hc.2, ks, vs, hks, hvs, rfl⟩
        · right
          simp only [hc, if_false, pure, Except.pure, Except.ok.injEq] at h
          exact ⟨hc, h.symm⟩
    · simp only [Bool.not_eq_true] at hleaf
      simp only [hleaf, Bool.not_false, if_true, bind_eq_ok, index_eq_ok] at h
      obtain ⟨child, hchild, h⟩ := h
      obtain ⟨a, leaf, ha, hl, hpath, hres⟩ := ih tree tree1 child h
      refine ⟨a, leaf, ha, hl, ?_, hres⟩
      intro heap1 leaf1 hsame h1 hl1
      have hna : n ≠ a := by
        intro hna
        subst hna
        rw [hnode] at ha
        simp only [Option.some.injEq] at ha
        subst ha
        rw [hleaf] at hl
        exact Bool.noConfusion hl
      have hi : searchUpper node.keys key ≠ node.children.length := by
        intro hi
        have := getElem?_lt_length hchild
        omega
      simp only [searchDescend, hsame n hna, hnode, hleaf, Bool.false_eq_true, if_false, hi, hchild]
      exact hpath heap1 leaf1 hsame h1 hl1

end blinktree
end PebbleSQL
namespace PebbleSQL
namespace blinktree

/-- Replacing a leaf by a leaf does not change the way `Search` takes. -/
theorem searchDescend_set_leaf {heap : List Node} {a : Nat} {leaf leaf1 : Node}
    (ha : heap[a]? = some leaf) (hl : leaf.isLeaf = true) (hl1 : leaf1.isLeaf = true) (key : Int) :
    ∀ (fuel : Nat) (s : Option Nat),
      (∃ e, searchDescend heap key fuel s = .error e ∧
            searchDescend (heap.set a leaf1) key fuel s = .error e) ∨
      (∃ x, searchDescend heap key fuel s = .ok x ∧
            searchDescend (heap.set a leaf1) key fuel s = .ok x) ∨
      (searchDescend heap key fuel s = .ok leaf ∧
        searchDescend (heap.set a leaf1) key fuel s = .ok leaf1) := by
  have halt : a < heap.length := getElem?_lt_length ha
  intro fuel
  induction fuel with
  | zero => intro s; left; exact ⟨_, rfl, rfl⟩
  | succ fuel ih =>
    intro s
    cases s with
    | none => left; exact ⟨_, rfl, rfl⟩
    | some b =>
      by_cases hba : b = a
      · subst hba
        right; right
        simp only [searchDescend, ha, hl, List.getElem?_set_self halt, hl1, if_true, and_self]
      · simp only [searchDescend, List.getElem?_set_ne (Ne.symm hba)]
        cases hb : heap[b]? with
        | none => left; exact ⟨_, rfl, rfl⟩
        | some n =>
          simp only
          by_cases hnl : n.isLeaf = true
          · simp only [hnl, if_true]
            right; left; exact ⟨_, rfl, rfl⟩
          · simp only [hnl, if_false]
            by_cases hi : searchUpper n.keys key = n.children.length
            · simp only [hi, if_true]
              exact ih _
            · simp only [hi, if_false]
              cases hc : n.children[searchUpper n.keys key]? with
              | none => left; exact ⟨_, rfl, rfl⟩
              | some c => exact ih _

/-- A key that sits in a sorted slice is found by `SearchInts`. -/
theorem SearchInts_finds (a : List Int) (x : Int) (hs : a.Pairwise (· ≤ ·)) (hx : x ∈ a) :
    SearchInts a x < a.length ∧ a.getD (SearchInts a x) 0 = x := by
  have hle := SearchInts_le a x
  have hsplit : a = a.take (SearchInts a x) ++ a.drop (SearchInts a x) := (List.take_append_drop _ _).symm
  have hmem : x ∈ a.drop (SearchInts a x) := by
    rw [hsplit, List.mem_append] at hx
    rcases hx with h | h
    · exact absurd (SearchInts_before a x hs x h) (lt_irrefl _)
    · exact h
  have hlt : SearchInts a x < a.length := by
    by_contra hc
    rw [List.drop_eq_nil_of_le (by omega)] at hmem
    simp at hmem
  refine ⟨hlt, ?_⟩
  rw [List.getD_eq_getElem _ _ hlt]
  have h1 : x ≤ a[SearchInts a x] :=
    SearchInts_after a x hs _ (by rw [List.drop_eq_getElem_cons hlt]; exact List.mem_cons_self _ _)
  obtain ⟨i, hi, hxi⟩ := List.mem_iff_getElem.1 hmem
  rw [List.getElem_drop] at hxi
  have hi2 : SearchInts a x + i < a.length := by
    have := hi; simp only [List.length_drop] at this; omega
  have h2 : a[SearchInts a x] ≤ a[SearchInts a x + i] := by
    rcases Nat.eq_zero_or_pos i with h0 | hpos
    · subst h0; simp
    · exact List.pairwise_iff_getElem.1 hs _ _ hlt hi2 (by omega)
  omega

end blinktree
end PebbleSQL
namespace PebbleSQL
namespace blinktree

/-- A run of `insertAll` that succeeds builds its tree by `Insert` calls. -/
theorem built_insertAll (fuel : Nat) :
    ∀ (es0 : List (Int × List Byte)) (es : List (Int × List Byte)) (t t1 : BlinkTree),
      Built t es0 → insertAll fuel t es = .ok t1 → Built t1 (es0 ++ es) := by
  intro es0 es
  induction es generalizing es0 with
  | nil =>
    intro t t1 hb h
    simp only [insertAll, Except.ok.injEq] at h
    subst h
    simpa using hb
  | cons e es ih =>
    intro t t1 hb h
    obtain ⟨k, v⟩ := e
    simp only [insertAll, bind_eq_ok] at h
    obtain ⟨t2, h2, h3⟩ := h
    have := ih (es0 ++ [(k, v)]) t2 t1 (Built.step hb h2) h3
    simpa using this

theorem built_tree3 : Built tree3 [(10, [1]), (20, [2]), (30, [3])] :=
  built_insertAll 5 [] _ NewBlinkTree tree3 Built.new (by decide)

theorem built_treeDup : Built treeDup [(30, [1]), (30, [2])] :=
  built_insertAll 5 [] _ NewBlinkTree treeDup Built.new (by decide)

end blinktree
end PebbleSQL
namespace PebbleSQL
namespace blinktree

/-- The keys of a leaf are sorted and no key is in a leaf more often than it was inserted. -/
theorem splitStable_leafCount (es : List (Int × List Byte)) :
    SplitStable
      (fun x => x.isLeaf = true →
        x.keys.Pairwise (· ≤ ·) ∧ ∀ k, x.keys.count k ≤ (es.map Prod.fst).count k)
      (fun x => x.isLeaf = true →
        x.keys.Pairwise (· ≤ ·) ∧ ∀ k, x.keys.count k ≤ (es.map Prod.fst).count k) where
  parent := fun x q h => h
  left := fun x r h hl => by
    obtain ⟨h1, h2⟩ := h hl
    exact ⟨h1.sublist (List.take_sublist _ _),
      fun k => le_trans ((List.take_sublist _ _).count_le k) (h2 k)⟩
  right := fun x h hl => by
    obtain ⟨h1, h2⟩ := h hl
    exact ⟨h1.sublist (List.drop_sublist _ _),
      fun k => le_trans ((List.drop_sublist _ _).count_le k) (h2 k)⟩
  root := fun k a b hl => by simp at hl
  up := fun y k c pk pc _ hy _ _ =>
    ⟨fun _ hl => by simp [hy] at hl, fun _ hl => by simp [hy] at hl⟩

theorem built_leafCount {t : BlinkTree} {es : List (Int × List Byte)} (hb : Built t es) :
    AllNodes (fun x => x.isLeaf = true →
      x.keys.Pairwise (· ≤ ·) ∧ ∀ k, x.keys.count k ≤ (es.map Prod.fst).count k) t.heap := by
  refine (built_preserves
    (fun es x => x.isLeaf = true →
      x.keys.Pairwise (· ≤ ·) ∧ ∀ k, x.keys.count k ≤ (es.map Prod.fst).count k)
    (fun es x => x.isLeaf = true →
      x.keys.Pairwise (· ≤ ·) ∧ ∀ k, x.keys.count k ≤ (es.map Prod.fst).count k)
    (by intro _; simp) splitStable_leafCount ?_ ?_ hb).2
  · intro es k v x h hl
    obtain ⟨h1, h2⟩ := h hl
    refine ⟨h1, fun k1 => le_trans (h2 k1) ?_⟩
    simp [List.count_append]
  · intro es k v x ks vs h hl hks _
    obtain ⟨h1, h2⟩ := h hl
    rw [insertAt_eq_ok] at hks
    obtain ⟨hle, rfl⟩ := hks
    have key : x.keys.Pairwise (· ≤ ·) → (∀ k1, x.keys.count k1 ≤ (es.map Prod.fst).count k1) →
        (x.keys.take (SearchInts x.keys k) ++ k :: x.keys.drop (SearchInts x.keys k)).Pairwise (· ≤ ·) ∧
        ∀ k1, (x.keys.take (SearchInts x.keys k) ++ k :: x.keys.drop (SearchInts x.keys k)).count k1
          ≤ ((es ++ [(k, v)]).map Prod.fst).count k1 := by
      intro h1 h2
      refine ⟨sorted_insert _ _ h1, fun k1 => ?_⟩
      have hc : x.keys.count k1 =
          (x.keys.take (SearchInts x.keys k)).count k1 + (x.keys.drop (SearchInts x.keys k)).count k1 := by
        conv_lhs => rw [← List.take_append_drop (SearchInts x.keys k) x.keys]
        rw [List.count_append]
      have := h2 k1
      simp only [List.count_append, List.count_cons, List.map_append, List.map_cons, List.map_nil,
        List.count_nil]
      omega
    exact ⟨fun _ _ => key h1 h2, fun _ _ => key h1 h2⟩

/-- C4 (as amended): in a tree built by `Insert` calls, for a key `k` that was inserted at
most once, `Search(k)` reports not-found after `Delete(k)` has returned. -/
theorem C4_search_after_delete (t t1 : BlinkTree) (es : List (Int × List Byte)) (fuel : Nat)
    (k : Int) (hb : Built t es) (honce : (es.map Prod.fst).count k ≤ 1)
    (hdel : Delete fuel t k = .ok t1) : Search fuel t1 k = .ok ([], false) := by
  obtain ⟨a, leaf, ha, hl, hpath, hres⟩ := delete_spec k fuel t t1 t.root hdel
  obtain ⟨hsorted, hcount⟩ := built_leafCount hb a leaf ha hl
  have halt : a < t.heap.length := getElem?_lt_length ha
  rcases hres with ⟨hlt, hkey, ks, vs, hks, hvs, rfl⟩ | ⟨hnot, rfl⟩
  · have hsd := hpath (t.heap.set a { leaf with keys := ks, values := vs })
      { leaf with keys := ks, values := vs }
      (fun b hb => List.getElem?_set_ne (Ne.symm hb)) (List.getElem?_set_self halt) hl
    simp only [Search, hsd, bind, Except.bind]
    apply scanLeaf_not_mem
    rw [removeAt_eq_ok] at hks
    obtain ⟨_, rfl⟩ := hks
    intro hmem
    have hc : leaf.keys.count k =
        (leaf.keys.take (SearchInts leaf.keys k)).count k + 1 +
          (leaf.keys.drop (SearchInts leaf.keys k + 1)).count k := by
      conv_lhs => rw [← List.take_append_drop (SearchInts leaf.keys k) leaf.keys,
        List.drop_eq_getElem_cons hlt]
      rw [List.getD_eq_getElem _ _ hlt] at hkey
      simp [List.count_append, List.count_cons, hkey]
      omega
    have hpos : 0 < (leaf.keys.take (SearchInts leaf.keys k) ++
        leaf.keys.drop (SearchInts leaf.keys k + 1)).count k := List.count_pos_iff.2 hmem
    rw [List.count_append] at hpos
    have := hcount k
    omega
  · have hsd := hpath t1.heap leaf (fun _ _ => rfl) ha hl
    simp only [Search, hsd, bind, Except.bind]
    apply scanLeaf_not_mem
    intro hmem
    exact hnot (SearchInts_finds _ _ hsorted hmem)

theorem C4_search_after_delete_witness :
    Built tree3 [(10, [1]), (20, [2]), (30, [3])] ∧
      (([(10, [1]), (20, [2]), (30, [3])] : List (Int × List Byte)).map Prod.fst).count 30 ≤ 1 ∧
      Delete 5 tree3 30 = .ok tree3del ∧ Search 5 tree3del 30 = .ok ([], false) :=
  ⟨built_tree3, by decide, by decide,
    C4_search_after_delete tree3 tree3del _ 5 30 built_tree3 (by decide) (by decide)⟩

/-- C4 (as stated, refuted): the key 30 is inserted twice; `Delete(30)` returns and removes one
of the two entries, and `Search(30)` still finds the key. -/
theorem C4_counterexample :
    Built treeDup [(30, [1]), (30, [2])] ∧ Delete 5 treeDup 30 = .ok treeDupDel ∧
      Search 5 treeDupDel 30 = .ok ([1], true) :=
  ⟨built_treeDup, by decide, by decide⟩

/-- C5: `Delete(k)` changes nothing but key `k`: whatever the tree, once `Delete(k)` has
returned, `Search` for any other key gives the result (value and found flag, or fault) it
gave before. -/
theorem C5_delete_frame (t t1 : BlinkTree) (fuel fuel1 : Nat) (k k1 : Int)
    (hdel : Delete fuel t k = .ok t1) (hne : k1 ≠ k) :
    Search fuel1 t1 k1 = Search fuel1 t k1 := by
  obtain ⟨a, leaf, ha, hl, -, hres⟩ := delete_spec k fuel t t1 t.root hdel
  rcases hres with ⟨hlt, hkey, ks, vs, hks, hvs, rfl⟩ | ⟨-, rfl⟩
  · have hks1 := removeAt_eq_eraseIdx hks
    have hvs1 := removeAt_eq_eraseIdx hvs
    subst hks1 hvs1
    have hl1 : ({ leaf with keys := leaf.keys.eraseIdx (SearchInts leaf.keys k),
                            values := leaf.values.eraseIdx (SearchInts leaf.keys k) } : Node).isLeaf
        = true := hl
    rcases searchDescend_set_leaf ha hl hl1 k1 fuel1 (some t.root) with
      ⟨e, h1, h2⟩ | ⟨x, h1, h2⟩ | ⟨h1, h2⟩
    · simp only [Search, h1, h2, bind, Except.bind]
    · simp only [Search, h1, h2, bind, Except.bind]
    · simp only [Search, h1, h2, bind, Except.bind]
      have := scanLeaf_eraseIdx k1 leaf.keys (SearchInts leaf.keys k) 0 leaf.values hlt
        (by rw [hkey]; exact Ne.symm hne)
      simpa using this
  · rfl

theorem C5_delete_frame_witness :
    Delete 5 tree3 30 = .ok tree3del ∧ (20 : Int) ≠ 30 ∧
      Search 5 tree3del 20 = Search 5 tree3 20 ∧ Search 5 tree3 20 = .ok ([2], true) :=
  ⟨by decide, by decide, C5_delete_frame tree3 tree3del 5 5 30 20 (by decide) (by decide),
    by decide⟩

end blinktree
end PebbleSQL
namespace PebbleSQL
namespace storage

/-- The bytes `buf[lo:hi]`. -/
theorem slice_eq_ok {buf s : List Byte} {lo hi : Nat} :
    slice buf lo hi = .ok s ↔ lo ≤ hi ∧ hi ≤ buf.length ∧ s = (buf.take hi).drop lo := by
  unfold slice
  by_cases h : lo ≤ hi ∧ hi ≤ buf.length
  · simp only [h, and_self, if_true, Except.ok.injEq, true_and]
    exact eq_comm
  · simp only [h, if_false]
    constructor
    · intro h1; exact Except.noConfusion h1
    · intro h1; exact absurd ⟨h1.1, h1.2.1⟩ h

theorem slice_ok {buf : List Byte} {lo hi : Nat} (h1 : lo ≤ hi) (h2 : hi ≤ buf.length) :
    slice buf lo hi = .ok ((buf.take hi).drop lo) :=
  slice_eq_ok.2 ⟨h1, h2, rfl⟩

theorem getElem?_sub (buf : List Byte) (lo hi j : Nat) (_h2 : hi ≤ buf.length) :
    ((buf.take hi).drop lo)[j]? = if lo + j < hi then buf[lo + j]? else none := by
  rw [List.getElem?_drop, List.getElem?_take]

theorem length_sub (buf : List Byte) (lo hi : Nat) (h2 : hi ≤ buf.length) :
    ((buf.take hi).drop lo).length = hi - lo := by
  simp only [List.length_drop, List.length_take]
  omega

theorem length_splice (buf w : List Byte) (lo : Nat) (h : lo + w.length ≤ buf.length) :
    (splice buf lo w).length = buf.length := by
  simp only [splice, List.length_append, List.length_take, List.length_drop]
  omega

theorem getElem?_splice (buf w : List Byte) (lo j : Nat) (h : lo + w.length ≤ buf.length) :
    (splice buf lo w)[j]? =
      if j < lo then buf[j]? else if j < lo + w.length then w[j - lo]? else buf[j]? := by
  unfold splice
  by_cases h1 : j < lo
  · simp only [h1, if_true]
    rw [List.append_assoc, List.getElem?_append_left (by simp; omega), List.getElem?_take]
    simp [h1]
  · simp only [h1, if_false]
    have hl : (buf.take lo).length = lo := by simp; omega
    by_cases h2 : j < lo + w.length
    · simp only [h2, if_true]
      rw [List.getElem?_append_left (by simp; omega), List.getElem?_append_right (by omega), hl]
    · simp only [h2, if_false]
      rw [List.getElem?_append_right (by simp; omega), List.getElem?_drop]
      congr 1
      simp only [List.length_append, hl]
      omega

theorem copyBytes_eq (dst src : List Byte) (h : src.length = dst.length) :
    copyBytes dst src = src := by
  unfold copyBytes
  rw [List.take_of_length_le (by omega), List.drop_of_length_le (by omega), List.append_nil]

/-- Reading back what was written. -/
theorem slice_splice_same (buf w : List Byte) (lo : Nat) (h : lo + w.length ≤ buf.length) :
    slice (splice buf lo w) lo (lo + w.length) = .ok w := by
  rw [slice_ok (by omega) (by rw [length_splice _ _ _ h]; exact h)]
  congr 1
  apply List.ext_getElem?
  intro j
  rw [getElem?_sub _ _ _ _ (by rw [length_splice _ _ _ h]; exact h), getElem?_splice _ _ _ _ h]
  by_cases hj : j < w.length
  · simp only [show lo + j < lo + w.length by omega, if_true, show ¬ lo + j < lo by omega,
      if_false]
    congr 1; omega
  · simp only [show ¬ lo + j < lo + w.length by omega, if_false]
    rw [List.getElem?_eq_none (by omega)]

/-- A write does not change what lies outside the bytes written. -/
theorem slice_splice_disjoint (buf w : List Byte) (lo a b : Nat) (h : lo + w.length ≤ buf.length)
    (hd : b ≤ lo ∨ lo + w.length ≤ a) : slice (splice buf lo w) a b = slice buf a b := by
  unfold slice
  rw [length_splice _ _ _ h]
  by_cases hc : a ≤ b ∧ b ≤ buf.length
  · simp only [hc, and_self, if_true]
    congr 1
    apply List.ext_getElem?
    intro j
    rw [getElem?_sub _ _ _ _ (by rw [length_splice _ _ _ h]; exact hc.2),
      getElem?_sub _ _ _ _ hc.2, getElem?_splice _ _ _ _ h]
    by_cases hj : a + j < b
    · simp only [hj, if_true]
      rcases hd with hd | hd
      · simp only [show a + j < lo by omega, if_true]
      · simp only [show ¬ a + j < lo by omega, show ¬ a + j < lo + w.length by omega, if_false]
    · simp only [hj, if_false]
  · simp only [hc, if_false]

/-- A slice of what was written. -/
theorem slice_splice_inside (buf w : List Byte) (lo a b : Nat) (h : lo + w.length ≤ buf.length)
    (h1 : lo ≤ a) (h2 : b ≤ lo + w.length) (hc : a ≤ b) :
    slice (splice buf lo w) a b = slice w (a - lo) (b - lo) := by
  unfold slice
  rw [length_splice _ _ _ h]
  · simp only [hc, show b ≤ buf.length by omega, show a - lo ≤ b - lo by omega,
      show b - lo ≤ w.length by omega, and_self, if_true]
    congr 1
    apply List.ext_getElem?
    intro j
    rw [getElem?_sub _ _ _ _ (by rw [length_splice _ _ _ h]; omega),
      getElem?_sub _ _ _ _ (by omega), getElem?_splice _ _ _ _ h]
    by_cases hj : a + j < b
    · simp only [hj, show a - lo + j < b - lo by omega, if_true, show ¬ a + j < lo by omega,
        show a + j < lo + w.length by omega, if_false]
      congr 1; omega
    · simp only [hj, show ¬ a - lo + j < b - lo by omega, if_false]

/-- A slice of a slice. -/
theorem slice_sub (buf : List Byte) (lo hi a b : Nat) (h : hi ≤ buf.length) (hlo : lo ≤ hi)
    (hb : b ≤ hi - lo) : slice ((buf.take hi).drop lo) a b = slice buf (lo + a) (lo + b) := by
  unfold slice
  rw [length_sub _ _ _ h]
  by_cases hc : a ≤ b
  · simp only [hc, hb, show lo + a ≤ lo + b by omega, show lo + b ≤ buf.length by omega, and_self,
      if_true]
    congr 1
    apply List.ext_getElem?
    intro j
    rw [getElem?_sub _ _ _ _ (by rw [length_sub _ _ _ h]; exact hb), getElem?_sub _ _ _ _ h,
      getElem?_sub _ _ _ _ (by omega)]
    by_cases hj : a + j < b
    · simp only [hj, show lo + a + j < lo + b by omega, show lo + (a + j) < hi by omega, if_true]
      congr 1; omega
    · simp only [hj, show ¬ lo + a + j < lo + b by omega, if_false]
  · simp only [hc, show ¬ lo + a ≤ lo + b by omega, false_and, if_false]

end storage
end PebbleSQL
namespace PebbleSQL
namespace storage

theorem byteAt_cons_zero (b : Byte) (l : List Byte) : byteAt (b :: l) 0 = b.val := rfl

theorem byteAt_cons_succ (b : Byte) (l : List Byte) (i : Nat) :
    byteAt (b :: l) (i + 1) = byteAt l i := rfl

theorem toByte_val (v : Nat) : (toByte v).val = v % 256 := rfl

theorem getUint16_put (v : Nat) (rest : List Byte) (hv : v < 2 ^ 16) :
    getUint16 (putUint16 v ++ rest) 0 = v := by
  simp only [getUint16, putUint16, List.cons_append, List.nil_append, byteAt_cons_zero,
    byteAt_cons_succ, toByte_val]
  omega

theorem getUint32_put (v : Nat) (rest : List Byte) (hv : v < 2 ^ 32) :
    getUint32 (putUint32 v ++ rest) 0 = v := by
  simp only [getUint32, putUint32, List.cons_append, List.nil_append, byteAt_cons_zero,
    byteAt_cons_succ, toByte_val]
  omega

theorem getUint64_put (v : Nat) (rest : List Byte) (hv : v < 2 ^ 64) :
    getUint64 (putUint64 v ++ rest) 0 = v := by
  simp only [getUint64, putUint64, List.cons_append, List.nil_append, byteAt_cons_zero,
    byteAt_cons_succ, toByte_val]
  omega

/-- The slot that was written into a 24-byte slice is the slot read from it, up to the
width of the fields and the field `Deleted`. -/
theorem ReadSlot_WriteSlot (buf s1 : List Byte) (slot : SlotEntry)
    (hw : WriteSlot buf slot = .ok s1) :
    s1.length = buf.length ∧ ReadSlot s1 = .ok (normSlot slot) := by
  unfold WriteSlot at hw
  by_cases hlen : buf.length < sizeofSlotEntry
  · simp [hlen] at hw
  · simp only [hlen, if_false, Except.ok.injEq] at hw
    subst hw
    have hl24 : 24 ≤ buf.length := by simpa [sizeofSlotEntry] using hlen
    have hlen1 : (putUint64 slot.Key ++ putUint16 slot.ValueOffset ++ putUint16 slot.ValueLength
        ++ putUint32 slot.OverflowPageID ++ putUint32 slot.ChildPageID ++ buf.drop 20).length
        = buf.length := by
      simp only [putUint64, putUint32, putUint16, List.length_append, List.length_cons,
        List.length_nil, List.length_drop]
      omega
    refine ⟨hlen1, ?_⟩
    unfold ReadSlot
    rw [hlen1]
    simp only [hlen, if_false, Except.ok.injEq]
    simp only [getUint64, getUint32, getUint16, putUint64, putUint32, putUint16, List.cons_append,
      List.nil_append, byteAt_cons_zero, byteAt_cons_succ, toByte_val, normSlot]
    congr 1 <;> omega

/-- A slot whose fields are in the range of their types is read as it was written. -/
theorem normSlot_eq (slot : SlotEntry) (hk : slot.Key < 2 ^ 64)
    (hvo : slot.ValueOffset < 2 ^ 16) (hvl : slot.ValueLength < 2 ^ 16)
    (hov : slot.OverflowPageID < 2 ^ 32) (hch : slot.ChildPageID < 2 ^ 32) :
    normSlot slot = { slot with Deleted := false } := by
  unfold normSlot
  rw [Nat.mod_eq_of_lt hk, Nat.mod_eq_of_lt hvo, Nat.mod_eq_of_lt hvl, Nat.mod_eq_of_lt hov,
    Nat.mod_eq_of_lt hch]

/-- The header that was written into a 20-byte slice is the header read from it. -/
theorem ReadHeader_WriteHeader (buf h1 : List Byte) (header : PageHeader)
    (hm : header.MagicNumber < 2 ^ 32) (hv : header.PageVersion < 2 ^ 16)
    (hn : header.NumKeys < 2 ^ 16) (ho : header.FreeSpaceOffset < 2 ^ 16)
    (he : header.FreeSpaceEnd < 2 ^ 16) (hr : header.RightSiblingPageID < 2 ^ 32)
    (hw : WriteHeader buf header = .ok h1) :
    h1.length = buf.length ∧ ReadHeader h1 = .ok header := by
  unfold WriteHeader at hw
  by_cases hlen : buf.length < sizeofPageHeader
  · simp [hlen] at hw
  · simp only [hlen, if_false, Except.ok.injEq] at hw
    subst hw
    have hl20 : 20 ≤ buf.length := by simpa [sizeofPageHeader] using hlen
    have hlen1 : (putUint32 header.MagicNumber ++ putUint16 header.PageVersion
        ++ [boolToByte header.IsLeaf, 0]
        ++ putUint16 header.NumKeys ++ putUint16 header.FreeSpaceOffset
        ++ putUint16 header.FreeSpaceEnd ++ [0, 0]
        ++ putUint32 header.RightSiblingPageID ++ buf.drop 20).length = buf.length := by
      simp only [putUint32, putUint16, List.length_append, List.length_cons,
        List.length_nil, List.length_drop]
      omega
    refine ⟨hlen1, ?_⟩
    unfold ReadHeader
    rw [hlen1]
    simp only [hlen, if_false, Except.ok.injEq]
    simp only [getUint32, getUint16, putUint32, putUint16, List.cons_append,
      List.nil_append, byteAt_cons_zero, byteAt_cons_succ, toByte_val, List.getD_cons_succ,
      List.getD_cons_zero]
    have hb : byteToBool (boolToByte header.IsLeaf) = header.IsLeaf := by
      cases header.IsLeaf <;> rfl
    rw [hb]
    cases header
    simp only [PageHeader.mk.injEq] at *
    refine ⟨?_, ?_, trivial, ?_, ?_, ?_, ?_⟩ <;> omega

/-- The fields `ReadHeader` gives are in the range of their types. -/
theorem ReadHeader_range (buf : List Byte) (header : PageHeader) (h : ReadHeader buf = .ok header) :
    header.MagicNumber < 2 ^ 32 ∧ header.PageVersion < 2 ^ 16 ∧ header.NumKeys < 2 ^ 16 ∧
      header.FreeSpaceOffset < 2 ^ 16 ∧ header.FreeSpaceEnd < 2 ^ 16 ∧
      header.RightSiblingPageID < 2 ^ 32 := by
  unfold ReadHeader at h
  by_cases hlen : buf.length < sizeofPageHeader
  · simp [hlen] at h
  · simp only [hlen, if_false, Except.ok.injEq] at h
    subst h
    simp only [getUint32, getUint16, byteAt]
    have := fun i => (buf.getD i 0).isLt
    have h0 := this 0; have h1 := this 1; have h2 := this 2; have h3 := this 3
    have h4 := this 4; have h5 := this 5
    have h8 := this 8; have h9 := this 9; have h10 := this 10; have h11 := this 11
    have h12 := this 12; have h13 := this 13
    have h16 := this 16; have h17 := this 17; have h18 := this 18; have h19 := this 19
    simp only [Nat.zero_add, Nat.reduceAdd] at *
    refine ⟨?_, ?_, ?_, ?_, ?_, ?_⟩ <;> omega

/-- The overflow header that was written is the header read. -/
theorem ReadOverflowHeader_Write (buf b1 : List Byte) (header : OverflowPageHeader)
    (hn : header.NextOverflowPageID < 2 ^ 32) (hd : header.DataLength < 2 ^ 16)
    (hw : WriteOverflowHeader buf header = .ok b1) :
    b1.length = buf.length ∧ ReadOverflowHeader b1 = .ok header ∧
      b1 = putUint32 header.NextOverflowPageID ++ putUint16 header.DataLength ++ buf.drop 6 := by
  unfold WriteOverflowHeader at hw
  by_cases hlen : buf.length < OverflowHeaderSize
  · simp [hlen] at hw
  · simp only [hlen, if_false, Except.ok.injEq] at hw
    subst hw
    have hl6 : 6 ≤ buf.length := by simpa [OverflowHeaderSize] using hlen
    have hlen1 : (putUint32 header.NextOverflowPageID ++ putUint16 header.DataLength
        ++ buf.drop 6).length = buf.length := by
      simp only [putUint32, putUint16, List.length_append, List.length_cons,
        List.length_nil, List.length_drop]
      omega
    refine ⟨hlen1, ?_, rfl⟩
    unfold ReadOverflowHeader
    rw [hlen1]
    simp only [hlen, if_false, Except.ok.injEq]
    simp only [getUint32, getUint16, putUint32, putUint16, List.cons_append,
      List.nil_append, byteAt_cons_zero, byteAt_cons_succ, toByte_val]
    cases header
    simp only [OverflowPageHeader.mk.injEq] at *
    constructor <;> omega

end storage
end PebbleSQL
namespace PebbleSQL
namespace storage

theorem byteAt_sub (buf : List Byte) (lo hi j : Nat) (h : hi ≤ buf.length) (hj : lo + j < hi) :
    byteAt ((buf.take hi).drop lo) j = byteAt buf (lo + j) := by
  simp only [byteAt, List.getD_eq_getElem?_getD]
  rw [getElem?_sub _ _ _ _ h]
  simp only [hj, if_true]

/-- Within the buffer, `readSlotAt` gives the slot `slotOf`. -/
theorem readSlotAt_eq (buf : List Byte) (i : Nat)
    (h : sizeofPageHeader + (i + 1) * sizeofSlotEntry ≤ buf.length) :
    readSlotAt buf i = .ok (slotOf buf i) := by
  simp only [sizeofPageHeader, sizeofSlotEntry] at h
  have h2 : 20 + i * 24 + 24 ≤ buf.length := by omega
  unfold readSlotAt
  simp only [sizeofPageHeader, sizeofSlotEntry]
  rw [slice_ok (by omega) h2]
  simp only [bind, Except.bind]
  unfold ReadSlot
  rw [length_sub _ _ _ h2]
  simp only [sizeofSlotEntry, show ¬ (20 + i * 24 + 24 - (20 + i * 24) < 24) by omega, if_false,
    Except.ok.injEq]
  simp only [slotOf, getUint64, getUint32, getUint16, sizeofPageHeader, sizeofSlotEntry]
  have hb : ∀ j, j < 24 →
      byteAt ((buf.take (20 + i * 24 + 24)).drop (20 + i * 24)) j = byteAt buf (20 + i * 24 + j) :=
    fun j hj => byteAt_sub _ _ _ _ h2 (by omega)
  simp only [hb 0 (by omega), hb 1 (by omega), hb 2 (by omega), hb 3 (by omega), hb 4 (by omega),
    hb 5 (by omega), hb 6 (by omega), hb 7 (by omega), hb 8 (by omega), hb 9 (by omega),
    hb 10 (by omega), hb 11 (by omega), hb 12 (by omega), hb 13 (by omega), hb 14 (by omega),
    hb 15 (by omega), hb 16 (by omega), hb 17 (by omega), hb 18 (by omega), hb 19 (by omega),
    Nat.zero_add, Nat.reduceAdd]
  simp only [Nat.add_assoc, Nat.add_zero, Nat.reduceAdd]

/-- Beyond the buffer, `readSlotAt` faults. -/
theorem readSlotAt_out (buf : List Byte) (i : Nat)
    (h : buf.length < sizeofPageHeader + (i + 1) * sizeofSlotEntry) :
    readSlotAt buf i = .error .indexOutOfRange := by
  simp only [sizeofPageHeader, sizeofSlotEntry] at h
  unfold readSlotAt slice
  simp only [sizeofPageHeader, sizeofSlotEntry, show ¬ (20 + i * 24 ≤ 20 + i * 24 + 24 ∧
    20 + i * 24 + 24 ≤ buf.length) by omega, if_false, bind, Except.bind]

/-- Two buffers with the same 24 bytes in two slots have the same slot there. -/
theorem slotOf_congr (buf1 buf2 : List Byte) (i j : Nat)
    (h1 : sizeofPageHeader + (i + 1) * sizeofSlotEntry ≤ buf1.length)
    (h2 : sizeofPageHeader + (j + 1) * sizeofSlotEntry ≤ buf2.length)
    (h : slice buf1 (sizeofPageHeader + i * sizeofSlotEntry)
           (sizeofPageHeader + i * sizeofSlotEntry + sizeofSlotEntry) =
         slice buf2 (sizeofPageHeader + j * sizeofSlotEntry)
           (sizeofPageHeader + j * sizeofSlotEntry + sizeofSlotEntry)) :
    slotOf buf1 i = slotOf buf2 j := by
  have e1 := readSlotAt_eq buf1 i h1
  have e2 := readSlotAt_eq buf2 j h2
  simp only [readSlotAt] at e1 e2
  rw [h] at e1
  rw [e1] at e2
  exact Except.ok.inj e2

end storage
end PebbleSQL
namespace PebbleSQL
namespace storage

/-- The position `findInsertPosition` gives: the first slot with a greater key, or the number
of slots. -/
theorem findInsertLoop_spec (buf : List Byte) (key : Nat) :
    ∀ (todo i : Nat), sizeofPageHeader + (i + todo) * sizeofSlotEntry ≤ buf.length →
      ∃ pos, findInsertLoop buf key todo i = .ok pos ∧ i ≤ pos ∧ pos ≤ i + todo ∧
        (∀ j, i ≤ j → j < pos → (slotOf buf j).Key ≤ key) ∧
        (pos < i + todo → key < (slotOf buf pos).Key) := by
  intro todo
  induction todo with
  | zero =>
    intro i _
    exact ⟨i, rfl, le_refl _, le_refl _, fun j h1 h2 => by omega, fun h => by omega⟩
  | succ todo ih =>
    intro i h
    simp only [sizeofPageHeader, sizeofSlotEntry] at h
    have hr := readSlotAt_eq buf i (by simp only [sizeofPageHeader, sizeofSlotEntry]; omega)
    simp only [findInsertLoop, hr, bind, Except.bind]
    by_cases hk : key < (slotOf buf i).Key
    · simp only [hk, if_true]
      exact ⟨i, rfl, le_refl _, by omega, fun j h1 h2 => by omega, fun _ => hk⟩
    · simp only [hk, if_false]
      obtain ⟨pos, h1, h2, h3, h4, h5⟩ :=
        ih (i + 1) (by simp only [sizeofPageHeader, sizeofSlotEntry]; omega)
      refine ⟨pos, h1, by omega, by omega, ?_, fun hlt => h5 (by omega)⟩
      intro j hj1 hj2
      by_cases hji : j = i
      · subst hji; omega
      · exact h4 j (by omega) hj2

/-- What `shiftSlots` does to the buffer: the slots from `insertPos` on move up by one slot,
the bytes before and behind stay. -/
theorem shiftSlots_spec (buf : List Byte) (pos n : Nat) (hpos : pos < n)
    (hlen : sizeofPageHeader + (n + 1) * sizeofSlotEntry ≤ buf.length) :
    ∃ buf2, shiftSlots buf pos n = .ok buf2 ∧ buf2.length = buf.length ∧
      (∀ a b, b ≤ sizeofPageHeader + (pos + 1) * sizeofSlotEntry ∨
          sizeofPageHeader + (n + 1) * sizeofSlotEntry ≤ a → slice buf2 a b = slice buf a b) ∧
      (∀ i, pos ≤ i → i < n →
        slice buf2 (sizeofPageHeader + (i + 1) * sizeofSlotEntry)
            (sizeofPageHeader + (i + 1) * sizeofSlotEntry + sizeofSlotEntry) =
          slice buf (sizeofPageHeader + i * sizeofSlotEntry)
            (sizeofPageHeader + i * sizeofSlotEntry + sizeofSlotEntry)) := by
  simp only [sizeofPageHeader, sizeofSlotEntry] at hlen ⊢
  have hm : (n - pos) * 24 = n * 24 - pos * 24 := Nat.sub_mul _ _ _
  have hpn : pos * 24 + 24 ≤ n * 24 := by omega
  have hsrc : 20 + pos * 24 + (n - pos) * 24 ≤ buf.length := by omega
  have hdst : 20 + pos * 24 + 24 + (n - pos) * 24 ≤ buf.length := by omega
  unfold shiftSlots
  simp only [sizeofPageHeader, sizeofSlotEntry]
  rw [slice_ok (by omega) hdst, slice_ok (by omega) hsrc]
  simp only [bind, Except.bind, pure, Except.pure]
  have hl1 : ((buf.take (20 + pos * 24 + 24 + (n - pos) * 24)).drop (20 + pos * 24 + 24)).length
      = (n - pos) * 24 := by rw [length_sub _ _ _ hdst]; omega
  have hl2 : ((buf.take (20 + pos * 24 + (n - pos) * 24)).drop (20 + pos * 24)).length
      = (n - pos) * 24 := by rw [length_sub _ _ _ hsrc]; omega
  rw [copyBytes_eq _ _ (by rw [hl1, hl2])]
  have hfit : 20 + pos * 24 + 24 +
      ((buf.take (20 + pos * 24 + (n - pos) * 24)).drop (20 + pos * 24)).length ≤ buf.length := by
    rw [hl2]; exact hdst
  refine ⟨_, rfl, length_splice _ _ _ hfit, ?_, ?_⟩
  · intro a b hab
    apply slice_splice_disjoint _ _ _ _ _ hfit
    rw [hl2]
    rcases hab with h | h
    · left; omega
    · right; omega
  · intro i hi1 hi2
    have hi3 : i * 24 + 24 ≤ n * 24 := by omega
    rw [slice_splice_inside _ _ _ _ _ hfit (by omega) (by rw [hl2]; omega) (by omega),
      slice_sub _ _ _ _ _ hsrc (by omega) (by omega)]
    congr 1 <;> omega

end storage
end PebbleSQL
namespace PebbleSQL
namespace storage

/-- What the last part of `InsertKeyValue` does to a buffer with room for one more slot: the
slot goes to the position `findInsertPosition` gives, the slots from there on move up by one,
the bytes behind the slot array stay, and the header counts one more key and 24 more bytes (modulo `2^16`). -/
theorem insertSlot_spec (buf : List Byte) (header : PageHeader) (slot : SlotEntry) (key : Nat)
    (hlen : sizeofPageHeader + (header.NumKeys + 1) * sizeofSlotEntry ≤ buf.length)
    (hm : header.MagicNumber < 2 ^ 32) (hv : header.PageVersion < 2 ^ 16)
    (hn : header.NumKeys + 1 < 2 ^ 16)
    (he : header.FreeSpaceEnd < 2 ^ 16) (hr : header.RightSiblingPageID < 2 ^ 32) :
    ∃ buf4 pos, insertSlot buf header slot key = .ok buf4 ∧ buf4.length = buf.length ∧
      pos ≤ header.NumKeys ∧
      (∀ j, j < pos → (slotOf buf j).Key ≤ key) ∧
      (pos < header.NumKeys → key < (slotOf buf pos).Key) ∧
      (∀ j, j < pos → slotOf buf4 j = slotOf buf j) ∧
      slotOf buf4 pos = normSlot slot ∧
      (∀ j, pos ≤ j → j < header.NumKeys → slotOf buf4 (j + 1) = slotOf buf j) ∧
      (∀ a b, sizeofPageHeader + (header.NumKeys + 1) * sizeofSlotEntry ≤ a →
        slice buf4 a b = slice buf a b) ∧
      pageHeader { Buf := buf4 } = .ok { header with NumKeys := header.NumKeys + 1,
                                                     FreeSpaceOffset := (header.FreeSpaceOffset + 24) % 2 ^ 16 } := by
  obtain ⟨pos, hfind, -, hposn, hbefore, hafter⟩ :=
    findInsertLoop_spec buf key header.NumKeys 0 (by
      simp only [sizeofPageHeader, sizeofSlotEntry] at hlen ⊢; omega)
  simp only [Nat.zero_add] at hposn hafter
  -- the buffer after the shift
  have hshift : ∃ buf2, (if pos < header.NumKeys then shiftSlots buf pos header.NumKeys
        else pure buf) = Except.ok buf2 ∧ buf2.length = buf.length ∧
      (∀ a b, b ≤ sizeofPageHeader + pos * sizeofSlotEntry ∨
          sizeofPageHeader + (header.NumKeys + 1) * sizeofSlotEntry ≤ a →
          slice buf2 a b = slice buf a b) ∧
      (∀ i, pos ≤ i → i < header.NumKeys →
        slice buf2 (sizeofPageHeader + (i + 1) * sizeofSlotEntry)
            (sizeofPageHeader + (i + 1) * sizeofSlotEntry + sizeofSlotEntry) =
          slice buf (sizeofPageHeader + i * sizeofSlotEntry)
            (sizeofPageHeader + i * sizeofSlotEntry + sizeofSlotEntry)) := by
    by_cases hlt : pos < header.NumKeys
    · obtain ⟨buf2, h1, h2, h3, h4⟩ := shiftSlots_spec buf pos header.NumKeys hlt hlen
      refine ⟨buf2, by simp only [hlt, if_true]; exact h1, h2, ?_, h4⟩
      intro a b hab
      apply h3
      simp only [sizeofPageHeader, sizeofSlotEntry] at hab ⊢
      omega
    · refine ⟨buf, by simp only [hlt, if_false]; rfl, rfl, fun _ _ _ => rfl, ?_⟩
      intro i h1 h2
      omega
  obtain ⟨buf2, hbuf2, hlen2, hout2, hmove2⟩ := hshift
  simp only [sizeofPageHeader, sizeofSlotEntry] at hlen hout2 hmove2 ⊢
  -- the slot is written
  have hs2 : 20 + pos * 24 + 24 ≤ buf2.length := by omega
  obtain ⟨s1, hw⟩ : ∃ s1, WriteSlot ((buf2.take (20 + pos * 24 + 24)).drop (20 + pos * 24)) slot
      = .ok s1 := by
    unfold WriteSlot
    rw [length_sub _ _ _ hs2]
    simp only [sizeofSlotEntry, show ¬ (20 + pos * 24 + 24 - (20 + pos * 24) < 24) by omega,
      if_false]
    exact ⟨_, rfl⟩
  obtain ⟨hs1len, hs1read⟩ := ReadSlot_WriteSlot _ s1 slot hw
  rw [length_sub _ _ _ hs2] at hs1len
  have hs1len24 : s1.length = 24 := by omega
  have hfit3 : 20 + pos * 24 + s1.length ≤ buf2.length := by omega
  have hlen3 : (splice buf2 (20 + pos * 24) s1).length = buf.length := by
    rw [length_splice _ _ _ hfit3, hlen2]
  -- the header is written
  have hh3 : 20 ≤ (splice buf2 (20 + pos * 24) s1).length := by omega
  obtain ⟨h1, hwh⟩ : ∃ h1, WriteHeader (((splice buf2 (20 + pos * 24) s1).take 20).drop 0)
      { header with NumKeys := header.NumKeys + 1,
                    FreeSpaceOffset := (header.FreeSpaceOffset + 24) % 2 ^ 16 } = .ok h1 := by
    unfold WriteHeader
    rw [length_sub _ _ _ hh3]
    simp only [sizeofPageHeader, show ¬ (20 - 0 < 20) by omega, if_false]
    exact ⟨_, rfl⟩
  obtain ⟨hh1len, hh1read⟩ := ReadHeader_WriteHeader _ h1
    { header with NumKeys := header.NumKeys + 1,
                  FreeSpaceOffset := (header.FreeSpaceOffset + 24) % 2 ^ 16 }
    hm hv hn (Nat.mod_lt _ (by norm_num)) he hr hwh
  rw [length_sub _ _ _ hh3] at hh1len
  have hh1len20 : h1.length = 20 := by omega
  have hfit4 : 0 + h1.length ≤ (splice buf2 (20 + pos * 24) s1).length := by omega
  have hins : insertSlot buf header slot key
      = .ok (splice (splice buf2 (20 + pos * 24) s1) 0 h1) := by
    unfold insertSlot findInsertPosition
    simp only [hfind, bind, Except.bind, sizeofPageHeader, sizeofSlotEntry, PageHeaderSize]
    rw [hbuf2]
    simp only [show (24 % 2 ^ 16) = 24 by norm_num]
    rw [slice_ok (by omega) hs2]
    simp only [hw]
    rw [slice_ok (by omega) hh3]
    rw [Nat.mod_eq_of_lt hn]
    simp only [hwh, pure, Except.pure]
  -- slices of the final buffer behind the header and off the new slot are those after the shift
  have hfinal : ∀ a b, 20 ≤ a → (b ≤ 20 + pos * 24 ∨ 20 + pos * 24 + 24 ≤ a) →
      slice (splice (splice buf2 (20 + pos * 24) s1) 0 h1) a b = slice buf2 a b := by
    intro a b ha hab
    rw [slice_splice_disjoint _ _ _ _ _ hfit4 (Or.inr (by omega)),
      slice_splice_disjoint _ _ _ _ _ hfit3 (by rw [hs1len24]; exact hab)]
  have hlen4 : (splice (splice buf2 (20 + pos * 24) s1) 0 h1).length = buf.length := by
    rw [length_splice _ _ _ hfit4, hlen3]
  refine ⟨_, pos, hins, hlen4, hposn, fun j hj => hbefore j (Nat.zero_le _) hj, hafter, ?_, ?_, ?_,
    ?_, ?_⟩
  · intro j hj
    apply slotOf_congr
    · simp only [sizeofPageHeader, sizeofSlotEntry]; omega
    · simp only [sizeofPageHeader, sizeofSlotEntry]; omega
    · simp only [sizeofPageHeader, sizeofSlotEntry]
      rw [hfinal _ _ (by omega) (Or.inl (by omega)), hout2 _ _ (Or.inl (by omega))]
  · have hr4 := readSlotAt_eq (splice (splice buf2 (20 + pos * 24) s1) 0 h1) pos (by
      simp only [sizeofPageHeader, sizeofSlotEntry]; omega)
    simp only [readSlotAt, sizeofPageHeader, sizeofSlotEntry] at hr4
    rw [slice_splice_disjoint _ _ _ _ _ hfit4 (Or.inr (by omega))] at hr4
    have hsame := slice_splice_same buf2 s1 (20 + pos * 24) hfit3
    rw [hs1len24] at hsame
    rw [hsame] at hr4
    simp only [bind, Except.bind, hs1read, Except.ok.injEq] at hr4
    exact hr4.symm
  · intro j hj1 hj2
    apply slotOf_congr
    · simp only [sizeofPageHeader, sizeofSlotEntry]; omega
    · simp only [sizeofPageHeader, sizeofSlotEntry]; omega
    · simp only [sizeofPageHeader, sizeofSlotEntry]
      rw [hfinal _ _ (by omega) (Or.inr (by omega)), hmove2 j hj1 hj2]
  · intro a b ha
    rw [hfinal _ _ (by omega) (Or.inr (by omega)), hout2 _ _ (Or.inr ha)]
  · unfold pageHeader
    simp only [PageHeaderSize]
    have hsame := slice_splice_same (splice buf2 (20 + pos * 24) s1) h1 0 hfit4
    rw [hh1len20] at hsame
    simp only [Nat.zero_add] at hsame
    rw [hsame]
    simp only [bind, Except.bind, hh1read]

end storage
end PebbleSQL
namespace PebbleSQL
namespace storage

theorem slotKeys_length (buf : List Byte) (n : Nat) : (slotKeys buf n).length = n := by
  simp [slotKeys]

theorem slotKeys_getElem? (buf : List Byte) (n j : Nat) (hj : j < n) :
    (slotKeys buf n)[j]? = some (slotOf buf j).Key := by
  simp [slotKeys, List.getElem?_range hj]

theorem mem_slotKeys (buf : List Byte) (n : Nat) (k : Nat) :
    k ∈ slotKeys buf n ↔ ∃ j, j < n ∧ (slotOf buf j).Key = k := by
  simp [slotKeys]

theorem slotKeys_sorted_iff (buf : List Byte) (n : Nat) :
    (slotKeys buf n).Pairwise (· ≤ ·) ↔
      ∀ i j, i < j → j < n → (slotOf buf i).Key ≤ (slotOf buf j).Key := by
  rw [List.pairwise_iff_getElem]
  constructor
  · intro h i j hij hj
    have := h i j (by rw [slotKeys_length]; omega) (by rw [slotKeys_length]; exact hj) hij
    simpa [slotKeys] using this
  · intro h i j hi hj hij
    rw [slotKeys_length] at hj
    have := h i j hij hj
    simpa [slotKeys] using this

/-- The keys of the slots after a slot was put in at `pos`. -/
theorem slotKeys_insert (buf buf4 : List Byte) (n pos key : Nat) (hpos : pos ≤ n)
    (h1 : ∀ j, j < pos → (slotOf buf4 j).Key = (slotOf buf j).Key)
    (h2 : (slotOf buf4 pos).Key = key)
    (h3 : ∀ j, pos ≤ j → j < n → (slotOf buf4 (j + 1)).Key = (slotOf buf j).Key) :
    slotKeys buf4 (n + 1) = (slotKeys buf n).take pos ++ key :: (slotKeys buf n).drop pos := by
  apply List.ext_getElem?
  intro j
  by_cases hj : j < n + 1
  · rw [slotKeys_getElem? _ _ _ hj]
    by_cases hjp : j < pos
    · rw [List.getElem?_append_left (by simp [slotKeys_length]; omega), List.getElem?_take,
        if_pos hjp, slotKeys_getElem? _ _ _ (by omega), h1 j hjp]
    · rw [List.getElem?_append_right (by simp [slotKeys_length]; omega)]
      simp only [List.length_take, slotKeys_length, Nat.min_eq_left hpos]
      by_cases hje : j = pos
      · subst hje
        simp [h2]
      · obtain ⟨i, rfl⟩ : ∃ i, j = pos + (i + 1) := ⟨j - pos - 1, by omega⟩
        rw [show pos + (i + 1) - pos = i + 1 by omega, List.getElem?_cons_succ, List.getElem?_drop,
          slotKeys_getElem? _ _ _ (by omega), ← h3 (pos + i) (by omega) (by omega)]
        rfl
  · rw [List.getElem?_eq_none (by rw [slotKeys_length]; omega),
      List.getElem?_eq_none (by
        simp only [List.length_append, List.length_take, List.length_cons, List.length_drop,
          slotKeys_length]; omega)]

/-- Putting a key in before the first greater key keeps the keys in non-decreasing order. -/
theorem sorted_put (ks : List Nat) (pos key : Nat) (hs : ks.Pairwise (· ≤ ·))
    (hb : ∀ x ∈ ks.take pos, x ≤ key) (ha : ∀ x ∈ ks.drop pos, key ≤ x) :
    (ks.take pos ++ key :: ks.drop pos).Pairwise (· ≤ ·) := by
  rw [List.pairwise_append]
  refine ⟨hs.sublist (List.take_sublist _ _), ?_, ?_⟩
  · rw [List.pairwise_cons]
    exact ⟨ha, hs.sublist (List.drop_sublist _ _)⟩
  · intro x hx y hy
    rcases List.mem_cons.1 hy with rfl | hy
    · exact hb x hx
    · exact le_trans (hb x hx) (ha y hy)

end storage
end PebbleSQL
namespace PebbleSQL
namespace storage

/-- The binary search of `FindKey` finds the slot of a key that sits in exactly one of the
first `m` slots, when these are in non-decreasing key order. -/
theorem findLoop_found (buf : List Byte) (key : Nat) (load : Nat → Except Err OverflowPage)
    (cf m pos : Nat) (hlen : sizeofPageHeader + m * sizeofSlotEntry ≤ buf.length)
    (hsorted : ∀ i j, i < j → j < m → (slotOf buf i).Key ≤ (slotOf buf j).Key)
    (hpos : pos < m) (hkey : (slotOf buf pos).Key = key)
    (huniq : ∀ j, j < m → (slotOf buf j).Key = key → j = pos) :
    ∀ (fuel : Nat) (low high : Int), 0 ≤ low → low ≤ (pos : Int) → (pos : Int) ≤ high →
      high < (m : Int) → high - low < (fuel : Int) →
      findLoop buf key load cf fuel low high = loadValue buf (slotOf buf pos) load cf := by
  intro fuel
  induction fuel with
  | zero => intro low high h0 h1 h2 h3 h4; omega
  | succ fuel ih =>
    intro low high h0 h1 h2 h3 h4
    have hle : low ≤ high := by omega
    have hmid0 : 0 ≤ (low + high) / 2 := by omega
    have hmidm : ((low + high) / 2).toNat < m := by omega
    have hr := readSlotAt_eq buf ((low + high) / 2).toNat (by
      simp only [sizeofPageHeader, sizeofSlotEntry] at hlen ⊢
      have : (((low + high) / 2).toNat + 1) * 24 ≤ m * 24 := Nat.mul_le_mul_right _ (by omega)
      omega)
    simp only [findLoop, hle, if_true, hr, bind, Except.bind]
    by_cases heq : key = (slotOf buf ((low + high) / 2).toNat).Key
    · simp only [heq, if_true]
      have := huniq _ hmidm heq.symm
      rw [this]
    · simp only [heq, if_false]
      by_cases hlt : key < (slotOf buf ((low + high) / 2).toNat).Key
      · simp only [hlt, if_true]
        have hpm : pos < ((low + high) / 2).toNat := by
          by_contra hc
          have hne : pos ≠ ((low + high) / 2).toNat := by
            intro h; rw [← h, hkey] at heq; exact heq rfl
          have := hsorted ((low + high) / 2).toNat pos (by omega) hpos
          rw [hkey] at this
          omega
        exact ih low ((low + high) / 2 - 1) h0 h1 (by omega) (by omega) (by omega)
      · simp only [hlt, if_false]
        have hpm : ((low + high) / 2).toNat < pos := by
          by_contra hc
          have hne : pos ≠ ((low + high) / 2).toNat := by
            intro h; rw [← h, hkey] at heq; exact heq rfl
          have := hsorted pos ((low + high) / 2).toNat (by omega) hmidm
          rw [hkey] at this
          omega
        exact ih ((low + high) / 2 + 1) high (by omega) (by omega) h2 h3 (by omega)

end storage
end PebbleSQL
namespace PebbleSQL
namespace storage

/-- After the slot of a new key was put into a sorted slot array, `FindKey` for that key comes
to load the value of that slot. -/
theorem insertSlot_then_find (buf : List Byte) (header : PageHeader) (slot : SlotEntry) (key : Nat)
    (hlen : sizeofPageHeader + (header.NumKeys + 1) * sizeofSlotEntry ≤ buf.length)
    (hkey : slot.Key = key)
    (hk : slot.Key < 2 ^ 64) (hvo : slot.ValueOffset < 2 ^ 16) (hvl : slot.ValueLength < 2 ^ 16)
    (hov : slot.OverflowPageID < 2 ^ 32) (hch : slot.ChildPageID < 2 ^ 32)
    (hm : header.MagicNumber < 2 ^ 32) (hv : header.PageVersion < 2 ^ 16)
    (hn : header.NumKeys + 1 < 2 ^ 16)
    (he : header.FreeSpaceEnd < 2 ^ 16) (hr : header.RightSiblingPageID < 2 ^ 32)
    (hsorted : (slotKeys buf header.NumKeys).Pairwise (· ≤ ·))
    (hnew : key ∉ slotKeys buf header.NumKeys) :
    ∃ buf4, insertSlot buf header slot key = .ok buf4 ∧ buf4.length = buf.length ∧
      (∀ a b, sizeofPageHeader + (header.NumKeys + 1) * sizeofSlotEntry ≤ a →
        slice buf4 a b = slice buf a b) ∧
      pageHeader { Buf := buf4 } = .ok { header with NumKeys := header.NumKeys + 1,
                                                     FreeSpaceOffset := (header.FreeSpaceOffset + 24) % 2 ^ 16 } ∧
      ∀ (load : Nat → Except Err OverflowPage) (cf : Nat),
        FindKey { Buf := buf4 } key load cf = loadValue buf4 { slot with Deleted := false } load cf := by
  obtain ⟨buf4, pos, hins, hlen4, hposn, hbefore, hafter, hlow, hat, hhigh, hframe, hhdr⟩ :=
    insertSlot_spec buf header slot key hlen hm hv hn he hr
  rw [normSlot_eq slot hk hvo hvl hov hch] at hat
  refine ⟨buf4, hins, hlen4, hframe, hhdr, ?_⟩
  intro load cf
  have hold := (slotKeys_sorted_iff buf header.NumKeys).1 hsorted
  have hnot : ∀ j, j < header.NumKeys → (slotOf buf j).Key ≠ key :=
    fun j hj h => hnew ((mem_slotKeys _ _ _).2 ⟨j, hj, h⟩)
  -- the key of every slot of the new array
  have hk4 : ∀ j, j < header.NumKeys + 1 → (slotOf buf4 j).Key =
      if j < pos then (slotOf buf j).Key else if j = pos then key else (slotOf buf (j - 1)).Key := by
    intro j hj
    by_cases h1 : j < pos
    · simp only [h1, if_true, hlow j h1]
    · by_cases h2 : j = pos
      · subst h2
        simp only [lt_irrefl, if_false, if_true, hat, hkey]
      · simp only [h1, h2, if_false]
        have := hhigh (j - 1) (by omega) (by omega)
        rw [show j - 1 + 1 = j by omega] at this
        rw [this]
  have hafter2 : ∀ j, pos ≤ j → j < header.NumKeys → key < (slotOf buf j).Key := by
    intro j h1 h2
    have hp := hafter (by omega)
    rcases Nat.eq_or_lt_of_le h1 with h | h
    · rw [← h]; exact hp
    · exact lt_of_lt_of_le hp (hold pos j h h2)
  have hbefore2 : ∀ j, j < pos → (slotOf buf j).Key < key := by
    intro j hj
    exact lt_of_le_of_ne (hbefore j hj) (hnot j (by omega))
  have hfk : FindKey { Buf := buf4 } key load cf =
      findLoop buf4 key load cf (header.NumKeys + 1 + 1) 0 ((header.NumKeys : Int) + 1 - 1) := by
    have hh := hhdr
    unfold pageHeader at hh
    simp only [PageHeaderSize, bind_eq_ok] at hh
    obtain ⟨hb, hb1, hb2⟩ := hh
    unfold FindKey
    simp only [hb1, hb2, bind, Except.bind]
    rfl
  rw [hfk]
  have hfound := findLoop_found buf4 key load cf (header.NumKeys + 1) pos (by rw [hlen4]; exact hlen)
    (by
      intro i j hij hj
      rw [hk4 i (by omega), hk4 j hj]
      by_cases h1 : j < pos
      · simp only [h1, show i < pos by omega, if_true]
        exact hold i j hij (by omega)
      · by_cases h2 : j = pos
        · subst h2
          simp only [hij, lt_irrefl, if_true, if_false]
          exact le_of_lt (hbefore2 i hij)
        · simp only [h1, h2, if_false]
          have hj1 := hafter2 (j - 1) (by omega) (by omega)
          by_cases h3 : i < pos
          · simp only [h3, if_true]
            exact le_of_lt (lt_trans (hbefore2 i h3) hj1)
          · by_cases h4 : i = pos
            · simp only [h4, lt_irrefl, if_false, if_true]
              exact le_of_lt hj1
            · simp only [h3, h4, if_false]
              exact hold (i - 1) (j - 1) (by omega) (by omega))
    (by omega) (by rw [hat]; exact hkey)
    (by
      intro j hj hjk
      rw [hk4 j hj] at hjk
      by_cases h1 : j < pos
      · simp only [h1, if_true] at hjk
        exact absurd hjk (hnot j (by omega))
      · by_cases h2 : j = pos
        · exact h2
        · simp only [h1, h2, if_false] at hjk
          exact absurd hjk (hnot (j - 1) (by omega)))
    (header.NumKeys + 1 + 1) 0 ((header.NumKeys : Int) + 1 - 1) (le_refl _) (by omega) (by omega)
    (by omega) (by push_cast; omega)
  rw [hfound, hat]

end storage
end PebbleSQL
namespace PebbleSQL
namespace storage

theorem pageHeader_range (p : BLinkTreePage) (h : PageHeader) (hh : pageHeader p = .ok h) :
    20 ≤ p.Buf.length ∧ h.MagicNumber < 2 ^ 32 ∧ h.PageVersion < 2 ^ 16 ∧ h.NumKeys < 2 ^ 16 ∧
      h.FreeSpaceOffset < 2 ^ 16 ∧ h.FreeSpaceEnd < 2 ^ 16 ∧ h.RightSiblingPageID < 2 ^ 32 := by
  unfold pageHeader at hh
  simp only [PageHeaderSize, bind_eq_ok, slice_eq_ok] at hh
  obtain ⟨hb, ⟨_, hl, _⟩, hr⟩ := hh
  exact ⟨hl, ReadHeader_range _ _ hr⟩

/-- The inline branch of `InsertKeyValue`: a value that is not empty, is no longer than the
inline threshold and fits, with its slot, between free-space-start and free-space-end goes to
the bytes right before free-space-end. -/
theorem placeValue_inline {σ : Type} (buf : List Byte) (h : PageHeader) (slot : SlotEntry)
    (value : List Byte) (alloc : σ → (OverflowPage × Nat) × σ) (a : σ)
    (hpos : 0 < value.length) (hinl : value.length ≤ InlineThreshold)
    (hfree : h.FreeSpaceOffset + (sizeofSlotEntry + value.length) ≤ h.FreeSpaceEnd)
    (he : h.FreeSpaceEnd < 2 ^ 16) (hend : h.FreeSpaceEnd ≤ buf.length) :
    placeValue buf h slot value alloc a =
      .ok (splice buf (h.FreeSpaceEnd - value.length) value,
        { slot with ValueOffset := h.FreeSpaceEnd - value.length, ValueLength := value.length },
        { h with FreeSpaceEnd := h.FreeSpaceEnd - value.length },
        { firstOverFlowPageID := 0, done := [], last := none, alloc := a }) := by
  simp only [InlineThreshold, PageSize, sizeofSlotEntry] at hinl hfree
  have hv : value.length % 2 ^ 16 = value.length := Nat.mod_eq_of_lt (by omega)
  have hfs : (h.FreeSpaceEnd + 2 ^ 16 - h.FreeSpaceOffset) % 2 ^ 16
      = h.FreeSpaceEnd - h.FreeSpaceOffset := by omega
  have hde : (h.FreeSpaceEnd + 2 ^ 16 - value.length) % 2 ^ 16
      = h.FreeSpaceEnd - value.length := by omega
  have hns : (24 % 2 ^ 16 + value.length) % 2 ^ 16 = 24 + value.length := by omega
  unfold placeValue
  simp only [sizeofSlotEntry, InlineThreshold, PageSize, hv, hfs, hde, hns]
  have c1 : decide (h.FreeSpaceEnd - h.FreeSpaceOffset ≥ 24 + value.length) = true := by
    simp only [decide_eq_true_eq]; omega
  have c2 : decide (value.length ≤ 4096 / 4) = true := by
    simp only [decide_eq_true_eq]; omega
  have c3 : decide (value.length > 0) = true := by
    simp only [decide_eq_true_eq]; omega
  simp only [c1, c2, c3, Bool.and_self, if_true]
  rw [slice_ok (by omega) hend]
  simp only [bind, Except.bind, pure, Except.pure]
  rw [copyBytes_eq _ _ (by rw [length_sub _ _ _ hend]; omega)]

/-- An empty value: nothing is written and no page is allocated. -/
theorem placeValue_empty {σ : Type} (buf : List Byte) (h : PageHeader) (slot : SlotEntry)
    (alloc : σ → (OverflowPage × Nat) × σ) (a : σ) :
    placeValue buf h slot [] alloc a =
      .ok (buf, { slot with OverflowPageID := 0 }, h,
        { firstOverFlowPageID := 0, done := [], last := none, alloc := a }) := by
  unfold placeValue
  simp [overflowLoop, bind, Except.bind, pure, Except.pure]

end storage
end PebbleSQL
namespace PebbleSQL
namespace storage

theorem slotKeys_congr (buf1 buf2 : List Byte) (n : Nat)
    (h : ∀ j, j < n → slotOf buf1 j = slotOf buf2 j) : slotKeys buf1 n = slotKeys buf2 n := by
  unfold slotKeys
  apply List.map_congr_left
  intro j hj
  rw [h j (List.mem_range.1 hj)]

/-- A write behind the slot array leaves the slots as they are. -/
theorem slotOf_splice (buf w : List Byte) (lo j : Nat) (hfit : lo + w.length ≤ buf.length)
    (hj : sizeofPageHeader + (j + 1) * sizeofSlotEntry ≤ lo) :
    slotOf (splice buf lo w) j = slotOf buf j := by
  simp only [sizeofPageHeader, sizeofSlotEntry] at hj
  apply slotOf_congr
  · rw [length_splice _ _ _ hfit]; simp only [sizeofPageHeader, sizeofSlotEntry]; omega
  · simp only [sizeofPageHeader, sizeofSlotEntry]; omega
  · simp only [sizeofPageHeader, sizeofSlotEntry]
    exact slice_splice_disjoint _ _ _ _ _ hfit (Or.inl (by omega))

/-- C2 (as amended): on a page whose header is consistent with its slot array
(`20 + 24*NumKeys ≤ FreeSpaceOffset`, `FreeSpaceEnd ≤ len(Buf)`), whose slots are in
non-decreasing key order and do not hold `key`, for a value that fits inline (length at most
the inline threshold 1024, and slot size 24 plus length at most the free space between
`FreeSpaceOffset` and `FreeSpaceEnd`), `InsertKeyValue(key, value)` returns nil and `FindKey(key)`
on the same page returns exactly the bytes of `value`. -/
theorem C2_inline_round_trip {σ : Type} (p : BLinkTreePage) (h : PageHeader) (key : Nat)
    (value : List Byte) (alloc : σ → (OverflowPage × Nat) × σ) (a : σ)
    (load : Nat → Except Err OverflowPage) (cf : Nat)
    (hh : pageHeader p = .ok h) (hkey : key < 2 ^ 64)
    (hslots : sizeofPageHeader + h.NumKeys * sizeofSlotEntry ≤ h.FreeSpaceOffset)
    (hend : h.FreeSpaceEnd ≤ p.Buf.length)
    (hsorted : (slotKeys p.Buf h.NumKeys).Pairwise (· ≤ ·))
    (hnew : key ∉ slotKeys p.Buf h.NumKeys)
    (hinl : value.length ≤ InlineThreshold)
    (hfree : h.FreeSpaceOffset + (sizeofSlotEntry + value.length) ≤ h.FreeSpaceEnd) :
    ∃ out, InsertKeyValue p key value alloc a = .ok out ∧ out.err = none ∧
      pageHeader out.page = .ok { h with NumKeys := h.NumKeys + 1,
                                         FreeSpaceOffset := h.FreeSpaceOffset + sizeofSlotEntry,
                                         FreeSpaceEnd := h.FreeSpaceEnd - value.length } ∧
      FindKey out.page key load cf = .ok (value, none) := by
  obtain ⟨hl20, hm, hv, hn, ho, he, hr⟩ := pageHeader_range p h hh
  have hh0 := hh
  unfold pageHeader at hh0
  simp only [bind_eq_ok] at hh0
  obtain ⟨hb, hb1, hb2⟩ := hh0
  simp only [sizeofPageHeader, sizeofSlotEntry, InlineThreshold, PageSize] at hslots hfree hinl
  have hoff : (h.FreeSpaceOffset + 24) % 2 ^ 16 = h.FreeSpaceOffset + 24 :=
    Nat.mod_eq_of_lt (by omega)
  by_cases hval : value = []
  · subst hval
    simp only [List.length_nil, Nat.add_zero, Nat.sub_zero] at hfree ⊢
    obtain ⟨buf4, hins, hlen4, hframe, hhdr, hfind⟩ :=
      insertSlot_then_find p.Buf h
        { Key := key, ValueOffset := 0, ValueLength := 0, OverflowPageID := 0, ChildPageID := 0,
          Deleted := false } key
        (by simp only [sizeofPageHeader, sizeofSlotEntry]; omega) rfl hkey (by norm_num)
        (by norm_num) (by norm_num) (by norm_num) hm hv (by omega) he hr hsorted hnew
    refine ⟨{ page := { Buf := buf4 }, overflow := [], alloc := a, err := none }, ?_, rfl, ?_, ?_⟩
    · unfold InsertKeyValue
      simp only [hb1, hb2, bind, Except.bind, placeValue_empty, hins, pure, Except.pure]
      rfl
    · rw [hhdr, hoff]; rfl
    · rw [hfind load cf]
      simp only [loadValue, if_true, Nat.add_zero, Nat.zero_mod]
      rw [slice_ok (le_refl _) (Nat.zero_le _)]
      rfl
  · have hpos : 0 < value.length := List.length_pos.2 hval
    have hfit : h.FreeSpaceEnd - value.length + value.length ≤ p.Buf.length := by omega
    have hlen1 : (splice p.Buf (h.FreeSpaceEnd - value.length) value).length = p.Buf.length :=
      length_splice _ _ _ hfit
    have hkeys : slotKeys (splice p.Buf (h.FreeSpaceEnd - value.length) value) h.NumKeys
        = slotKeys p.Buf h.NumKeys :=
      slotKeys_congr _ _ _ (fun j hj => slotOf_splice _ _ _ _ hfit (by
        simp only [sizeofPageHeader, sizeofSlotEntry]
        have : (j + 1) * 24 ≤ h.NumKeys * 24 := Nat.mul_le_mul_right _ hj
        omega))
    obtain ⟨buf4, hins, hlen4, hframe, hhdr, hfind⟩ :=
      insertSlot_then_find (splice p.Buf (h.FreeSpaceEnd - value.length) value)
        { h with FreeSpaceEnd := h.FreeSpaceEnd - value.length }
        { Key := key, ValueOffset := h.FreeSpaceEnd - value.length, ValueLength := value.length,
          OverflowPageID := 0, ChildPageID := 0, Deleted := false } key
        (by rw [hlen1]; simp only [sizeofPageHeader, sizeofSlotEntry]; omega) rfl hkey
        (show h.FreeSpaceEnd - value.length < 2 ^ 16 by omega)
        (show value.length < 2 ^ 16 by omega) (by norm_num) (by norm_num) hm hv
        (show h.NumKeys + 1 < 2 ^ 16 by omega)
        (show h.FreeSpaceEnd - value.length < 2 ^ 16 by omega) hr
        (by rw [hkeys]; exact hsorted) (by rw [hkeys]; exact hnew)
    refine ⟨{ page := { Buf := buf4 }, overflow := [], alloc := a, err := none }, ?_, rfl, ?_, ?_⟩
    · unfold InsertKeyValue
      simp only [hb1, hb2, bind, Except.bind]
      rw [placeValue_inline p.Buf h _ value alloc a hpos
        (by simp only [InlineThreshold, PageSize]; omega)
        (by simp only [sizeofSlotEntry]; omega) he hend]
      simp only [hins, pure, Except.pure]
      rfl
    · rw [hhdr]
      simp only [hoff]
      rfl
    · rw [hfind load cf]
      simp only [loadValue, if_true]
      rw [show (h.FreeSpaceEnd - value.length + value.length) % 2 ^ 16 = h.FreeSpaceEnd by
        rw [Nat.sub_add_cancel (by omega)]; exact Nat.mod_eq_of_lt he]
      rw [hframe _ _ (by simp only [sizeofPageHeader, sizeofSlotEntry]; omega)]
      have := slice_splice_same p.Buf value (h.FreeSpaceEnd - value.length) hfit
      rw [Nat.sub_add_cancel (by omega)] at this
      rw [this]
      rfl

end storage
end PebbleSQL
namespace PebbleSQL
namespace storage

theorem byteAt_splice_lt (buf w : List Byte) (lo j : Nat) (hfit : lo + w.length ≤ buf.length)
    (hj : j < lo) : byteAt (splice buf lo w) j = byteAt buf j := by
  simp only [byteAt, List.getD_eq_getElem?_getD]
  rw [getElem?_splice _ _ _ _ hfit]
  simp only [hj, if_true]

/-- A write behind the header of an overflow page leaves the header as it is. -/
theorem ReadOverflowHeader_splice (buf w : List Byte) (lo : Nat) (hfit : lo + w.length ≤ buf.length)
    (hlo : 6 ≤ lo) : ReadOverflowHeader (splice buf lo w) = ReadOverflowHeader buf := by
  unfold ReadOverflowHeader
  rw [length_splice _ _ _ hfit]
  simp only [getUint32, getUint16]
  rw [byteAt_splice_lt _ _ _ 0 hfit (by omega), byteAt_splice_lt _ _ _ (0 + 1) hfit (by omega),
    byteAt_splice_lt _ _ _ (0 + 2) hfit (by omega), byteAt_splice_lt _ _ _ (0 + 3) hfit (by omega),
    byteAt_splice_lt _ _ _ 4 hfit (by omega), byteAt_splice_lt _ _ _ (4 + 1) hfit (by omega)]

theorem chunkCount_zero : chunkCount 0 = 0 := by decide

theorem chunkCount_small (len : Nat) (h1 : 0 < len) (h2 : len ≤ OverflowDataSize) :
    chunkCount len = 1 := by
  simp only [chunkCount, OverflowDataSize, PageSize, OverflowHeaderSize] at *
  omega

theorem chunkCount_large (len : Nat) (h : OverflowDataSize < len) :
    chunkCount len = chunkCount (len - OverflowDataSize) + 1 := by
  simp only [chunkCount, OverflowDataSize, PageSize, OverflowHeaderSize] at *
  omega

theorem head_map_fst (pages : List (Nat × OverflowPage)) (ids : List Nat)
    (h : pages.map Prod.fst = ids) : (pages.head?.map Prod.fst).getD 0 = ids.headD 0 := by
  subst h
  cases pages <;> rfl

/-- The buffer of a linked page is the old buffer with a new header. -/
theorem linkTo_buf (id : Nat) (q : Nat × OverflowPage) :
    (linkTo id q).2.Buf = splice q.2.Buf 0 (putUint32 id ++ putUint16 OverflowDataSize) := by
  simp [linkTo, splice, putUint32, putUint16]

theorem linkLast_some {σ : Type} (st : ChainState σ) (id : Nat) (q : Nat × OverflowPage)
    (hq : st.last = some q) (hlen : 6 ≤ q.2.Buf.length) :
    linkLast st id = .ok (st.firstOverFlowPageID, st.done ++ [linkTo id q]) := by
  unfold linkLast
  rw [hq]
  simp only [WriteOverflowHeader, OverflowHeaderSize, show ¬ q.2.Buf.length < 6 by omega, if_false,
    bind, Except.bind, pure, Except.pure]
  rfl

theorem linkLast_none {σ : Type} (st : ChainState σ) (id : Nat) (hq : st.last = none) :
    linkLast st id = .ok (id, st.done) := by
  unfold linkLast
  rw [hq]
  rfl

end storage
end PebbleSQL
namespace PebbleSQL
namespace storage

/-- One turn of the overflow loop: a page is allocated and takes the next chunk. -/
theorem overflowLoop_step {σ : Type} (alloc : σ → (OverflowPage × Nat) × σ) (fuel : Nat)
    (data : List Byte) (st : ChainState σ) (hdata : data ≠ [])
    (hbuf : PageSize ≤ (alloc st.alloc).1.1.Buf.length) :
    ∃ (pgbuf : List Byte) (chunk : Nat),
      chunk = (if data.length < OverflowDataSize then data.length else OverflowDataSize) ∧
      pgbuf.length = (alloc st.alloc).1.1.Buf.length ∧
      ReadOverflowHeader pgbuf = .ok { NextOverflowPageID := 0, DataLength := chunk } ∧
      slice pgbuf OverflowHeaderSize (OverflowHeaderSize + chunk) = .ok (data.take chunk) ∧
      overflowLoop alloc (fuel + 1) data.length data st =
        (linkLast st (alloc st.alloc).1.2 >>= fun linked =>
          overflowLoop alloc fuel (data.drop chunk).length (data.drop chunk)
            { firstOverFlowPageID := linked.1, done := linked.2,
              last := some ((alloc st.alloc).1.2, { Buf := pgbuf }),
              alloc := (alloc st.alloc).2 }) := by
  have hpos : 0 < data.length := List.length_pos.2 hdata
  simp only [PageSize] at hbuf
  obtain ⟨chunk, hchunk⟩ : ∃ chunk,
      chunk = (if data.length < OverflowDataSize then data.length else OverflowDataSize) := ⟨_, rfl⟩
  have hc1 : 0 < chunk ∧ chunk ≤ data.length ∧ chunk ≤ 4090 := by
    simp only [OverflowDataSize, PageSize, OverflowHeaderSize] at hchunk
    split at hchunk <;> omega
  obtain ⟨b1, hb1⟩ : ∃ b1, WriteOverflowHeader (alloc st.alloc).1.1.Buf
      { NextOverflowPageID := 0, DataLength := chunk % 2 ^ 16 } = .ok b1 := by
    unfold WriteOverflowHeader
    simp only [OverflowHeaderSize, show ¬ (alloc st.alloc).1.1.Buf.length < 6 by omega, if_false]
    exact ⟨_, rfl⟩
  have hmod : chunk % 2 ^ 16 = chunk := Nat.mod_eq_of_lt (by omega)
  obtain ⟨hb1len, hb1read, -⟩ := ReadOverflowHeader_Write _ b1 _ (by norm_num)
    (show chunk % 2 ^ 16 < 2 ^ 16 from Nat.mod_lt _ (by norm_num)) hb1
  have hdst : 6 + chunk ≤ b1.length := by omega
  have htl : (data.take chunk).length = chunk := by
    rw [List.length_take]; omega
  have hfit : 6 + (data.take chunk).length ≤ b1.length := by rw [htl]; exact hdst
  refine ⟨splice b1 6 (data.take chunk), chunk, hchunk, ?_, ?_, ?_, ?_⟩
  · rw [length_splice _ _ _ hfit, hb1len]
  · rw [ReadOverflowHeader_splice _ _ _ hfit (le_refl _), hb1read, hmod]
  · have := slice_splice_same b1 (data.take chunk) 6 hfit
    rw [htl] at this
    simpa [OverflowHeaderSize] using this
  · simp only [overflowLoop, hpos, gt_iff_lt, if_true, ← hchunk, hb1, bind, Except.bind,
      OverflowHeaderSize]
    rw [slice_ok (by omega) hdst, slice_ok (Nat.zero_le _) hc1.2.1]
    simp only [List.drop_zero]
    rw [copyBytes_eq _ _ (by rw [length_sub _ _ _ hdst, htl]; omega)]
    cases hl : linkLast st (alloc st.alloc).1.2 with
    | error e => rfl
    | ok linked =>
      simp only
      rw [slice_ok hc1.2.1 (le_refl _)]
      simp only [List.take_length, List.length_drop]

end storage
end PebbleSQL
namespace PebbleSQL
namespace storage

/-- What the overflow loop builds: for an empty value nothing; otherwise a chain of
`chunkCount` new pages that holds the value, with the ids the allocator returned, in that
order, behind the pages that were complete before (the page written last before gets
linked to the first new page). -/
theorem overflowLoop_spec {σ : Type} (alloc : σ → (OverflowPage × Nat) × σ)
    (hbuf : ∀ s, PageSize ≤ (alloc s).1.1.Buf.length) :
    ∀ (fuel : Nat) (data : List Byte) (st : ChainState σ), data.length ≤ fuel →
      (∀ q, st.last = some q → 6 ≤ q.2.Buf.length) →
      (∀ id ∈ allocIds alloc (chunkCount data.length) st.alloc, id < 2 ^ 32) →
      ∃ st1, overflowLoop alloc fuel data.length data st = .ok st1 ∧
        ((data = [] ∧ st1 = st) ∨
         (data ≠ [] ∧ ∃ pages, ChainHolds pages data ∧
            pages.map Prod.fst = allocIds alloc (chunkCount data.length) st.alloc ∧
            st1.done ++ st1.last.toList =
              st.done ++ (st.last.map (linkTo (alloc st.alloc).1.2)).toList ++ pages ∧
            st1.firstOverFlowPageID =
              (match st.last with
               | some _ => st.firstOverFlowPageID
               | none => (alloc st.alloc).1.2))) := by
  intro fuel
  induction fuel with
  | zero =>
    intro data st hlen _ _
    have hd : data = [] := List.length_eq_zero.1 (by omega)
    subst hd
    exact ⟨st, by simp [overflowLoop], Or.inl ⟨rfl, rfl⟩⟩
  | succ fuel ih =>
    intro data st hlen hlast hids
    by_cases hd : data = []
    · subst hd
      exact ⟨st, by simp [overflowLoop], Or.inl ⟨rfl, rfl⟩⟩
    · have hpos : 0 < data.length := List.length_pos.2 hd
      obtain ⟨pgbuf, chunk, hchunk, hpglen, hpghdr, hpgdata, hstep⟩ :=
        overflowLoop_step alloc fuel data st hd (hbuf _)
      have hc1 : 0 < chunk ∧ chunk ≤ data.length ∧ chunk ≤ 4090 ∧
          (data.length ≤ 4090 → chunk = data.length) ∧ (4090 < data.length → chunk = 4090) := by
        simp only [OverflowDataSize, PageSize, OverflowHeaderSize] at hchunk
        split at hchunk <;> omega
      -- the ids of this turn and of the turns after it
      have hcc : chunkCount data.length = chunkCount (data.drop chunk).length + 1 := by
        rw [List.length_drop]
        by_cases hbig : 4090 < data.length
        · rw [hc1.2.2.2.2 hbig]
          exact chunkCount_large _ (by simp only [OverflowDataSize, PageSize, OverflowHeaderSize]; omega)
        · rw [hc1.2.2.2.1 (by omega), Nat.sub_self, chunkCount_zero]
          exact chunkCount_small _ hpos (by
            simp only [OverflowDataSize, PageSize, OverflowHeaderSize]; omega)
      have hidseq : allocIds alloc (chunkCount data.length) st.alloc =
          (alloc st.alloc).1.2 ::
            allocIds alloc (chunkCount (data.drop chunk).length) (alloc st.alloc).2 := by
        rw [hcc]; rfl
      -- the page written before is linked
      obtain ⟨linked, hlinked, hl1, hl2⟩ : ∃ linked, linkLast st (alloc st.alloc).1.2 = .ok linked ∧
          linked.2 = st.done ++ (st.last.map (linkTo (alloc st.alloc).1.2)).toList ∧
          linked.1 = (match st.last with
               | some _ => st.firstOverFlowPageID
               | none => (alloc st.alloc).1.2) := by
        cases hq : st.last with
        | none => exact ⟨_, linkLast_none st _ hq, by simp, rfl⟩
        | some q => exact ⟨_, linkLast_some st _ q hq (hlast q hq), by simp, rfl⟩
      rw [hstep, hlinked]
      simp only [bind, Except.bind]
      obtain ⟨st1, hrun, hres⟩ := ih (data.drop chunk)
        { firstOverFlowPageID := linked.1, done := linked.2,
          last := some ((alloc st.alloc).1.2, { Buf := pgbuf }),
          alloc := (alloc st.alloc).2 }
        (by rw [List.length_drop]; omega)
        (by
          intro q hq
          simp only [Option.some.injEq] at hq
          subst hq
          have := hbuf st.alloc
          simp only [PageSize] at this
          simp only [hpglen]; omega)
        (by
          intro id hid
          exact hids id (by rw [hidseq]; exact List.mem_cons_of_mem _ hid))
      refine ⟨st1, hrun, Or.inr ⟨hd, ?_⟩⟩
      rcases hres with ⟨hrest, rfl⟩ | ⟨hrest, pages1, hchain1, hids1, hlist1, hfirst1⟩
      · -- the new page is the last one
        refine ⟨[((alloc st.alloc).1.2, { Buf := pgbuf })], ?_, ?_, ?_, ?_⟩
        · refine ⟨_, hpghdr, rfl, hc1.1, hc1.2.1, ?_, hpgdata, ?_⟩
          · show chunk = min data.length OverflowDataSize
            simp only [OverflowDataSize, PageSize, OverflowHeaderSize]
            have := List.drop_eq_nil_iff.1 hrest
            omega
          · exact hrest
        · rw [hidseq, hrest]
          simp [chunkCount_zero, allocIds]
        · simp only [Option.toList_some, hl1]
        · exact hl2
      · -- more pages follow, and the new page was linked to the first of them
        have hbig : 4090 < data.length := by
          by_contra hc
          have := hc1.2.2.2.1 (by omega)
          apply hrest
          apply List.drop_eq_nil_of_le
          omega
        have hchunk4090 : chunk = OverflowDataSize := by
          rw [hc1.2.2.2.2 hbig]; rfl
        have hpg6 : 6 ≤ pgbuf.length := by
          have := hbuf st.alloc
          simp only [PageSize] at this
          omega
        have hnext : (alloc (alloc st.alloc).2).1.2 < 2 ^ 32 := by
          apply hids
          rw [hidseq]
          apply List.mem_cons_of_mem
          have hpos1 : 0 < chunkCount (data.drop chunk).length := by
            have : 0 < (data.drop chunk).length := List.length_pos.2 hrest
            simp only [chunkCount, OverflowDataSize, PageSize, OverflowHeaderSize]
            omega
          obtain ⟨k, hk⟩ := Nat.exists_eq_succ_of_ne_zero (Nat.pos_iff_ne_zero.1 hpos1)
          rw [hk]
          exact List.mem_cons_self _ _
        refine ⟨linkTo (alloc (alloc st.alloc).2).1.2 ((alloc st.alloc).1.2, { Buf := pgbuf })
          :: pages1, ?_, ?_, ?_, ?_⟩
        · have hw : WriteOverflowHeader pgbuf
              { NextOverflowPageID := (alloc (alloc st.alloc).2).1.2,
                DataLength := OverflowDataSize } =
              .ok (linkTo (alloc (alloc st.alloc).2).1.2
                ((alloc st.alloc).1.2, { Buf := pgbuf })).2.Buf := by
            unfold WriteOverflowHeader
            simp only [OverflowHeaderSize, show ¬ pgbuf.length < 6 by omega, if_false]
            rfl
          obtain ⟨-, hread, -⟩ := ReadOverflowHeader_Write _ _ _ hnext
            (by simp only [OverflowDataSize, PageSize, OverflowHeaderSize]; norm_num) hw
          refine ⟨_, hread, ?_, ?_, ?_, ?_, ?_, ?_⟩
          · simp only
            rw [head_map_fst pages1 _ hids1]
            have hpos1 : 0 < chunkCount (data.drop chunk).length := by
              have : 0 < (data.drop chunk).length := List.length_pos.2 hrest
              simp only [chunkCount, OverflowDataSize, PageSize, OverflowHeaderSize]
              omega
            obtain ⟨k, hk⟩ := Nat.exists_eq_succ_of_ne_zero (Nat.pos_iff_ne_zero.1 hpos1)
            rw [hk]
            rfl
          · simp only [OverflowDataSize, PageSize, OverflowHeaderSize]; norm_num
          · simp only [← hchunk4090]; exact hc1.2.1
          · show OverflowDataSize = min data.length OverflowDataSize
            simp only [OverflowDataSize, PageSize, OverflowHeaderSize]
            omega
          · show slice (linkTo (alloc (alloc st.alloc).2).1.2
                ((alloc st.alloc).1.2, { Buf := pgbuf })).2.Buf OverflowHeaderSize
                (OverflowHeaderSize + OverflowDataSize) = .ok (data.take OverflowDataSize)
            rw [linkTo_buf]
            rw [slice_splice_disjoint _ _ _ _ _ (by simp [putUint32, putUint16]; omega)
              (Or.inr (by simp [putUint32, putUint16, OverflowHeaderSize]))]
            rw [← hchunk4090]
            exact hpgdata
          · simp only [← hchunk4090]
            exact hchain1
        · rw [hidseq, List.map_cons, hids1]
          rfl
        · rw [hlist1]
          simp only [hl1, Option.map_some', Option.toList_some, List.append_assoc,
            List.singleton_append]
        · rw [hfirst1]
          exact hl2

end storage
end PebbleSQL
namespace PebbleSQL
namespace storage

/-- Among pages with distinct ids the loader finds each page under its id. -/
theorem loaderOf_find (pre rest : List (Nat × OverflowPage)) (id : Nat) (pg : OverflowPage)
    (hnd : ((pre ++ (id, pg) :: rest).map Prod.fst).Nodup) :
    loaderOf (pre ++ (id, pg) :: rest) id = .ok pg := by
  unfold loaderOf
  have hpre : ∀ q ∈ pre, q.1 ≠ id := by
    intro q hq heq
    rw [List.map_append, List.nodup_append] at hnd
    exact hnd.2.2 (List.mem_map_of_mem _ hq) (by rw [heq]; simp)
  have : (pre ++ (id, pg) :: rest).find? (fun q => decide (q.1 = id)) = some (id, pg) := by
    rw [List.find?_append]
    have hnone : pre.find? (fun q => decide (q.1 = id)) = none := by
      rw [List.find?_eq_none]
      intro q hq
      simpa using hpre q hq
    rw [hnone]
    simp
  rw [this]

/-- Following a chain that holds `data`, among pages with distinct ids that are not zero,
`FindKey` collects exactly `data`. -/
theorem readChain_spec : ∀ (pages : List (Nat × OverflowPage)) (data : List Byte),
    ChainHolds pages data → ∀ (pre : List (Nat × OverflowPage)),
      ((pre ++ pages).map Prod.fst).Nodup → (∀ q ∈ pages, q.1 ≠ 0) →
      ∀ (fuel : Nat), pages.length ≤ fuel → ∀ (acc : List Byte),
        readChain (loaderOf (pre ++ pages)) fuel ((pages.head?.map Prod.fst).getD 0) acc
          = .ok (acc ++ data, none) := by
  intro pages
  induction pages with
  | nil =>
    intro data hch pre _ _ fuel _ acc
    simp only [ChainHolds] at hch
    subst hch
    cases fuel <;> simp [readChain]
  | cons q rest ih =>
    intro data hch pre hnd hnz fuel hfuel acc
    obtain ⟨id, pg⟩ := q
    simp only [ChainHolds] at hch
    obtain ⟨hdr, hread, hnext, _, hle, _, hdata, hrest⟩ := hch
    have hid : id ≠ 0 := hnz (id, pg) (List.mem_cons_self _ _)
    cases fuel with
    | zero => simp at hfuel
    | succ fuel =>
      simp only [List.head?_cons, Option.map_some', Option.getD_some, readChain, ne_eq, hid,
        not_false_eq_true, if_true]
      rw [loaderOf_find pre rest id pg hnd]
      simp only [hread, bind, Except.bind, hdata, hnext]
      have := ih (data.drop hdr.DataLength) hrest (pre ++ [(id, pg)])
        (by simpa using hnd) (fun q hq => hnz q (List.mem_cons_of_mem _ hq)) fuel
        (by simpa using hfuel) (acc ++ data.take hdr.DataLength)
      simp only [List.append_assoc, List.singleton_append, List.take_append_drop] at this
      exact this

end storage
end PebbleSQL
namespace PebbleSQL
namespace storage

theorem allocIds_length {σ : Type} (alloc : σ → (OverflowPage × Nat) × σ) :
    ∀ (k : Nat) (s : σ), (allocIds alloc k s).length = k := by
  intro k
  induction k with
  | zero => intro s; rfl
  | succ k ih => intro s; simp [allocIds, ih]

/-- The overflow branch of `InsertKeyValue` for a value longer than the inline threshold, on
a page with room for one more slot whose slots are sorted and do not hold the key: the value
goes into a chain of `chunkCount` pages with the ids the allocator returns, the slot gets the
id of the first page, and `FindKey` comes to load the value of that slot. -/
theorem InsertKeyValue_overflow_spec {σ : Type} (p : BLinkTreePage) (h : PageHeader) (key : Nat)
    (value : List Byte) (alloc : σ → (OverflowPage × Nat) × σ) (a : σ)
    (hh : pageHeader p = .ok h) (hkey : key < 2 ^ 64)
    (hroom : sizeofPageHeader + (h.NumKeys + 1) * sizeofSlotEntry ≤ p.Buf.length)
    (hn : h.NumKeys + 1 < 2 ^ 16)
    (hsorted : (slotKeys p.Buf h.NumKeys).Pairwise (· ≤ ·))
    (hnew : key ∉ slotKeys p.Buf h.NumKeys)
    (hlong : InlineThreshold < value.length)
    (hbuf : ∀ s, PageSize ≤ (alloc s).1.1.Buf.length)
    (hids : ∀ id ∈ allocIds alloc (chunkCount value.length) a, id < 2 ^ 32) :
    ∃ out, InsertKeyValue p key value alloc a = .ok out ∧ out.err = none ∧
      ChainHolds out.overflow value ∧
      out.overflow.map Prod.fst = allocIds alloc (chunkCount value.length) a ∧
      ∀ (load : Nat → Except Err OverflowPage) (cf : Nat),
        FindKey out.page key load cf =
          loadValue out.page.Buf
            { Key := key, ValueOffset := 0, ValueLength := 0, OverflowPageID := (alloc a).1.2,
              ChildPageID := 0, Deleted := false } load cf := by
  obtain ⟨hl20, hm, hv, -, ho, he, hr⟩ := pageHeader_range p h hh
  have hh0 := hh
  unfold pageHeader at hh0
  simp only [bind_eq_ok] at hh0
  obtain ⟨hb, hb1, hb2⟩ := hh0
  have hvne : value ≠ [] := by
    intro hv0; rw [hv0] at hlong; simp at hlong
  obtain ⟨st1, hloop, hres⟩ := overflowLoop_spec alloc hbuf value.length value
    { firstOverFlowPageID := 0, done := [], last := none, alloc := a } (le_refl _)
    (by intro q hq; simp at hq) hids
  rcases hres with ⟨hnil, -⟩ | ⟨-, pages, hchain, hpids, hlist, hfirst⟩
  · exact absurd hnil hvne
  simp only [List.nil_append, Option.map_none', Option.toList_none] at hlist hfirst
  -- the first id is one of the ids of the chain
  have hfirstid : (alloc a).1.2 < 2 ^ 32 := by
    apply hids
    have hpos1 : 0 < chunkCount value.length := by
      have : 0 < value.length := List.length_pos.2 hvne
      simp only [chunkCount, OverflowDataSize, PageSize, OverflowHeaderSize]
      omega
    obtain ⟨k, hk⟩ := Nat.exists_eq_succ_of_ne_zero (Nat.pos_iff_ne_zero.1 hpos1)
    rw [hk]
    exact List.mem_cons_self _ _
  have hplace : placeValue p.Buf h
      { Key := key, ValueOffset := 0, ValueLength := 0, OverflowPageID := 0, ChildPageID := 0,
        Deleted := false } value alloc a =
      .ok (p.Buf, { Key := key, ValueOffset := 0, ValueLength := 0,
                    OverflowPageID := st1.firstOverFlowPageID, ChildPageID := 0, Deleted := false },
           h, st1) := by
    unfold placeValue
    have c2 : decide (value.length ≤ InlineThreshold) = false := by
      simp only [decide_eq_false_iff_not]; omega
    simp only [c2, Bool.and_false, Bool.false_and, Bool.false_eq_true, if_false, hloop, bind,
      Except.bind, pure, Except.pure]
  obtain ⟨buf4, hins, hlen4, hframe, hhdr, hfind⟩ :=
    insertSlot_then_find p.Buf h
      { Key := key, ValueOffset := 0, ValueLength := 0,
        OverflowPageID := st1.firstOverFlowPageID, ChildPageID := 0, Deleted := false } key
      hroom rfl hkey (by norm_num) (by norm_num) (by rw [hfirst]; exact hfirstid) (by norm_num)
      hm hv hn he hr hsorted hnew
  refine ⟨{ page := { Buf := buf4 }, overflow := st1.done ++ st1.last.toList, alloc := st1.alloc,
            err := none }, ?_, rfl, ?_, ?_, ?_⟩
  · unfold InsertKeyValue
    simp only [hb1, hb2, bind, Except.bind, hplace, hins, pure, Except.pure]
  · simp only [hlist]; exact hchain
  · simp only [hlist]; exact hpids
  · intro load cf
    rw [hfind load cf, hfirst]

/-- C3 (as amended): on a page with room for one more slot whose slots are in non-decreasing
key order and do not hold `key`, for every value longer than the inline threshold (1024 bytes)
and an allocator that hands out pages of at least `PageSize` bytes under ids that are
pairwise distinct and not zero, `InsertKeyValue` stores the value in an overflow chain of
these pages and `FindKey`, with a loader that returns these pages by id, returns exactly the
bytes of `value`. -/
theorem C3_overflow_round_trip {σ : Type} (p : BLinkTreePage) (h : PageHeader) (key : Nat)
    (value : List Byte) (alloc : σ → (OverflowPage × Nat) × σ) (a : σ) (cf : Nat)
    (hh : pageHeader p = .ok h) (hkey : key < 2 ^ 64)
    (hroom : sizeofPageHeader + (h.NumKeys + 1) * sizeofSlotEntry ≤ p.Buf.length)
    (hn : h.NumKeys + 1 < 2 ^ 16)
    (hsorted : (slotKeys p.Buf h.NumKeys).Pairwise (· ≤ ·))
    (hnew : key ∉ slotKeys p.Buf h.NumKeys)
    (hlong : InlineThreshold < value.length)
    (hbuf : ∀ s, PageSize ≤ (alloc s).1.1.Buf.length)
    (hids : ∀ id ∈ allocIds alloc (chunkCount value.length) a, id ≠ 0 ∧ id < 2 ^ 32)
    (hdist : (allocIds alloc (chunkCount value.length) a).Nodup)
    (hcf : chunkCount value.length ≤ cf) :
    ∃ out, InsertKeyValue p key value alloc a = .ok out ∧ out.err = none ∧
      out.overflow.map Prod.fst = allocIds alloc (chunkCount value.length) a ∧
      FindKey out.page key (loaderOf out.overflow) cf = .ok (value, none) := by
  obtain ⟨out, hins, herr, hchain, hpids, hfind⟩ :=
    InsertKeyValue_overflow_spec p h key value alloc a hh hkey hroom hn hsorted hnew hlong hbuf
      (fun id hid => (hids id hid).2)
  refine ⟨out, hins, herr, hpids, ?_⟩
  rw [hfind]
  have hvne : value ≠ [] := by
    intro hv0; rw [hv0] at hlong; simp at hlong
  have hpos1 : 0 < chunkCount value.length := by
    have : 0 < value.length := List.length_pos.2 hvne
    simp only [chunkCount, OverflowDataSize, PageSize, OverflowHeaderSize]
    omega
  obtain ⟨k, hk⟩ := Nat.exists_eq_succ_of_ne_zero (Nat.pos_iff_ne_zero.1 hpos1)
  have hhead : (alloc a).1.2 = (allocIds alloc (chunkCount value.length) a).headD 0 := by
    rw [hk]; rfl
  have hnz : (alloc a).1.2 ≠ 0 := by
    apply (hids _ _).1
    rw [hk]
    exact List.mem_cons_self _ _
  simp only [loadValue, hnz, if_false]
  have hrc := readChain_spec out.overflow value hchain [] (by simpa [hpids] using hdist)
    (by
      intro q hq
      exact (hids q.1 (by rw [← hpids]; exact List.mem_map_of_mem _ hq)).1)
    cf (by
      have : out.overflow.length = chunkCount value.length := by
        rw [← List.length_map, hpids, allocIds_length]
      omega) []
  rw [head_map_fst _ _ hpids, ← hhead] at hrc
  simpa using hrc

end storage
end PebbleSQL
namespace PebbleSQL
namespace storage

/-- The header read from the first 20 bytes is the header read from the buffer. -/
theorem ReadHeader_take (buf : List Byte) (h : 20 ≤ buf.length) :
    ReadHeader ((buf.take 20).drop 0) = ReadHeader buf := by
  unfold ReadHeader
  rw [length_sub _ _ _ h]
  simp only [sizeofPageHeader, show ¬ (20 - 0 < 20) by omega, show ¬ buf.length < 20 by omega,
    if_false, getUint32, getUint16, List.drop_zero]
  have hb : ∀ j, j < 20 → byteAt (buf.take 20) j = byteAt buf j := by
    intro j hj
    have := byteAt_sub buf 0 20 j h (by omega)
    simpa using this
  have h6 : (buf.take 20).getD 6 0 = buf.getD 6 0 := by
    simp only [List.getD_eq_getElem?_getD, List.getElem?_take, show 6 < 20 by omega, if_true]
  simp only [hb 0 (by omega), hb (0 + 1) (by omega), hb (0 + 2) (by omega), hb (0 + 3) (by omega),
    hb 4 (by omega), hb (4 + 1) (by omega), hb 8 (by omega), hb (8 + 1) (by omega),
    hb 10 (by omega), hb (10 + 1) (by omega), hb 12 (by omega), hb (12 + 1) (by omega),
    hb 16 (by omega), hb (16 + 1) (by omega), hb (16 + 2) (by omega), hb (16 + 3) (by omega), h6]

/-- The header of the empty page. -/
theorem emptyPage_header (size : Nat) (p : BLinkTreePage) (hs : size < 2 ^ 16)
    (hp : emptyPage size = .ok p) :
    20 ≤ size ∧ p.Buf.length = size ∧
      pageHeader p = .ok { MagicNumber := MagicNumberBLinkTree, PageVersion := CurrentPageVersion,
                           IsLeaf := true, NumKeys := 0, FreeSpaceOffset := PageHeaderSize,
                           FreeSpaceEnd := size, RightSiblingPageID := 0 } := by
  unfold emptyPage at hp
  simp only [bind_eq_ok, pure, Except.pure, Except.ok.injEq] at hp
  obtain ⟨h1, hw, rfl⟩ := hp
  obtain ⟨hlen, hread⟩ := ReadHeader_WriteHeader _ h1 _
    (by simp only [MagicNumberBLinkTree]; norm_num) (by simp only [CurrentPageVersion]; norm_num)
    (by norm_num) (by simp only [PageHeaderSize]; norm_num) (Nat.mod_lt _ (by norm_num))
    (by norm_num) hw
  have hsize : 20 ≤ size := by
    unfold WriteHeader at hw
    by_contra hc
    simp [sizeofPageHeader, show size < 20 by omega] at hw
  rw [List.length_replicate] at hlen
  refine ⟨hsize, hlen, ?_⟩
  unfold pageHeader
  simp only [PageHeaderSize]
  rw [slice_ok (by omega) (by omega)]
  simp only [bind, Except.bind]
  rw [ReadHeader_take _ (by omega), hread, Nat.mod_eq_of_lt hs]
  rfl

/-- The empty page is consistent and holds no key. -/
theorem emptyPage_ok (size : Nat) (p : BLinkTreePage) (hs : size < 2 ^ 16)
    (hp : emptyPage size = .ok p) : PageOK p [] := by
  obtain ⟨hsize, hlen, hh⟩ := emptyPage_header size p hs hp
  refine ⟨_, hh, ?_, ?_, ?_, ?_, ?_⟩
  · simp [sizeofPageHeader, PageHeaderSize]
  · simp only [PageHeaderSize]; exact hsize
  · simp only [hlen]; exact le_refl _
  · simp [slotKeys]
  · simp [slotKeys]

theorem slotKeys_take (buf : List Byte) (n pos : Nat) (h : pos ≤ n) :
    (slotKeys buf n).take pos = slotKeys buf pos := by
  simp only [slotKeys, ← List.map_take, List.take_range, Nat.min_eq_left h]

theorem mem_slotKeys_drop (buf : List Byte) (n pos x : Nat) (hx : x ∈ (slotKeys buf n).drop pos) :
    ∃ j, pos ≤ j ∧ j < n ∧ (slotOf buf j).Key = x := by
  obtain ⟨i, hi, hxi⟩ := List.mem_iff_getElem.1 hx
  have hi2 : pos + i < n := by
    have := hi; simp only [List.length_drop, slotKeys_length] at this; omega
  refine ⟨pos + i, by omega, hi2, ?_⟩
  rw [List.getElem_drop] at hxi
  have := slotKeys_getElem? buf n (pos + i) hi2
  rw [List.getElem?_eq_getElem (by rw [slotKeys_length]; exact hi2)] at this
  simp only [Option.some.injEq] at this
  rw [← this, hxi]

/-- What `placeValue` returns on a page with `FreeSpaceOffset ≤ FreeSpaceEnd`: either the
buffer and the header as they were (the value went to overflow pages), or the value at the
tail of the free space, with at least 24 free bytes left for the slot. -/
theorem placeValue_cases {σ : Type} (buf : List Byte) (h : PageHeader) (slot : SlotEntry)
    (value : List Byte) (alloc : σ → (OverflowPage × Nat) × σ) (a : σ)
    (r : List Byte × SlotEntry × PageHeader × ChainState σ)
    (hoe : h.FreeSpaceOffset ≤ h.FreeSpaceEnd) (he : h.FreeSpaceEnd < 2 ^ 16)
    (hend : h.FreeSpaceEnd ≤ buf.length)
    (hr : placeValue buf h slot value alloc a = .ok r) :
    (r.1 = buf ∧ r.2.2.1 = h ∧ r.2.1.Key = slot.Key) ∨
    (h.FreeSpaceOffset + (sizeofSlotEntry + value.length) ≤ h.FreeSpaceEnd ∧
      r.1 = splice buf (h.FreeSpaceEnd - value.length) value ∧
      r.2.2.1 = { h with FreeSpaceEnd := h.FreeSpaceEnd - value.length } ∧
      r.2.1.Key = slot.Key) := by
  by_cases hc : 0 < value.length ∧ value.length ≤ InlineThreshold ∧
      h.FreeSpaceOffset + (sizeofSlotEntry + value.length) ≤ h.FreeSpaceEnd
  · rw [placeValue_inline buf h slot value alloc a hc.1 hc.2.1 hc.2.2 he hend] at hr
    simp only [Except.ok.injEq] at hr
    subst hr
    exact Or.inr ⟨hc.2.2, rfl, rfl, rfl⟩
  · left
    unfold placeValue at hr
    have hcond : (decide ((h.FreeSpaceEnd + 2 ^ 16 - h.FreeSpaceOffset) % 2 ^ 16 ≥
          (sizeofSlotEntry % 2 ^ 16 + value.length % 2 ^ 16) % 2 ^ 16) &&
        decide (value.length ≤ InlineThreshold) && decide (value.length % 2 ^ 16 > 0)) = false := by
      simp only [InlineThreshold, PageSize, sizeofSlotEntry] at hc ⊢
      by_cases h1 : value.length ≤ 4096 / 4
      · have hv : value.length % 2 ^ 16 = value.length := Nat.mod_eq_of_lt (by omega)
        simp only [hv]
        by_cases h0 : 0 < value.length
        · have hfs : (h.FreeSpaceEnd + 2 ^ 16 - h.FreeSpaceOffset) % 2 ^ 16
              = h.FreeSpaceEnd - h.FreeSpaceOffset := by omega
          have hns : (24 % 2 ^ 16 + value.length) % 2 ^ 16 = 24 + value.length := by omega
          simp only [hfs, hns]
          have : ¬ (h.FreeSpaceEnd - h.FreeSpaceOffset ≥ 24 + value.length) := by omega
          simp [this]
        · have : ¬ (value.length > 0) := h0
          simp [this]
      · simp [h1]
    simp only [hcond, Bool.false_eq_true, if_false, bind_eq_ok, pure, Except.pure,
      Except.ok.injEq] at hr
    obtain ⟨st, -, rfl⟩ := hr
    exact ⟨rfl, rfl, rfl⟩

end storage
end PebbleSQL
namespace PebbleSQL
namespace storage

/-- A call of `InsertKeyValue` that returns, made with a 64-bit key on a consistent page with
24 free bytes for the slot, leaves a consistent page that holds the key in addition: the slot
keys stay in non-decreasing order and free-space-start stays at or before free-space-end. -/
theorem pageOK_step {σ : Type} (p : BLinkTreePage) (ks : List Nat) (h : PageHeader) (key : Nat)
    (value : List Byte) (alloc : σ → (OverflowPage × Nat) × σ) (a : σ) (out : InsertOutcome σ)
    (hok : PageOK p ks) (hh : pageHeader p = .ok h)
    (hroom : h.FreeSpaceOffset + sizeofSlotEntry ≤ h.FreeSpaceEnd) (hkey : key < 2 ^ 64)
    (hins : InsertKeyValue p key value alloc a = .ok out) : PageOK out.page (ks ++ [key]) := by
  obtain ⟨h0, hh0, hslots, hoe, hend, hsorted, hperm⟩ := hok
  rw [hh] at hh0
  cases hh0
  obtain ⟨hl20, hm, hv, hn, ho, he, hr⟩ := pageHeader_range p h hh
  have hh1 := hh
  unfold pageHeader at hh1
  simp only [bind_eq_ok] at hh1
  obtain ⟨hb, hb1, hb2⟩ := hh1
  unfold InsertKeyValue at hins
  simp only [bind_eq_ok] at hins
  obtain ⟨hb0, hb3, hd, hb4, ⟨buf1, slot1, h1, st⟩, hpv, buf4, hins2, hout⟩ := hins
  rw [hb1] at hb3
  cases hb3
  rw [hb2] at hb4
  cases hb4
  simp only [pure, Except.pure, Except.ok.injEq] at hout
  subst hout
  simp only [sizeofPageHeader, sizeofSlotEntry] at hslots hroom
  -- what the placing of the value leaves
  have hfacts : h1.NumKeys = h.NumKeys ∧ h1.FreeSpaceOffset = h.FreeSpaceOffset ∧
      h.FreeSpaceOffset + 24 ≤ h1.FreeSpaceEnd ∧ h1.FreeSpaceEnd ≤ h.FreeSpaceEnd ∧
      h1.MagicNumber = h.MagicNumber ∧ h1.PageVersion = h.PageVersion ∧
      h1.RightSiblingPageID = h.RightSiblingPageID ∧
      buf1.length = p.Buf.length ∧ slotKeys buf1 h.NumKeys = slotKeys p.Buf h.NumKeys ∧
      slot1.Key = key := by
    rcases placeValue_cases p.Buf h _ value alloc a _ hoe he hend hpv with
      ⟨e1, e2, e3⟩ | ⟨hfree, e1, e2, e3⟩
    · simp only at e1 e2 e3
      subst e1 e2
      exact ⟨rfl, rfl, hroom, le_refl _, rfl, rfl, rfl, rfl, rfl, e3⟩
    · simp only [sizeofSlotEntry] at e1 e2 e3 hfree
      subst e1 e2
      have hfit : h.FreeSpaceEnd - value.length + value.length ≤ p.Buf.length := by omega
      refine ⟨rfl, rfl, ?_, ?_, rfl, rfl, rfl, length_splice _ _ _ hfit, ?_, e3⟩
      · show h.FreeSpaceOffset + 24 ≤ h.FreeSpaceEnd - value.length
        omega
      · show h.FreeSpaceEnd - value.length ≤ h.FreeSpaceEnd
        omega
      · exact slotKeys_congr _ _ _ (fun j hj => slotOf_splice _ _ _ _ hfit (by
          simp only [sizeofPageHeader, sizeofSlotEntry]
          have : (j + 1) * 24 ≤ h.NumKeys * 24 := Nat.mul_le_mul_right _ hj
          omega))
  obtain ⟨hN, hO, hE1, hE2, hM, hV, hR, hL, hK, hkey1⟩ := hfacts
  obtain ⟨buf5, pos, hins5, hlen5, hpos, hbefore, hafter, hsame, hat, hshift, -, hhdr⟩ :=
    insertSlot_spec buf1 h1 slot1 key
      (by rw [hL, hN]; simp only [sizeofPageHeader, sizeofSlotEntry]; omega)
      (by rw [hM]; exact hm) (by rw [hV]; exact hv) (by rw [hN]; omega) (by omega)
      (by rw [hR]; exact hr)
  rw [hins2] at hins5
  cases hins5
  rw [hN] at hpos hafter hshift
  have hkeys : slotKeys buf4 (h.NumKeys + 1) =
      (slotKeys buf1 h.NumKeys).take pos ++ key :: (slotKeys buf1 h.NumKeys).drop pos := by
    apply slotKeys_insert _ _ _ _ _ hpos
    · intro j hj; rw [hsame j hj]
    · rw [hat]; simp only [normSlot, hkey1]; exact Nat.mod_eq_of_lt hkey
    · intro j hj1 hj2; rw [hshift j hj1 hj2]
  have hsorted1 : (slotKeys buf1 h.NumKeys).Pairwise (· ≤ ·) := by rw [hK]; exact hsorted
  refine ⟨_, hhdr, ?_, ?_, ?_, ?_, ?_⟩
  · simp only [sizeofPageHeader, sizeofSlotEntry, hN, hO]
    rw [Nat.mod_eq_of_lt (by omega)]
    omega
  · simp only [hO]
    rw [Nat.mod_eq_of_lt (by omega)]
    exact hE1
  · show h1.FreeSpaceEnd ≤ buf4.length
    rw [hlen5, hL]; omega
  · show (slotKeys buf4 (h1.NumKeys + 1)).Pairwise (· ≤ ·)
    rw [hN, hkeys]
    apply sorted_put _ _ _ hsorted1
    · intro x hx
      rw [slotKeys_take _ _ _ hpos] at hx
      obtain ⟨j, hj, rfl⟩ := (mem_slotKeys _ _ _).1 hx
      exact hbefore j hj
    · intro x hx
      obtain ⟨j, hj1, hj2, rfl⟩ := mem_slotKeys_drop _ _ _ _ hx
      have hlt := hafter (by omega)
      rcases Nat.eq_or_lt_of_le hj1 with rfl | hj3
      · exact Nat.le_of_lt hlt
      · exact Nat.le_trans (Nat.le_of_lt hlt)
          ((slotKeys_sorted_iff _ _).1 hsorted1 pos j hj3 hj2)

  · show (slotKeys buf4 (h1.NumKeys + 1)).Perm (ks ++ [key])
    rw [hN, hkeys]
    refine List.perm_middle.trans ?_
    rw [List.take_append_drop, hK]
    exact (List.Perm.cons key hperm).trans (List.perm_append_singleton key ks).symm

/-- Every page built by `InsertKeyValue` calls from an empty page is consistent and holds the
keys inserted. -/
theorem pageBuilt_ok : ∀ {p : BLinkTreePage} {ks : List Nat}, PageBuilt p ks → PageOK p ks := by
  intro p ks hp
  induction hp with
  | empty hs he => exact emptyPage_ok _ _ hs he
  | step _ hh hroom hkey hins ih => exact pageOK_step _ _ _ _ _ _ _ _ ih hh hroom hkey hins

end storage
end PebbleSQL
namespace PebbleSQL
namespace storage

set_option maxRecDepth 20000

theorem emptyPage_100 : emptyPage 100 = .ok page100 := by decide

theorem insert_pageWith5 :
    InsertKeyValue page100 5 [1, 2, 3] AllocateOverflowPage (store 1) =
      .ok { page := pageWith5, overflow := [], alloc := store 1, err := none } := by decide

theorem insert_pageWith35 :
    InsertKeyValue pageWith5 3 [4, 5] AllocateOverflowPage (store 1) =
      .ok { page := pageWith35, overflow := [], alloc := store 1, err := none } := by decide

theorem insert_pageWith55 :
    InsertKeyValue pageWith5 5 [4, 5] AllocateOverflowPage (store 1) =
      .ok { page := pageWith55, overflow := [], alloc := store 1, err := none } := by decide

theorem insert_pageFull100 :
    InsertKeyValue page100 1 (List.replicate 56 7) AllocateOverflowPage (store 1) =
      .ok { page := pageFull100, overflow := [], alloc := store 1, err := none } := by decide

theorem insert_pageOver100 :
    InsertKeyValue pageFull100 2 [] AllocateOverflowPage (store 1) =
      .ok { page := pageOver100, overflow := [], alloc := store 1, err := none } := by decide

theorem header_page100 : pageHeader page100 = .ok (leafHeader 0 20 100) := by decide

theorem header_pageWith5 : pageHeader pageWith5 = .ok (leafHeader 1 44 97) := by decide

theorem header_pageFull100 : pageHeader pageFull100 = .ok (leafHeader 1 44 44) := by decide

theorem built_page100 : PageBuilt page100 [] := PageBuilt.empty (by norm_num) emptyPage_100

theorem built_pageWith5 : PageBuilt pageWith5 [5] :=
  PageBuilt.step built_page100 header_page100 (by decide) (by decide) insert_pageWith5

theorem built_pageWith35 : PageBuilt pageWith35 [5, 3] :=
  PageBuilt.step built_pageWith5 header_pageWith5 (by decide) (by decide) insert_pageWith35

theorem built_pageWith55 : PageBuilt pageWith55 [5, 5] :=
  PageBuilt.step built_pageWith5 header_pageWith5 (by decide) (by decide) insert_pageWith55

theorem built_pageFull100 : PageBuilt pageFull100 [1] :=
  PageBuilt.step built_page100 header_page100 (by decide) (by decide) insert_pageFull100

theorem C2_inline_round_trip_witness :
    pageHeader pageWith5 = .ok (leafHeader 1 44 97) ∧
      ∃ out, InsertKeyValue pageWith5 3 [4, 5] AllocateOverflowPage (store 1) = .ok out ∧
        out.err = none ∧ pageHeader out.page = .ok (leafHeader 2 68 95) ∧
        FindKey out.page 3 (loaderOf []) 0 = .ok ([4, 5], none) :=
  ⟨header_pageWith5,
    C2_inline_round_trip pageWith5 (leafHeader 1 44 97) 3 [4, 5] AllocateOverflowPage (store 1)
      (loaderOf []) 0 header_pageWith5 (by decide) (by decide) (by decide) (by decide)
      (by decide) (by decide) (by decide)⟩

/-- C2 (as stated, refuted): the page `pageWith5` holds key 5 with the value `[1, 2, 3]` and
has 53 free bytes; the value `[4, 5]` fits inline (2 bytes, and 24 + 2 ≤ 53);
`InsertKeyValue(5, [4, 5])` returns nil and leaves a second slot with key 5, and `FindKey(5)`
on the same page returns `[1, 2, 3]`, not `[4, 5]`. -/
theorem C2_counterexample :
    InsertKeyValue page100 5 [1, 2, 3] AllocateOverflowPage (store 1) =
        .ok { page := pageWith5, overflow := [], alloc := store 1, err := none } ∧
      pageHeader pageWith5 = .ok (leafHeader 1 44 97) ∧
      ([4, 5] : List Byte).length ≤ InlineThreshold ∧
      sizeofSlotEntry + ([4, 5] : List Byte).length ≤ 97 - 44 ∧
      InsertKeyValue pageWith5 5 [4, 5] AllocateOverflowPage (store 1) =
        .ok { page := pageWith55, overflow := [], alloc := store 1, err := none } ∧
      FindKey pageWith55 5 (loaderOf []) 0 = .ok ([1, 2, 3], none) := by
  decide

end storage
end PebbleSQL
namespace PebbleSQL
namespace storage

theorem emptyPage_4096 : emptyPage 4096 = .ok page4096 := by
  have h1 : putUint32 MagicNumberBLinkTree = [219, 219, 12, 177] := by decide
  have h2 : putUint16 CurrentPageVersion = [1, 0] := by decide
  have h3 : putUint16 PageHeaderSize = [20, 0] := by decide
  have h4 : putUint16 (4096 % 2 ^ 16) = [0, 16] := by decide
  have h5 : putUint16 0 = [0, 0] := by decide
  have h6 : putUint32 0 = [0, 0, 0, 0] := by decide
  have h7 : boolToByte true = 1 := by decide
  simp only [emptyPage, WriteHeader, List.length_replicate, sizeofPageHeader, h1, h2, h3, h4, h5,
    h6, h7, List.drop_replicate, bind, Except.bind, pure, Except.pure, page4096]
  rfl

theorem header_page4096 : pageHeader page4096 = .ok (leafHeader 0 20 4096) :=
  (emptyPage_header 4096 page4096 (by norm_num) emptyPage_4096).2.2

theorem length_page4096 : page4096.Buf.length = 4096 :=
  (emptyPage_header 4096 page4096 (by norm_num) emptyPage_4096).2.1

theorem chunkCount_4096 : chunkCount (List.replicate 4096 (7 : Byte)).length = 2 := by
  rw [List.length_replicate]
  decide

theorem allocIds_store (n : Nat) (h : n + 2 < 2 ^ 32) :
    allocIds AllocateOverflowPage 2 (store n) = [n, n + 1] := by
  have e1 : (n + 1) % 2 ^ 32 = n + 1 := Nat.mod_eq_of_lt (by omega)
  have e2 : (n + 1 + 2 ^ 32 - 1) % 2 ^ 32 = n := by omega
  have e3 : (n + 1 + 1) % 2 ^ 32 = n + 2 := Nat.mod_eq_of_lt (by omega)
  have e4 : (n + 2 + 2 ^ 32 - 1) % 2 ^ 32 = n + 1 := by omega
  simp only [allocIds, AllocateOverflowPage, AllocatePage, store, e1, e2, e3, e4]

theorem length_allocated (s : PebbleSQLDiskManager) :
    PageSize ≤ (AllocateOverflowPage s).1.1.Buf.length := by
  simp only [AllocateOverflowPage, AllocatePage, List.length_replicate]
  exact le_refl _

theorem C3_overflow_round_trip_witness :
    pageHeader page4096 = .ok (leafHeader 0 20 4096) ∧
      ∃ out, InsertKeyValue page4096 9 (List.replicate 4096 7) AllocateOverflowPage (store 1)
          = .ok out ∧
        out.err = none ∧ out.overflow.map Prod.fst = [1, 2] ∧
        FindKey out.page 9 (loaderOf out.overflow) 2 = .ok (List.replicate 4096 7, none) := by
  have hids : allocIds AllocateOverflowPage (chunkCount (List.replicate 4096 (7 : Byte)).length)
      (store 1) = [1, 2] := by
    rw [chunkCount_4096]
    exact allocIds_store 1 (by norm_num)
  obtain ⟨out, h1, h2, h3, h4⟩ :=
    C3_overflow_round_trip page4096 (leafHeader 0 20 4096) 9 (List.replicate 4096 7)
      AllocateOverflowPage (store 1) 2 header_page4096 (by norm_num)
      (by rw [length_page4096]; decide) (by decide) (by simp [slotKeys, leafHeader])
      (by simp [slotKeys, leafHeader]) (by rw [List.length_replicate]; decide) length_allocated
      (by rw [hids]; decide) (by rw [hids]; decide) (by rw [chunkCount_4096])
  exact ⟨header_page4096, out, h1, h2, by rw [h3, hids], h4⟩

/-- C3 (as stated, refuted): on the empty page of 4096 bytes, with the allocator
`AllocateOverflowPage` of a page store whose counter stands at 0, `InsertKeyValue` of a value
of 4096 bytes returns nil and puts the value into the overflow pages with the distinct ids 0
and 1; the slot records the first id, 0, which `FindKey` reads as "no overflow page":
`FindKey`, with a loader that returns those pages by id, returns the empty byte sequence. -/
theorem C3_counterexample :
    pageHeader page4096 = .ok (leafHeader 0 20 4096) ∧
      ∃ out, InsertKeyValue page4096 9 (List.replicate 4096 7) AllocateOverflowPage (store 0)
          = .ok out ∧
        out.err = none ∧ out.overflow.map Prod.fst = [0, 1] ∧
        FindKey out.page 9 (loaderOf out.overflow) 2 = .ok ([], none) ∧
        ([] : List Byte) ≠ List.replicate 4096 7 := by
  have hids : allocIds AllocateOverflowPage (chunkCount (List.replicate 4096 (7 : Byte)).length)
      (store 0) = [0, 1] := by
    rw [chunkCount_4096]
    exact allocIds_store 0 (by norm_num)
  obtain ⟨out, h1, h2, -, h3, h4⟩ :=
    InsertKeyValue_overflow_spec page4096 (leafHeader 0 20 4096) 9 (List.replicate 4096 7)
      AllocateOverflowPage (store 0) header_page4096 (by norm_num)
      (by rw [length_page4096]; decide) (by decide) (by simp [slotKeys, leafHeader])
      (by simp [slotKeys, leafHeader]) (by rw [List.length_replicate]; decide) length_allocated
      (by rw [hids]; decide)
  refine ⟨header_page4096, out, h1, h2, by rw [h3, hids], ?_, ?_⟩
  · rw [h4]
    have h0 : (AllocateOverflowPage (store 0)).1.2 = 0 := by decide
    rw [h0]
    simp only [loadValue, if_true, Nat.add_zero, Nat.zero_mod]
    rw [slice_ok (le_refl _) (Nat.zero_le _)]
    rfl
  · intro h
    have := congrArg List.length h
    rw [List.length_replicate] at this
    exact absurd this (by decide)

end storage
end PebbleSQL
namespace PebbleSQL
namespace blinktree

/-- In a tree built by `Insert` calls the keys of every node are in non-decreasing order. -/
theorem built_sorted {t : BlinkTree} {es : List (Int × List Byte)} (hb : Built t es) :
    AllNodes (fun x => x.keys.Pairwise (· ≤ ·)) t.heap :=
  (built_preserves (fun _ x => x.keys.Pairwise (· ≤ ·)) (fun _ x => x.keys.Pairwise (· ≤ ·))
    (by simp) (fun _ => splitStable_sorted) (fun _ _ _ _ h => h)
    (fun _ k v x ks vs hx _ hks _ => by
      rw [insertAt_eq_ok] at hks
      obtain ⟨hle, rfl⟩ := hks
      exact ⟨fun _ => sorted_insert _ _ hx, fun _ => sorted_insert _ _ hx⟩) hb).2

end blinktree

namespace storage

set_option maxRecDepth 20000

/-- A page without 24 free bytes, but with room in its buffer: `InsertKeyValue` with an empty
value does not check for room, returns nil and leaves free-space-start behind
free-space-end. -/
theorem InsertKeyValue_overruns {σ : Type} (p : BLinkTreePage) (h : PageHeader) (key : Nat)
    (alloc : σ → (OverflowPage × Nat) × σ) (a : σ)
    (hh : pageHeader p = .ok h)
    (hslots : sizeofPageHeader + h.NumKeys * sizeofSlotEntry ≤ h.FreeSpaceOffset)
    (hfull : h.FreeSpaceEnd < h.FreeSpaceOffset + sizeofSlotEntry)
    (hwrap : h.FreeSpaceOffset + sizeofSlotEntry < 2 ^ 16)
    (hroom : sizeofPageHeader + (h.NumKeys + 1) * sizeofSlotEntry ≤ p.Buf.length) :
    ∃ out, InsertKeyValue p key [] alloc a = .ok out ∧ out.err = none ∧
      pageHeader out.page = .ok { h with NumKeys := h.NumKeys + 1,
                                         FreeSpaceOffset := h.FreeSpaceOffset + sizeofSlotEntry } ∧
      h.FreeSpaceEnd < h.FreeSpaceOffset + sizeofSlotEntry := by
  obtain ⟨hl20, hm, hv, hn, ho, he, hr⟩ := pageHeader_range p h hh
  have hh0 := hh
  unfold pageHeader at hh0
  simp only [bind_eq_ok] at hh0
  obtain ⟨hb, hb1, hb2⟩ := hh0
  simp only [sizeofPageHeader, sizeofSlotEntry] at hslots hfull hwrap
  obtain ⟨buf4, pos, hins, -, -, -, -, -, -, -, -, hhdr⟩ :=
    insertSlot_spec p.Buf h
      { Key := key, ValueOffset := 0, ValueLength := 0, OverflowPageID := 0, ChildPageID := 0,
        Deleted := false } key hroom hm hv (by omega) he hr
  refine ⟨{ page := { Buf := buf4 }, overflow := [], alloc := a, err := none }, ?_, rfl, ?_, ?_⟩
  · unfold InsertKeyValue
    simp only [hb1, hb2, bind, Except.bind, placeValue_empty, hins, pure, Except.pure]
    rfl
  · rw [hhdr, Nat.mod_eq_of_lt hwrap]
    rfl
  · simp only [sizeofSlotEntry]
    exact hfull

/-- C10 (the code falls short of it): the page `pageFull100`, built from the empty page of 100
bytes by `InsertKeyValue(1, v)` with 56 bytes `v`, has free-space-start = free-space-end = 44.
`InsertKeyValue(2, [])` returns nil and writes a header with free-space-start 68 and
free-space-end 44; the slot of key 2 lies where the value of key 1 began, and `FindKey(1)` no
longer returns the 56 bytes `7`. -/
theorem C10_slot_overruns_free_space :
    InsertKeyValue page100 1 (List.replicate 56 7) AllocateOverflowPage (store 1) =
        .ok { page := pageFull100, overflow := [], alloc := store 1, err := none } ∧
      pageHeader pageFull100 = .ok (leafHeader 1 44 44) ∧
      InsertKeyValue pageFull100 2 [] AllocateOverflowPage (store 1) =
        .ok { page := pageOver100, overflow := [], alloc := store 1, err := none } ∧
      pageHeader pageOver100 = .ok (leafHeader 2 68 44) ∧
      FindKey pageFull100 1 (loaderOf []) 0 = .ok (List.replicate 56 7, none) ∧
      FindKey pageOver100 1 (loaderOf []) 0 =
        .ok ([2, 0, 0, 0, 0, 0, 0, 0, 0, 0, 0, 0, 0, 0, 0, 0, 0, 0, 0, 0] ++ List.replicate 36 7,
          none) := by
  decide

end storage
end PebbleSQL
namespace PebbleSQL
namespace blinktree

/-- The check at the head of `split` ends the run in `log.Fatal` whenever the mutex of the
node is locked, also when it is the caller that holds the write lock. -/
theorem splitLocked_of_held (fuel : Nat) (tree : BlinkTree) (locks : List RWMutex) (n : Nat)
    (m : RWMutex) (hm : locks[n]? = some m) (hheld : m.writer = true ∨ m.readers ≠ 0) :
    splitLocked (fuel + 1) tree locks n = .error .logFatal := by
  have h1 : tryLockOrFatal locks n = .error .logFatal := by
    unfold tryLockOrFatal
    rw [hm]
    simp only [RWMutex.TryLock, hheld, if_true, Bool.not_false]
  simp only [splitLocked, h1, bind, Except.bind]

/-- The check at the head of `split` lets the run go on when the mutex of the node is not
locked, and leaves the write lock taken. -/
theorem tryLockOrFatal_of_free (locks : List RWMutex) (n : Nat) (m : RWMutex)
    (hm : locks[n]? = some m) (hw : m.writer = false) (hr : m.readers = 0) :
    tryLockOrFatal locks n = .ok (locks.set n { m with writer := true }) := by
  unfold tryLockOrFatal
  rw [hm]
  simp [RWMutex.TryLock, hw, hr]

/-- `Search` on a tree whose root is an internal node, with no lock held: after the read lock
of the root is taken and the next node is selected, the call releases a read lock of that
next node, which holds none, and the run ends in the fatal error of the run time. -/
theorem SearchLocked_of_internal_root (fuel : Nat) (tree : BlinkTree) (locks : List RWMutex)
    (key : Int) (root : Node) (b : Nat) (mr mb : RWMutex)
    (hroot : tree.heap[tree.root]? = some root) (hint : root.isLeaf = false)
    (hnext : nextNode root key = .ok (some b)) (hb : b ≠ tree.root)
    (hmr : locks[tree.root]? = some mr) (hfree : mr.writer = false)
    (hmb : locks[b]? = some mb) (hbfree : mb.readers = 0) :
    SearchLocked (fuel + 1) tree locks key = .error .unlockOfUnlocked := by
  have hlt : tree.root < locks.length := by
    by_contra hc
    rw [List.getElem?_eq_none (by omega)] at hmr
    exact absurd hmr (by simp)
  have h1 : lockCall locks tree.root RWMutex.RLock =
      .ok (locks.set tree.root { mr with readers := mr.readers + 1 }) := by
    simp [lockCall, hmr, RWMutex.RLock, hfree, bind, Except.bind, pure, Except.pure]
  have h2 : (locks.set tree.root { mr with readers := mr.readers + 1 })[b]? = some mb := by
    rw [List.getElem?_set_ne (Ne.symm hb)]
    exact hmb
  have h3 : lockCall (locks.set tree.root { mr with readers := mr.readers + 1 }) b
      RWMutex.RUnlock = .error .unlockOfUnlocked := by
    simp [lockCall, h2, RWMutex.RUnlock, hbfree, bind, Except.bind]
  simp only [SearchLocked, searchDescendLocked, h1, deref, hroot, data, hint, hnext, h3, bind,
    Except.bind, Bool.false_eq_true, if_false]

/-- C14 (the code falls short of it): the keys 1 to 4 are inserted into a new tree, each
`Insert` taking and releasing the write lock of the leaf.  `Insert(5)` takes the write lock of
the leaf, which then holds 5 keys, and calls `split` on it: `split` finds the lock taken
(`TryLock` fails) and ends in `log.Fatal`.  Called on the same leaf while its lock is not
held, `split` does not abort: it carries out the split and returns with the write lock of the
leaf taken. -/
theorem C14_split_aborts_when_lock_is_held :
    insertAllLocked 5 NewBlinkTree [RWMutex.free] seq4 = .ok (tree4, [RWMutex.free]) ∧
      InsertLocked 5 tree4 [RWMutex.free] 5 [5] = .error .logFatal ∧
      splitLocked 5 treeFive [{ writer := true, readers := 0 }] 0 = .error .logFatal ∧
      splitLocked 5 treeFive [RWMutex.free] 0 =
        .ok (tree5, [{ writer := true, readers := 0 }, RWMutex.free, RWMutex.free]) := by
  decide

/-- C15 (the code falls short of it): on the tree `tree5`, whose root is an internal node,
with no lock held, `Search(1)` takes the read lock of the root, selects the leaf at address 0
and calls `RUnlock` on that leaf, whose lock it never took: the run ends in the fatal error
"RUnlock of unlocked RWMutex", the read lock of the root still held.  On a tree whose root is
a leaf, `Search` returns with no lock held. -/
theorem C15_search_releases_lock_of_next_node :
    SearchLocked 5 tree5 [RWMutex.free, RWMutex.free, RWMutex.free] 1
        = .error .unlockOfUnlocked ∧
      SearchLocked 5 tree4 [RWMutex.free] 1 = .ok (([1], true), [RWMutex.free]) := by
  decide

end blinktree
end PebbleSQL
namespace PebbleSQL
namespace storage

/-- The binary search of `FindKey` over slots in non-decreasing key order, on the slots
`low` to `high`: it reports not-found when none of them holds the key, and comes to load the
value of a slot that holds the key otherwise. -/
theorem findLoop_spec (buf : List Byte) (key : Nat) (load : Nat → Except Err OverflowPage)
    (cf m : Nat) (hlen : sizeofPageHeader + m * sizeofSlotEntry ≤ buf.length)
    (hsorted : ∀ i j, i < j → j < m → (slotOf buf i).Key ≤ (slotOf buf j).Key) :
    ∀ (fuel : Nat) (low high : Int), 0 ≤ low → high < (m : Int) → low ≤ high + 1 →
      high + 1 - low < (fuel : Int) →
      ((∀ j : Nat, low ≤ (j : Int) → (j : Int) ≤ high → (slotOf buf j).Key ≠ key) ∧
          findLoop buf key load cf fuel low high = .ok ([], some .ErrorKeyNotFound)) ∨
        ∃ j : Nat, low ≤ (j : Int) ∧ (j : Int) ≤ high ∧ (slotOf buf j).Key = key ∧
          findLoop buf key load cf fuel low high = loadValue buf (slotOf buf j) load cf := by
  intro fuel
  induction fuel with
  | zero => intro low high h0 h1 h2 h3; omega
  | succ fuel ih =>
    intro low high h0 h1 h2 h3
    by_cases hle : low ≤ high
    · have hmid0 : 0 ≤ (low + high) / 2 := by omega
      have hmidm : ((low + high) / 2).toNat < m := by omega
      have hcast : (((low + high) / 2).toNat : Int) = (low + high) / 2 := Int.toNat_of_nonneg hmid0
      have hr := readSlotAt_eq buf ((low + high) / 2).toNat (by
        simp only [sizeofPageHeader, sizeofSlotEntry] at hlen ⊢
        have : (((low + high) / 2).toNat + 1) * 24 ≤ m * 24 := Nat.mul_le_mul_right _ (by omega)
        omega)
      simp only [findLoop, hle, if_true, hr, bind, Except.bind]
      by_cases heq : key = (slotOf buf ((low + high) / 2).toNat).Key
      · simp only [heq, if_true]
        exact Or.inr ⟨((low + high) / 2).toNat, by omega, by omega, rfl, rfl⟩
      · simp only [heq, if_false]
        by_cases hlt : key < (slotOf buf ((low + high) / 2).toNat).Key
        · simp only [hlt, if_true]
          rcases ih low ((low + high) / 2 - 1) h0 (by omega) (by omega) (by omega) with
            ⟨hnone, hres⟩ | ⟨j, hj1, hj2, hjk, hres⟩
          · refine Or.inl ⟨fun j hj1 hj2 => ?_, hres⟩
            by_cases hjm : (j : Int) ≤ (low + high) / 2 - 1
            · exact hnone j hj1 hjm
            · have hjm2 : ((low + high) / 2).toNat ≤ j := by omega
              have hge : (slotOf buf ((low + high) / 2).toNat).Key ≤ (slotOf buf j).Key := by
                rcases Nat.eq_or_lt_of_le hjm2 with h | h
                · rw [h]
                · exact hsorted _ _ h (by omega)
              omega
          · exact Or.inr ⟨j, hj1, by omega, hjk, hres⟩
        · simp only [hlt, if_false]
          rcases ih ((low + high) / 2 + 1) high (by omega) h1 (by omega) (by omega) with
            ⟨hnone, hres⟩ | ⟨j, hj1, hj2, hjk, hres⟩
          · refine Or.inl ⟨fun j hj1 hj2 => ?_, hres⟩
            by_cases hjm : (low + high) / 2 + 1 ≤ (j : Int)
            · exact hnone j hjm hj2
            · have hjm2 : j ≤ ((low + high) / 2).toNat := by omega
              have hge : (slotOf buf j).Key ≤ (slotOf buf ((low + high) / 2).toNat).Key := by
                rcases Nat.eq_or_lt_of_le hjm2 with h | h
                · rw [h]
                · exact hsorted _ _ h hmidm
              omega
          · exact Or.inr ⟨j, by omega, hj2, hjk, hres⟩
    · refine Or.inl ⟨fun j hj1 hj2 => by omega, ?_⟩
      simp only [findLoop, hle, if_false]

/-- An error that the loop over the overflow chain returns is an error of the loader. -/
theorem readChain_err (load : Nat → Except Err OverflowPage) :
    ∀ (fuel id : Nat) (acc r : List Byte) (e : Err),
      readChain load fuel id acc = .ok (r, some e) → ∃ pid, load pid = .error e := by
  intro fuel
  induction fuel with
  | zero =>
    intro id acc r e h
    simp only [readChain] at h
    split at h
    · exact absurd h (by simp)
    · simp at h
  | succ fuel ih =>
    intro id acc r e h
    simp only [readChain] at h
    split at h
    · cases hl : load id with
      | error err =>
        rw [hl] at h
        simp only [Except.ok.injEq, Prod.mk.injEq, Option.some.injEq] at h
        exact ⟨id, by rw [hl, h.2]⟩
      | ok pg =>
        rw [hl] at h
        simp only [bind_eq_ok] at h
        obtain ⟨hdr, -, d, -, hrec⟩ := h
        exact ih _ _ _ _ hrec
    · simp at h

/-- An error that comes with the value of a slot is an error of the loader. -/
theorem loadValue_err (buf : List Byte) (slot : SlotEntry) (load : Nat → Except Err OverflowPage)
    (cf : Nat) (r : List Byte) (e : Err) (h : loadValue buf slot load cf = .ok (r, some e)) :
    ∃ pid, load pid = .error e := by
  unfold loadValue at h
  split at h
  · simp only [bind_eq_ok, pure, Except.pure, Except.ok.injEq, Prod.mk.injEq] at h
    obtain ⟨v, -, -, h2⟩ := h
    exact absurd h2 (by simp)
  · exact readChain_err load _ _ _ _ _ h

/-- What `FindKey` does on a page whose slots are in non-decreasing key order. -/
theorem FindKey_spec (p : BLinkTreePage) (h : PageHeader) (key : Nat)
    (load : Nat → Except Err OverflowPage) (cf : Nat) (hh : pageHeader p = .ok h)
    (hlen : sizeofPageHeader + h.NumKeys * sizeofSlotEntry ≤ p.Buf.length)
    (hsorted : (slotKeys p.Buf h.NumKeys).Pairwise (· ≤ ·)) :
    (key ∉ slotKeys p.Buf h.NumKeys ∧
        FindKey p key load cf = .ok ([], some .ErrorKeyNotFound)) ∨
      ∃ j, j < h.NumKeys ∧ (slotOf p.Buf j).Key = key ∧
        FindKey p key load cf = loadValue p.Buf (slotOf p.Buf j) load cf := by
  have hh0 := hh
  unfold pageHeader at hh0
  simp only [bind_eq_ok, PageHeaderSize] at hh0
  obtain ⟨hb, hb1, hb2⟩ := hh0
  have hF : FindKey p key load cf =
      findLoop p.Buf key load cf (h.NumKeys + 1) 0 ((h.NumKeys : Int) - 1) := by
    unfold FindKey
    simp only [hb1, hb2, bind, Except.bind]
  rcases findLoop_spec p.Buf key load cf h.NumKeys hlen ((slotKeys_sorted_iff _ _).1 hsorted)
      (h.NumKeys + 1) 0 ((h.NumKeys : Int) - 1) (le_refl _) (by omega) (by omega)
      (by push_cast; omega) with ⟨hnone, hres⟩ | ⟨j, hj1, hj2, hjk, hres⟩
  · refine Or.inl ⟨?_, by rw [hF, hres]⟩
    intro hmem
    obtain ⟨j, hj, hjk⟩ := (mem_slotKeys _ _ _).1 hmem
    exact hnone j (by omega) (by omega) hjk
  · exact Or.inr ⟨j, by omega, hjk, by rw [hF, hres]⟩

/-- C11: on a page whose first `NumKeys` slots lie in the buffer and are in ascending (even
just non-decreasing) key order, with a loader that does not fail with `ErrorKeyNotFound`,
`FindKey` returns the not-found result exactly when none of those slots holds the key; for a
key that no slot holds the result is `(nil, ErrorKeyNotFound)`. -/
theorem C11_not_found_iff_absent (p : BLinkTreePage) (h : PageHeader) (key : Nat)
    (load : Nat → Except Err OverflowPage) (cf : Nat) (hh : pageHeader p = .ok h)
    (hlen : sizeofPageHeader + h.NumKeys * sizeofSlotEntry ≤ p.Buf.length)
    (hsorted : (slotKeys p.Buf h.NumKeys).Pairwise (· ≤ ·))
    (hload : ∀ id, load id ≠ .error .ErrorKeyNotFound) :
    ((∃ v, FindKey p key load cf = .ok (v, some .ErrorKeyNotFound)) ↔
        key ∉ slotKeys p.Buf h.NumKeys) ∧
      (key ∉ slotKeys p.Buf h.NumKeys →
        FindKey p key load cf = .ok ([], some .ErrorKeyNotFound)) := by
  rcases FindKey_spec p h key load cf hh hlen hsorted with ⟨hnot, hres⟩ | ⟨j, hj, hjk, hres⟩
  · exact ⟨⟨fun _ => hnot, fun _ => ⟨[], hres⟩⟩, fun _ => hres⟩
  · have hmem : key ∈ slotKeys p.Buf h.NumKeys := (mem_slotKeys _ _ _).2 ⟨j, hj, hjk⟩
    refine ⟨⟨fun hv => ?_, fun hnot => absurd hmem hnot⟩, fun hnot => absurd hmem hnot⟩
    obtain ⟨v, hv⟩ := hv
    rw [hres] at hv
    obtain ⟨pid, hpid⟩ := loadValue_err _ _ _ _ _ _ hv
    exact absurd hpid (hload pid)

set_option maxRecDepth 20000

theorem C11_not_found_iff_absent_witness :
    pageHeader pageWith35 = .ok (leafHeader 2 68 95) ∧
      ((∃ v, FindKey pageWith35 4 (loaderOf []) 0 = .ok (v, some .ErrorKeyNotFound)) ↔
          4 ∉ slotKeys pageWith35.Buf (leafHeader 2 68 95).NumKeys) ∧
      (4 ∉ slotKeys pageWith35.Buf (leafHeader 2 68 95).NumKeys →
        FindKey pageWith35 4 (loaderOf []) 0 = .ok ([], some .ErrorKeyNotFound)) :=
  ⟨by decide,
    C11_not_found_iff_absent pageWith35 (leafHeader 2 68 95) 4 (loaderOf []) 0 (by decide)
      (by decide) (by decide) (fun id => by simp [loaderOf])⟩

end storage
end PebbleSQL
namespace PebbleSQL
namespace storage

/-- The bytes that `WriteSlot` writes for the slot that `ReadSlot` read from a slice are the
bytes of that slice, whatever the field `Deleted` is set to: `WriteSlot` does not write it. -/
theorem WriteSlot_ReadSlot (s : List Byte) (slot : SlotEntry) (d : Bool)
    (hr : ReadSlot s = .ok slot) : WriteSlot s { slot with Deleted := d } = .ok s := by
  unfold ReadSlot at hr
  by_cases hlen : s.length < sizeofSlotEntry
  · simp [hlen] at hr
  · simp only [hlen, if_false, Except.ok.injEq] at hr
    subst hr
    unfold WriteSlot
    simp only [hlen, if_false, Except.ok.injEq]
    simp only [sizeofSlotEntry] at hlen
    rcases s with _ | ⟨b0, _ | ⟨b1, _ | ⟨b2, _ | ⟨b3, _ | ⟨b4, _ | ⟨b5, _ | ⟨b6, _ | ⟨b7,
      _ | ⟨b8, _ | ⟨b9, _ | ⟨b10, _ | ⟨b11, _ | ⟨b12, _ | ⟨b13, _ | ⟨b14, _ | ⟨b15,
      _ | ⟨b16, _ | ⟨b17, _ | ⟨b18, _ | ⟨b19, rest⟩⟩⟩⟩⟩⟩⟩⟩⟩⟩⟩⟩⟩⟩⟩⟩⟩⟩⟩⟩
    all_goals try (simp only [List.length_cons, List.length_nil] at hlen; omega)
    have h0 := b0.isLt
    have h1 := b1.isLt
    have h2 := b2.isLt
    have h3 := b3.isLt
    have h4 := b4.isLt
    have h5 := b5.isLt
    have h6 := b6.isLt
    have h7 := b7.isLt
    have h8 := b8.isLt
    have h9 := b9.isLt
    have h10 := b10.isLt
    have h11 := b11.isLt
    have h12 := b12.isLt
    have h13 := b13.isLt
    have h14 := b14.isLt
    have h15 := b15.isLt
    have h16 := b16.isLt
    have h17 := b17.isLt
    have h18 := b18.isLt
    have h19 := b19.isLt
    simp only [getUint64, getUint32, getUint16, putUint64, putUint32, putUint16, byteAt,
      List.getD_cons_zero, List.getD_cons_succ, List.cons_append, List.nil_append, List.drop_succ_cons,
      List.drop_zero, List.cons.injEq, and_true, toByte]
    refine ⟨?_, ?_, ?_, ?_, ?_, ?_, ?_, ?_, ?_, ?_, ?_, ?_, ?_, ?_, ?_, ?_, ?_, ?_, ?_, ?_⟩ <;>
      (apply Fin.ext; simp only; omega)

/-- Writing back the bytes just read from a part of a buffer leaves the buffer as it is. -/
theorem splice_self (buf : List Byte) (lo hi : Nat) (h1 : lo ≤ hi) (h2 : hi ≤ buf.length) :
    splice buf lo ((buf.take hi).drop lo) = buf := by
  unfold splice
  have hl : ((buf.take hi).drop lo).length = hi - lo := length_sub _ _ _ h2
  rw [hl, show lo + (hi - lo) = hi by omega]
  have e1 : buf.take lo = (buf.take hi).take lo := by
    rw [List.take_take, Nat.min_eq_left h1]
  rw [e1, List.take_append_drop, List.take_append_drop]

/-- The loop of `DeleteKey` on the slots `low` to `high`: it leaves the buffer as it is, and
it returns nil after it met a slot with the key, and `ErrorKeyNotFound` after it met none;
with the slots in non-decreasing key order it meets a slot with the key when there is one. -/
theorem deleteLoop_spec (buf : List Byte) (key : Nat) (m : Nat)
    (hlen : sizeofPageHeader + m * sizeofSlotEntry ≤ buf.length) :
    ∀ (fuel : Nat) (low high : Int), 0 ≤ low → high < (m : Int) → low ≤ high + 1 →
      high + 1 - low < (fuel : Int) →
      (deleteLoop buf key fuel low high = .ok (buf, some .ErrorKeyNotFound) ∧
          ((∀ i j, i < j → j < m → (slotOf buf i).Key ≤ (slotOf buf j).Key) →
            ∀ j : Nat, low ≤ (j : Int) → (j : Int) ≤ high → (slotOf buf j).Key ≠ key)) ∨
        (deleteLoop buf key fuel low high = .ok (buf, none) ∧
          ∃ j : Nat, low ≤ (j : Int) ∧ (j : Int) ≤ high ∧ (slotOf buf j).Key = key) := by
  intro fuel
  induction fuel with
  | zero => intro low high h0 h1 h2 h3; omega
  | succ fuel ih =>
    intro low high h0 h1 h2 h3
    by_cases hle : low ≤ high
    · have hmid0 : 0 ≤ (low + high) / 2 := by omega
      have hmidm : ((low + high) / 2).toNat < m := by omega
      have hin : sizeofPageHeader + (((low + high) / 2).toNat + 1) * sizeofSlotEntry
          ≤ buf.length := by
        simp only [sizeofPageHeader, sizeofSlotEntry] at hlen ⊢
        have : (((low + high) / 2).toNat + 1) * 24 ≤ m * 24 := Nat.mul_le_mul_right _ (by omega)
        omega
      have hr := readSlotAt_eq buf ((low + high) / 2).toNat hin
      simp only [deleteLoop, hle, if_true, hr, bind, Except.bind]
      by_cases heq : (slotOf buf ((low + high) / 2).toNat).Key = key
      · rw [if_pos heq]
        right
        refine ⟨?_, ((low + high) / 2).toNat, by omega, by omega, heq⟩
        simp only [sizeofPageHeader, sizeofSlotEntry] at hin ⊢
        have h24 : 20 + ((low + high) / 2).toNat * 24 + 24 ≤ buf.length := by omega
        have hrs : ReadSlot ((buf.take (20 + ((low + high) / 2).toNat * 24 + 24)).drop
            (20 + ((low + high) / 2).toNat * 24)) = .ok (slotOf buf ((low + high) / 2).toNat) := by
          have := hr
          simp only [readSlotAt, sizeofPageHeader, sizeofSlotEntry] at this
          rw [slice_ok (by omega) h24] at this
          exact this
        rw [slice_ok (by omega) h24]
        simp only [WriteSlot_ReadSlot _ _ true hrs, pure, Except.pure]
        rw [splice_self _ _ _ (by omega) h24]
      · simp only [heq, if_false]
        by_cases hlt : key < (slotOf buf ((low + high) / 2).toNat).Key
        · simp only [hlt, if_true]
          rcases ih low ((low + high) / 2 - 1) h0 (by omega) (by omega) (by omega) with
            ⟨hres, hnone⟩ | ⟨hres, j, hj1, hj2, hjk⟩
          · refine Or.inl ⟨hres, fun hsorted j hj1 hj2 => ?_⟩
            by_cases hjm : (j : Int) ≤ (low + high) / 2 - 1
            · exact hnone hsorted j hj1 hjm
            · have hjm2 : ((low + high) / 2).toNat ≤ j := by omega
              have hge : (slotOf buf ((low + high) / 2).toNat).Key ≤ (slotOf buf j).Key := by
                rcases Nat.eq_or_lt_of_le hjm2 with h | h
                · rw [h]
                · exact hsorted _ _ h (by omega)
              omega
          · exact Or.inr ⟨hres, j, hj1, by omega, hjk⟩
        · simp only [hlt, if_false]
          rcases ih ((low + high) / 2 + 1) high (by omega) h1 (by omega) (by omega) with
            ⟨hres, hnone⟩ | ⟨hres, j, hj1, hj2, hjk⟩
          · refine Or.inl ⟨hres, fun hsorted j hj1 hj2 => ?_⟩
            by_cases hjm : (low + high) / 2 + 1 ≤ (j : Int)
            · exact hnone hsorted j hjm hj2
            · have hjm2 : j ≤ ((low + high) / 2).toNat := by omega
              have hge : (slotOf buf j).Key ≤ (slotOf buf ((low + high) / 2).toNat).Key := by
                rcases Nat.eq_or_lt_of_le hjm2 with h | h
                · rw [h]
                · exact hsorted _ _ h hmidm
              have hne : (slotOf buf ((low + high) / 2).toNat).Key ≠ key := heq
              omega
          · exact Or.inr ⟨hres, j, by omega, hj2, hjk⟩
    · refine Or.inl ⟨?_, fun _ j hj1 hj2 => by omega⟩
      simp only [deleteLoop, hle, if_false]

/-- C18: on a page whose first `NumKeys` slots lie in the buffer, `DeleteKey(key)` returns
and leaves the buffer byte for byte as it was (the slot it writes back is the slot it read;
the tombstone flag is not among the bytes `WriteSlot` writes), so that `FindKey` gives after
it what it gave before; it returns nil or `ErrorKeyNotFound`, nil only when a slot holds the
key, and, with the slots in non-decreasing key order, nil exactly when a slot holds the
key. -/
theorem C18_delete_leaves_page_unchanged (p : BLinkTreePage) (h : PageHeader) (key : Nat)
    (hh : pageHeader p = .ok h)
    (hlen : sizeofPageHeader + h.NumKeys * sizeofSlotEntry ≤ p.Buf.length) :
    ∃ p1 err, DeleteKey p key = .ok (p1, err) ∧ p1.Buf = p.Buf ∧
      (∀ (k : Nat) (load : Nat → Except Err OverflowPage) (cf : Nat),
        FindKey p1 k load cf = FindKey p k load cf) ∧
      (err = none ∨ err = some .ErrorKeyNotFound) ∧
      (err = none → key ∈ slotKeys p.Buf h.NumKeys) ∧
      ((slotKeys p.Buf h.NumKeys).Pairwise (· ≤ ·) →
        (err = none ↔ key ∈ slotKeys p.Buf h.NumKeys)) := by
  have hh0 := hh
  unfold pageHeader at hh0
  simp only [bind_eq_ok, PageHeaderSize] at hh0
  obtain ⟨hb, hb1, hb2⟩ := hh0
  have hD : ∀ r, deleteLoop p.Buf key (h.NumKeys + 1) 0 ((h.NumKeys : Int) - 1) = .ok r →
      DeleteKey p key = .ok ({ Buf := r.1 }, r.2) := by
    intro r hr
    unfold DeleteKey
    simp only [hb1, hb2, hr, bind, Except.bind, pure, Except.pure]
  rcases deleteLoop_spec p.Buf key h.NumKeys hlen (h.NumKeys + 1) 0 ((h.NumKeys : Int) - 1)
      (le_refl _) (by omega) (by omega) (by push_cast; omega) with
    ⟨hres, hnone⟩ | ⟨hres, j, hj1, hj2, hjk⟩
  · refine ⟨p, some .ErrorKeyNotFound, hD _ hres, rfl, fun _ _ _ => rfl, Or.inr rfl,
      fun he => absurd he (by simp), fun hsorted => ⟨fun he => absurd he (by simp), fun hmem => ?_⟩⟩
    obtain ⟨j, hj, hjk⟩ := (mem_slotKeys _ _ _).1 hmem
    exact absurd hjk (hnone ((slotKeys_sorted_iff _ _).1 hsorted) j (by omega) (by omega))
  · have hmem : key ∈ slotKeys p.Buf h.NumKeys := (mem_slotKeys _ _ _).2 ⟨j, by omega, hjk⟩
    exact ⟨p, none, hD _ hres, rfl, fun _ _ _ => rfl, Or.inl rfl, fun _ => hmem,
      fun _ => ⟨fun _ => hmem, fun _ => rfl⟩⟩

set_option maxRecDepth 20000

theorem C18_delete_leaves_page_unchanged_witness :
    pageHeader pageWith35 = .ok (leafHeader 2 68 95) ∧
      DeleteKey pageWith35 5 = .ok (pageWith35, none) ∧
      ∃ p1 err, DeleteKey pageWith35 5 = .ok (p1, err) ∧ p1.Buf = pageWith35.Buf ∧
        (∀ (k : Nat) (load : Nat → Except Err OverflowPage) (cf : Nat),
          FindKey p1 k load cf = FindKey pageWith35 k load cf) ∧
        (err = none ∨ err = some .ErrorKeyNotFound) ∧
        (err = none → 5 ∈ slotKeys pageWith35.Buf (leafHeader 2 68 95).NumKeys) ∧
        ((slotKeys pageWith35.Buf (leafHeader 2 68 95).NumKeys).Pairwise (· ≤ ·) →
          (err = none ↔ 5 ∈ slotKeys pageWith35.Buf (leafHeader 2 68 95).NumKeys)) :=
  ⟨by decide, by decide,
    C18_delete_leaves_page_unchanged pageWith35 (leafHeader 2 68 95) 5 (by decide) (by decide)⟩

end storage
end PebbleSQL
namespace PebbleSQL
namespace storage

/-- The headers of an overflow chain that holds `data`: page `i` points to page `i + 1` (or
has next-id 0 when it is the last), and its data length is `OverflowDataSize`, or what is
left of the data behind `i` full pages when that is less; the data lengths add up to the
length of the data. -/
theorem chainHolds_headers : ∀ (pages : List (Nat × OverflowPage)) (data : List Byte),
    ChainHolds pages data →
    ∃ hdrs : List OverflowPageHeader,
      pages.map (fun q => ReadOverflowHeader q.2.Buf) = hdrs.map Except.ok ∧
      (∀ (i : Nat) (hd : OverflowPageHeader), hdrs[i]? = some hd →
        hd.NextOverflowPageID = ((pages[i + 1]?).map Prod.fst).getD 0 ∧
        hd.DataLength = min (data.length - OverflowDataSize * i) OverflowDataSize ∧
        OverflowDataSize * i < data.length) ∧
      (hdrs.map (fun hd => hd.DataLength)).sum = data.length := by
  intro pages
  induction pages with
  | nil =>
    intro data hch
    simp only [ChainHolds] at hch
    subst hch
    exact ⟨[], rfl, fun i hd h => by simp at h, rfl⟩
  | cons q rest ih =>
    intro data hch
    obtain ⟨id, pg⟩ := q
    simp only [ChainHolds] at hch
    obtain ⟨hdr, hread, hnext, hpos, hle, hmin, -, hrest⟩ := hch
    obtain ⟨hdrs, hmap, hidx, hsum⟩ := ih _ hrest
    refine ⟨hdr :: hdrs, ?_, ?_, ?_⟩
    · simp only [List.map_cons, hread, hmap]
    · intro i hd hi
      cases i with
      | zero =>
        simp only [List.getElem?_cons_zero, Option.some.injEq] at hi
        subst hi
        refine ⟨?_, ?_, ?_⟩
        · rw [hnext]
          cases rest <;> simp
        · simpa using hmin
        · simp only [Nat.mul_zero]; omega
      | succ i =>
        simp only [List.getElem?_cons_succ] at hi
        obtain ⟨h1, h2, h3⟩ := hidx i hd hi
        rw [List.length_drop] at h2 h3
        simp only [OverflowDataSize, PageSize, OverflowHeaderSize] at h2 h3 hmin ⊢
        have hfull : hdr.DataLength = 4090 := by omega
        refine ⟨?_, ?_, ?_⟩
        · simpa using h1
        · omega
        · omega
    · simp only [List.map_cons, List.sum_cons, hsum, List.length_drop]
      omega

/-- The branch of `InsertKeyValue` for a value that does not go into the page (it is empty,
longer than the inline threshold, or does not fit with its slot between free-space-start and
free-space-end): the page stays as it is and the value goes through the overflow loop. -/
theorem placeValue_overflow {σ : Type} (buf : List Byte) (h : PageHeader) (slot : SlotEntry)
    (value : List Byte) (alloc : σ → (OverflowPage × Nat) × σ) (a : σ)
    (hoe : h.FreeSpaceOffset ≤ h.FreeSpaceEnd) (he : h.FreeSpaceEnd < 2 ^ 16)
    (hover : ¬ (0 < value.length ∧ value.length ≤ InlineThreshold ∧
      h.FreeSpaceOffset + (sizeofSlotEntry + value.length) ≤ h.FreeSpaceEnd)) :
    placeValue buf h slot value alloc a =
      (overflowLoop alloc value.length value.length value
          { firstOverFlowPageID := 0, done := [], last := none, alloc := a } >>= fun st =>
        pure (buf, { slot with OverflowPageID := st.firstOverFlowPageID }, h, st)) := by
  unfold placeValue
  have hcond : (decide ((h.FreeSpaceEnd + 2 ^ 16 - h.FreeSpaceOffset) % 2 ^ 16 ≥
        (sizeofSlotEntry % 2 ^ 16 + value.length % 2 ^ 16) % 2 ^ 16) &&
      decide (value.length ≤ InlineThreshold) && decide (value.length % 2 ^ 16 > 0)) = false := by
    simp only [InlineThreshold, PageSize, sizeofSlotEntry] at hover ⊢
    by_cases h1 : value.length ≤ 4096 / 4
    · have hv : value.length % 2 ^ 16 = value.length := Nat.mod_eq_of_lt (by omega)
      simp only [hv]
      by_cases h0 : 0 < value.length
      · have hfs : (h.FreeSpaceEnd + 2 ^ 16 - h.FreeSpaceOffset) % 2 ^ 16
            = h.FreeSpaceEnd - h.FreeSpaceOffset := by omega
        have hns : (24 % 2 ^ 16 + value.length) % 2 ^ 16 = 24 + value.length := by omega
        simp only [hfs, hns]
        have : ¬ (h.FreeSpaceEnd - h.FreeSpaceOffset ≥ 24 + value.length) := by omega
        simp [this]
      · have : ¬ (value.length > 0) := h0
        simp [this]
    · simp [h1]
  simp only [hcond, Bool.false_eq_true, if_false]

/-- C12: a value of length `L` that `InsertKeyValue` stores through the overflow path (it is
longer than the inline threshold, or does not fit with its slot into the free space, or is
empty), on a page with room for one more slot and with an allocator that hands out pages of
`PageSize` bytes under 32-bit ids, takes exactly `k = ceil(L / 4090)` overflow pages, the ones
the allocator returned, in that order.  Each page but the last has data length 4090 and as
next-id the id of the page allocated right after it; the last page has next-id 0 and data
length `L - 4090 * (k - 1)`; the data lengths add up to `L`; and the slot written for the key
records the id of the first page (0 when there is none). -/
theorem C12_overflow_chain_shape {σ : Type} (p : BLinkTreePage) (h : PageHeader) (key : Nat)
    (value : List Byte) (alloc : σ → (OverflowPage × Nat) × σ) (a : σ)
    (hh : pageHeader p = .ok h) (hkey : key < 2 ^ 64)
    (hroom : sizeofPageHeader + (h.NumKeys + 1) * sizeofSlotEntry ≤ p.Buf.length)
    (hn : h.NumKeys + 1 < 2 ^ 16)
    (hoe : h.FreeSpaceOffset ≤ h.FreeSpaceEnd)
    (hover : ¬ (0 < value.length ∧ value.length ≤ InlineThreshold ∧
      h.FreeSpaceOffset + (sizeofSlotEntry + value.length) ≤ h.FreeSpaceEnd))
    (hbuf : ∀ s, PageSize ≤ (alloc s).1.1.Buf.length)
    (hids : ∀ id ∈ allocIds alloc (chunkCount value.length) a, id < 2 ^ 32) :
    ∃ (out : InsertOutcome σ) (hdrs : List OverflowPageHeader) (pos : Nat),
      InsertKeyValue p key value alloc a = .ok out ∧ out.err = none ∧
      chunkCount value.length = (value.length + 4089) / 4090 ∧
      out.overflow.length = chunkCount value.length ∧
      out.overflow.map Prod.fst = allocIds alloc (chunkCount value.length) a ∧
      out.overflow.map (fun q => ReadOverflowHeader q.2.Buf) = hdrs.map Except.ok ∧
      (∀ i, i + 1 < chunkCount value.length →
        ∃ nid, (allocIds alloc (chunkCount value.length) a)[i + 1]? = some nid ∧
          hdrs[i]? = some { NextOverflowPageID := nid, DataLength := 4090 }) ∧
      (0 < chunkCount value.length →
        hdrs[chunkCount value.length - 1]? =
          some { NextOverflowPageID := 0,
                 DataLength := value.length - 4090 * (chunkCount value.length - 1) }) ∧
      (hdrs.map (fun hd => hd.DataLength)).sum = value.length ∧
      pos ≤ h.NumKeys ∧
      slotOf out.page.Buf pos =
        { Key := key, ValueOffset := 0, ValueLength := 0,
          OverflowPageID := ((allocIds alloc (chunkCount value.length) a).head?).getD 0,
          ChildPageID := 0, Deleted := false } := by
  obtain ⟨hl20, hm, hv, -, ho, he, hr⟩ := pageHeader_range p h hh
  have hh0 := hh
  unfold pageHeader at hh0
  simp only [bind_eq_ok] at hh0
  obtain ⟨hb, hb1, hb2⟩ := hh0
  obtain ⟨st1, hloop, hres⟩ := overflowLoop_spec alloc hbuf value.length value
    { firstOverFlowPageID := 0, done := [], last := none, alloc := a } (le_refl _)
    (by intro q hq; simp at hq) hids
  -- the pages of the chain and the id that the slot gets
  have hpages : ∃ pages, ChainHolds pages value ∧
      pages.map Prod.fst = allocIds alloc (chunkCount value.length) a ∧
      st1.done ++ st1.last.toList = pages ∧
      st1.firstOverFlowPageID = ((allocIds alloc (chunkCount value.length) a).head?).getD 0 := by
    rcases hres with ⟨hnil, hst⟩ | ⟨hne, pages, hchain, hpids, hlist, hfirst⟩
    · subst hst
      refine ⟨[], ?_, ?_, rfl, ?_⟩
      · simp only [ChainHolds]; exact hnil
      · rw [hnil]; rfl
      · rw [hnil]; rfl
    · simp only [List.nil_append, Option.map_none', Option.toList_none] at hlist hfirst
      refine ⟨pages, hchain, hpids, hlist, ?_⟩
      rw [hfirst]
      have hpos1 : 0 < chunkCount value.length := by
        have : 0 < value.length := List.length_pos.2 hne
        simp only [chunkCount, OverflowDataSize, PageSize, OverflowHeaderSize]
        omega
      obtain ⟨k, hk⟩ := Nat.exists_eq_succ_of_ne_zero (Nat.pos_iff_ne_zero.1 hpos1)
      rw [hk]
      rfl
  obtain ⟨pages, hchain, hpids, hlist, hfirst⟩ := hpages
  have hplen : pages.length = chunkCount value.length := by
    rw [← List.length_map, hpids, allocIds_length]
  have hfirst32 : st1.firstOverFlowPageID < 2 ^ 32 := by
    rw [hfirst]
    cases hc : (allocIds alloc (chunkCount value.length) a) with
    | nil => simp
    | cons x xs =>
      simp only [List.head?_cons, Option.getD_some]
      exact hids x (by rw [hc]; exact List.mem_cons_self _ _)
  have hplace : placeValue p.Buf h
      { Key := key, ValueOffset := 0, ValueLength := 0, OverflowPageID := 0, ChildPageID := 0,
        Deleted := false } value alloc a =
      .ok (p.Buf, { Key := key, ValueOffset := 0, ValueLength := 0,
                    OverflowPageID := st1.firstOverFlowPageID, ChildPageID := 0, Deleted := false },
           h, st1) := by
    rw [placeValue_overflow p.Buf h _ value alloc a hoe he hover, hloop]
    rfl
  obtain ⟨buf4, pos, hins, -, hpos, -, -, -, hat, -, -, -⟩ :=
    insertSlot_spec p.Buf h
      { Key := key, ValueOffset := 0, ValueLength := 0,
        OverflowPageID := st1.firstOverFlowPageID, ChildPageID := 0, Deleted := false } key
      hroom hm hv hn he hr
  rw [normSlot_eq _ hkey (by norm_num) (by norm_num) hfirst32 (by norm_num)] at hat
  obtain ⟨hdrs, hmap, hidx, hsum⟩ := chainHolds_headers pages value hchain
  have hhlen : hdrs.length = chunkCount value.length := by
    have := congrArg List.length hmap
    simp only [List.length_map] at this
    rw [← this, hplen]
  have hcc : chunkCount value.length = (value.length + 4089) / 4090 := by
    simp only [chunkCount, OverflowDataSize, PageSize, OverflowHeaderSize]
    omega
  refine ⟨{ page := { Buf := buf4 }, overflow := st1.done ++ st1.last.toList, alloc := st1.alloc,
            err := none }, hdrs, pos, ?_, rfl, hcc, ?_, ?_, ?_, ?_, ?_, hsum, hpos, ?_⟩
  · unfold InsertKeyValue
    simp only [hb1, hb2, bind, Except.bind, hplace, hins, pure, Except.pure]
  · simp only [hlist, hplen]
  · simp only [hlist, hpids]
  · simp only [hlist, hmap]
  · intro i hi
    have hi1 : i < hdrs.length := by omega
    have hi2 : i + 1 < (allocIds alloc (chunkCount value.length) a).length := by
      rw [allocIds_length]; exact hi
    obtain ⟨hnext, hlen, hlt⟩ := hidx i hdrs[i] (List.getElem?_eq_getElem hi1)
    refine ⟨(allocIds alloc (chunkCount value.length) a)[i + 1], List.getElem?_eq_getElem hi2, ?_⟩
    rw [List.getElem?_eq_getElem hi1]
    have e1 : hdrs[i].NextOverflowPageID = (allocIds alloc (chunkCount value.length) a)[i + 1] := by
      rw [hnext, ← List.getElem?_map, hpids, List.getElem?_eq_getElem hi2]
      rfl
    have e2 : hdrs[i].DataLength = 4090 := by
      simp only [OverflowDataSize, PageSize, OverflowHeaderSize] at hlen hlt
      omega
    rw [← e1, ← e2]
  · intro hk
    have hi1 : chunkCount value.length - 1 < hdrs.length := by omega
    obtain ⟨hnext, hlen, hlt⟩ := hidx _ hdrs[chunkCount value.length - 1]
      (List.getElem?_eq_getElem hi1)
    rw [List.getElem?_eq_getElem hi1]
    have e1 : hdrs[chunkCount value.length - 1].NextOverflowPageID = 0 := by
      rw [hnext, List.getElem?_eq_none (by omega)]
      rfl
    have e2 : hdrs[chunkCount value.length - 1].DataLength =
        value.length - 4090 * (chunkCount value.length - 1) := by
      simp only [OverflowDataSize, PageSize, OverflowHeaderSize] at hlen hlt
      omega
    rw [← e1, ← e2]
  · show slotOf buf4 pos = _
    rw [hat, hfirst]

theorem chunkCount_8179 : chunkCount (List.replicate 8179 (7 : Byte)).length = 2 := by
  rw [List.length_replicate]
  decide

theorem C12_overflow_chain_shape_witness :
    pageHeader page4096 = .ok (leafHeader 0 20 4096) ∧
      ∃ (out : InsertOutcome PebbleSQLDiskManager) (pos : Nat),
        InsertKeyValue page4096 9 (List.replicate 8179 7) AllocateOverflowPage (store 1)
          = .ok out ∧
        out.err = none ∧ out.overflow.map Prod.fst = [1, 2] ∧
        out.overflow.map (fun q => ReadOverflowHeader q.2.Buf) =
          [.ok { NextOverflowPageID := 2, DataLength := 4090 },
           .ok { NextOverflowPageID := 0, DataLength := 4089 }] ∧
        slotOf out.page.Buf pos =
          { Key := 9, ValueOffset := 0, ValueLength := 0, OverflowPageID := 1, ChildPageID := 0,
            Deleted := false } := by
  have hids : allocIds AllocateOverflowPage (chunkCount (List.replicate 8179 (7 : Byte)).length)
      (store 1) = [1, 2] := by
    rw [chunkCount_8179]
    exact allocIds_store 1 (by norm_num)
  obtain ⟨out, hdrs, pos, h1, h2, -, h4, h5, h6, h7, h8, -, -, h11⟩ :=
    C12_overflow_chain_shape page4096 (leafHeader 0 20 4096) 9 (List.replicate 8179 7)
      AllocateOverflowPage (store 1) header_page4096 (by norm_num)
      (by rw [length_page4096]; decide) (by decide) (by decide)
      (by rw [List.length_replicate]; decide) length_allocated (by rw [hids]; decide)
  rw [hids] at h5 h11
  have hlen : hdrs.length = 2 := by
    have := congrArg List.length h6
    simp only [List.length_map] at this
    rw [← this, h4, chunkCount_8179]
  obtain ⟨nid, hn1, hn2⟩ := h7 0 (by rw [chunkCount_8179]; decide)
  rw [hids] at hn1
  simp only [List.getElem?_cons_succ, List.getElem?_cons_zero, Option.some.injEq] at hn1
  subst hn1
  have hlast := h8 (by rw [chunkCount_8179]; decide)
  rw [chunkCount_8179, List.length_replicate] at hlast
  rcases hdrs with _ | ⟨x, _ | ⟨y, _ | ⟨z, t⟩⟩⟩
  · simp at hlen
  · simp at hlen
  · simp only [List.getElem?_cons_zero, Option.some.injEq] at hn2
    simp only [List.getElem?_cons_succ, List.getElem?_cons_zero, Option.some.injEq] at hlast
    subst hn2 hlast
    exact ⟨header_page4096, out, pos, h1, h2, h5, h6, h11⟩
  · simp at hlen

end storage
end PebbleSQL
namespace PebbleSQL
namespace storage

/-- What the overflow loop of `InsertKeyValue` builds for a value, with an allocator that
hands out pages of `PageSize` bytes under 32-bit ids: a chain of the allocated pages that
holds the value; the first id (0 when the value is empty) goes into the slot. -/
theorem overflowLoop_pages {σ : Type} (alloc : σ → (OverflowPage × Nat) × σ) (a : σ)
    (value : List Byte) (hbuf : ∀ s, PageSize ≤ (alloc s).1.1.Buf.length)
    (hids : ∀ id ∈ allocIds alloc (chunkCount value.length) a, id < 2 ^ 32) :
    ∃ st1, overflowLoop alloc value.length value.length value
        { firstOverFlowPageID := 0, done := [], last := none, alloc := a } = .ok st1 ∧
      ChainHolds (st1.done ++ st1.last.toList) value ∧
      (st1.done ++ st1.last.toList).map Prod.fst = allocIds alloc (chunkCount value.length) a ∧
      st1.firstOverFlowPageID = ((allocIds alloc (chunkCount value.length) a).head?).getD 0 ∧
      st1.firstOverFlowPageID < 2 ^ 32 ∧
      (value = [] → st1.done ++ st1.last.toList = [] ∧ st1.alloc = a) := by
  obtain ⟨st1, hloop, hres⟩ := overflowLoop_spec alloc hbuf value.length value
    { firstOverFlowPageID := 0, done := [], last := none, alloc := a } (le_refl _)
    (by intro q hq; simp at hq) hids
  have hfirst32 : ∀ x, x = ((allocIds alloc (chunkCount value.length) a).head?).getD 0 →
      x < 2 ^ 32 := by
    intro x hx
    rw [hx]
    cases hc : (allocIds alloc (chunkCount value.length) a) with
    | nil => simp
    | cons y ys =>
      simp only [List.head?_cons, Option.getD_some]
      exact hids y (by rw [hc]; exact List.mem_cons_self _ _)
  rcases hres with ⟨hnil, hst⟩ | ⟨hne, pages, hchain, hpids, hlist, hfirst⟩
  · subst hst
    have e : ((allocIds alloc (chunkCount value.length) a).head?).getD 0 = 0 := by
      rw [hnil]; rfl
    refine ⟨_, hloop, ?_, ?_, e.symm, by show (0 : Nat) < 2 ^ 32; norm_num, fun _ => ⟨rfl, rfl⟩⟩
    · simp only [ChainHolds, List.nil_append, Option.toList_none]; exact hnil
    · rw [hnil]; rfl
  · simp only [List.nil_append, Option.map_none', Option.toList_none] at hlist hfirst
    have e : st1.firstOverFlowPageID =
        ((allocIds alloc (chunkCount value.length) a).head?).getD 0 := by
      rw [hfirst]
      have hpos1 : 0 < chunkCount value.length := by
        have : 0 < value.length := List.length_pos.2 hne
        simp only [chunkCount, OverflowDataSize, PageSize, OverflowHeaderSize]
        omega
      obtain ⟨k, hk⟩ := Nat.exists_eq_succ_of_ne_zero (Nat.pos_iff_ne_zero.1 hpos1)
      rw [hk]
      rfl
    exact ⟨st1, hloop, by rw [hlist]; exact hchain, by rw [hlist]; exact hpids, e,
      hfirst32 _ e, fun h0 => absurd h0 hne⟩

/-- What `InsertKeyValue` does on a page whose header is consistent with its slot array and
whose buffer has room for one more slot.  The value goes to the tail of the free space when
it is not empty, is no longer than the inline threshold and fits with its 24-byte slot, and
to overflow pages otherwise; the slot goes before the first slot with a greater key, the
slots from there on move up by one, and the header gets the new key count and the new
free-space-start. -/
theorem InsertKeyValue_spec {σ : Type} (p : BLinkTreePage) (h : PageHeader) (key : Nat)
    (value : List Byte) (alloc : σ → (OverflowPage × Nat) × σ) (a : σ)
    (hh : pageHeader p = .ok h) (hkey : key < 2 ^ 64)
    (hslots : sizeofPageHeader + h.NumKeys * sizeofSlotEntry ≤ h.FreeSpaceOffset)
    (hoe : h.FreeSpaceOffset ≤ h.FreeSpaceEnd) (hend : h.FreeSpaceEnd ≤ p.Buf.length)
    (hroom : sizeofPageHeader + (h.NumKeys + 1) * sizeofSlotEntry ≤ p.Buf.length)
    (hbuf : ∀ s, PageSize ≤ (alloc s).1.1.Buf.length)
    (hids : ∀ id ∈ allocIds alloc (chunkCount value.length) a, id < 2 ^ 32) :
    ∃ (out : InsertOutcome σ) (pos : Nat) (slot1 : SlotEntry) (fin : Nat),
      InsertKeyValue p key value alloc a = .ok out ∧ out.err = none ∧
      out.page.Buf.length = p.Buf.length ∧
      pageHeader out.page = .ok { h with NumKeys := h.NumKeys + 1,
                                         FreeSpaceOffset := (h.FreeSpaceOffset + 24) % 2 ^ 16,
                                         FreeSpaceEnd := fin } ∧
      pos ≤ h.NumKeys ∧
      (∀ j, j < pos → (slotOf p.Buf j).Key ≤ key) ∧
      (pos < h.NumKeys → key < (slotOf p.Buf pos).Key) ∧
      (∀ j, j < pos → slotOf out.page.Buf j = slotOf p.Buf j) ∧
      slotOf out.page.Buf pos = slot1 ∧
      (∀ j, pos ≤ j → j < h.NumKeys → slotOf out.page.Buf (j + 1) = slotOf p.Buf j) ∧
      (∀ lo hi, sizeofPageHeader + (h.NumKeys + 1) * sizeofSlotEntry ≤ lo →
        (hi ≤ fin ∨ h.FreeSpaceEnd ≤ lo) → slice out.page.Buf lo hi = slice p.Buf lo hi) ∧
      (((0 < value.length ∧ value.length ≤ InlineThreshold ∧
            h.FreeSpaceOffset + (sizeofSlotEntry + value.length) ≤ h.FreeSpaceEnd) ∧
          fin = h.FreeSpaceEnd - value.length ∧
          slot1 = { Key := key, ValueOffset := h.FreeSpaceEnd - value.length,
                    ValueLength := value.length, OverflowPageID := 0, ChildPageID := 0,
                    Deleted := false } ∧
          out.overflow = [] ∧ out.alloc = a ∧
          slice out.page.Buf (h.FreeSpaceEnd - value.length) h.FreeSpaceEnd = .ok value) ∨
        (¬ (0 < value.length ∧ value.length ≤ InlineThreshold ∧
            h.FreeSpaceOffset + (sizeofSlotEntry + value.length) ≤ h.FreeSpaceEnd) ∧
          fin = h.FreeSpaceEnd ∧
          slot1 = { Key := key, ValueOffset := 0, ValueLength := 0,
                    OverflowPageID :=
                      ((allocIds alloc (chunkCount value.length) a).head?).getD 0,
                    ChildPageID := 0, Deleted := false } ∧
          ChainHolds out.overflow value ∧
          out.overflow.map Prod.fst = allocIds alloc (chunkCount value.length) a ∧
          (value = [] → out.overflow = [] ∧ out.alloc = a))) := by
  obtain ⟨hl20, hm, hv, -, ho, he, hr⟩ := pageHeader_range p h hh
  have hh0 := hh
  unfold pageHeader at hh0
  simp only [bind_eq_ok] at hh0
  obtain ⟨hb, hb1, hb2⟩ := hh0
  by_cases hc : 0 < value.length ∧ value.length ≤ InlineThreshold ∧
      h.FreeSpaceOffset + (sizeofSlotEntry + value.length) ≤ h.FreeSpaceEnd
  · -- the value goes into the page
    obtain ⟨hpos0, hinl, hfree⟩ := hc
    have hplace := placeValue_inline p.Buf h
      { Key := key, ValueOffset := 0, ValueLength := 0, OverflowPageID := 0, ChildPageID := 0,
        Deleted := false } value alloc a hpos0 hinl hfree he hend
    simp only [sizeofPageHeader, sizeofSlotEntry, InlineThreshold, PageSize] at hslots hfree hinl hroom
    have hfit : h.FreeSpaceEnd - value.length + value.length ≤ p.Buf.length := by omega
    have hlen1 : (splice p.Buf (h.FreeSpaceEnd - value.length) value).length = p.Buf.length :=
      length_splice _ _ _ hfit
    have hsl : ∀ j, j < h.NumKeys →
        slotOf (splice p.Buf (h.FreeSpaceEnd - value.length) value) j = slotOf p.Buf j :=
      fun j hj => slotOf_splice _ _ _ _ hfit (by
        simp only [sizeofPageHeader, sizeofSlotEntry]
        have : (j + 1) * 24 ≤ h.NumKeys * 24 := Nat.mul_le_mul_right _ hj
        omega)
    obtain ⟨buf4, pos, hins, hlen4, hpos, hbefore, hafter, hsame, hat, hshift, hframe, hhdr⟩ :=
      insertSlot_spec (splice p.Buf (h.FreeSpaceEnd - value.length) value)
        { h with FreeSpaceEnd := h.FreeSpaceEnd - value.length }
        { Key := key, ValueOffset := h.FreeSpaceEnd - value.length, ValueLength := value.length,
          OverflowPageID := 0, ChildPageID := 0, Deleted := false } key
        (by rw [hlen1]; simp only [sizeofPageHeader, sizeofSlotEntry]; exact hroom) hm hv
        (show h.NumKeys + 1 < 2 ^ 16 by omega)
        (show h.FreeSpaceEnd - value.length < 2 ^ 16 by omega) hr
    rw [normSlot_eq _ hkey (show h.FreeSpaceEnd - value.length < 2 ^ 16 by omega)
      (show value.length < 2 ^ 16 by omega) (by norm_num) (by norm_num)] at hat
    have hpos1 : pos ≤ h.NumKeys := hpos
    refine ⟨{ page := { Buf := buf4 }, overflow := [], alloc := a, err := none }, pos, _,
      h.FreeSpaceEnd - value.length, ?_, rfl, ?_, hhdr, hpos, ?_, ?_, ?_, hat, ?_, ?_, ?_⟩
    · unfold InsertKeyValue
      simp only [hb1, hb2, bind, Except.bind, hplace, hins, pure, Except.pure]
      rfl
    · show buf4.length = p.Buf.length
      rw [hlen4, hlen1]
    · intro j hj
      rw [← hsl j (Nat.lt_of_lt_of_le hj hpos1)]
      exact hbefore j hj
    · intro hj
      rw [← hsl pos hj]
      exact hafter hj
    · intro j hj
      show slotOf buf4 j = slotOf p.Buf j
      rw [hsame j hj, hsl j (Nat.lt_of_lt_of_le hj hpos1)]
    · intro j hj1 hj2
      show slotOf buf4 (j + 1) = slotOf p.Buf j
      rw [hshift j hj1 hj2, hsl j hj2]
    · intro lo hi hlo hhi
      show slice buf4 lo hi = slice p.Buf lo hi
      rw [hframe lo hi hlo]
      exact slice_splice_disjoint _ _ _ _ _ hfit (by
        rcases hhi with h1 | h1
        · exact Or.inl h1
        · exact Or.inr (by omega))
    · refine Or.inl ⟨⟨hpos0, by simp only [InlineThreshold, PageSize]; exact hinl,
        by simp only [sizeofSlotEntry]; exact hfree⟩, rfl, rfl, rfl, rfl, ?_⟩
      show slice buf4 (h.FreeSpaceEnd - value.length) h.FreeSpaceEnd = .ok value
      rw [hframe _ _ (by simp only [sizeofPageHeader, sizeofSlotEntry]; omega)]
      have := slice_splice_same p.Buf value (h.FreeSpaceEnd - value.length) hfit
      rw [Nat.sub_add_cancel (by omega)] at this
      exact this
  · -- the value goes to overflow pages
    obtain ⟨st1, hloop, hchain, hpids, hfirst, hfirst32, hempty⟩ :=
      overflowLoop_pages alloc a value hbuf hids
    have hplace : placeValue p.Buf h
        { Key := key, ValueOffset := 0, ValueLength := 0, OverflowPageID := 0, ChildPageID := 0,
          Deleted := false } value alloc a =
        .ok (p.Buf, { Key := key, ValueOffset := 0, ValueLength := 0,
                      OverflowPageID := st1.firstOverFlowPageID, ChildPageID := 0,
                      Deleted := false }, h, st1) := by
      rw [placeValue_overflow p.Buf h _ value alloc a hoe he hc, hloop]
      rfl
    have hn : h.NumKeys + 1 < 2 ^ 16 := by
      simp only [sizeofPageHeader, sizeofSlotEntry] at hslots
      omega
    obtain ⟨buf4, pos, hins, hlen4, hpos, hbefore, hafter, hsame, hat, hshift, hframe, hhdr⟩ :=
      insertSlot_spec p.Buf h
        { Key := key, ValueOffset := 0, ValueLength := 0,
          OverflowPageID := st1.firstOverFlowPageID, ChildPageID := 0, Deleted := false } key
        hroom hm hv hn he hr
    rw [normSlot_eq _ hkey (by norm_num) (by norm_num) hfirst32 (by norm_num)] at hat
    refine ⟨{ page := { Buf := buf4 }, overflow := st1.done ++ st1.last.toList,
              alloc := st1.alloc, err := none }, pos, _, h.FreeSpaceEnd, ?_, rfl, hlen4, hhdr,
      hpos, hbefore, hafter, hsame, hat, hshift, fun lo hi hlo _ => hframe lo hi hlo, ?_⟩
    · unfold InsertKeyValue
      simp only [hb1, hb2, bind, Except.bind, hplace, hins, pure, Except.pure]
    · refine Or.inr ⟨hc, rfl, ?_, hchain, hpids, fun h0 => ?_⟩
      · rw [hfirst]
      · exact hempty h0

end storage
end PebbleSQL
namespace PebbleSQL
namespace storage

/-- C20 (as amended): on a page whose header is consistent with its slot array
(`20 + 24*NumKeys ≤ FreeSpaceOffset ≤ FreeSpaceEnd ≤ len(Buf)`), whose first `NumKeys` slots
are in non-decreasing key order and whose buffer has room for one more slot,
`InsertKeyValue(key, value)` (with an allocator of page-size pages under 32-bit ids) returns
and leaves a header with key count `NumKeys + 1` and slots in non-decreasing key order: the
slots before the first slot whose old key is greater than `key` are as they were, then comes
a slot with the key `key`, then the other old slots, each as it was. -/
theorem C20_sorted_slot_insertion {σ : Type} (p : BLinkTreePage) (h : PageHeader) (key : Nat)
    (value : List Byte) (alloc : σ → (OverflowPage × Nat) × σ) (a : σ)
    (hh : pageHeader p = .ok h) (hkey : key < 2 ^ 64)
    (hslots : sizeofPageHeader + h.NumKeys * sizeofSlotEntry ≤ h.FreeSpaceOffset)
    (hoe : h.FreeSpaceOffset ≤ h.FreeSpaceEnd) (hend : h.FreeSpaceEnd ≤ p.Buf.length)
    (hroom : sizeofPageHeader + (h.NumKeys + 1) * sizeofSlotEntry ≤ p.Buf.length)
    (hsorted : (slotKeys p.Buf h.NumKeys).Pairwise (· ≤ ·))
    (hbuf : ∀ s, PageSize ≤ (alloc s).1.1.Buf.length)
    (hids : ∀ id ∈ allocIds alloc (chunkCount value.length) a, id < 2 ^ 32) :
    ∃ (out : InsertOutcome σ) (h1 : PageHeader) (pos : Nat),
      InsertKeyValue p key value alloc a = .ok out ∧ out.err = none ∧
      pageHeader out.page = .ok h1 ∧ h1.NumKeys = h.NumKeys + 1 ∧
      (slotKeys out.page.Buf (h.NumKeys + 1)).Pairwise (· ≤ ·) ∧
      pos ≤ h.NumKeys ∧
      (∀ j, j < pos → (slotOf p.Buf j).Key ≤ key) ∧
      (pos < h.NumKeys → key < (slotOf p.Buf pos).Key) ∧
      (∀ j, j < pos → slotOf out.page.Buf j = slotOf p.Buf j) ∧
      (slotOf out.page.Buf pos).Key = key ∧
      (∀ j, pos ≤ j → j < h.NumKeys → slotOf out.page.Buf (j + 1) = slotOf p.Buf j) ∧
      slotKeys out.page.Buf (h.NumKeys + 1) =
        (slotKeys p.Buf h.NumKeys).take pos ++ key :: (slotKeys p.Buf h.NumKeys).drop pos := by
  obtain ⟨out, pos, slot1, fin, hins, herr, -, hhdr, hpos, hbefore, hafter, hsame, hat, hshift,
    -, hcase⟩ := InsertKeyValue_spec p h key value alloc a hh hkey hslots hoe hend hroom hbuf hids
  have hk1 : (slotOf out.page.Buf pos).Key = key := by
    rw [hat]
    rcases hcase with ⟨-, -, rfl, -⟩ | ⟨-, -, rfl, -⟩ <;> rfl
  have hkeys : slotKeys out.page.Buf (h.NumKeys + 1) =
      (slotKeys p.Buf h.NumKeys).take pos ++ key :: (slotKeys p.Buf h.NumKeys).drop pos := by
    apply slotKeys_insert _ _ _ _ _ hpos
    · intro j hj; rw [hsame j hj]
    · exact hk1
    · intro j hj1 hj2; rw [hshift j hj1 hj2]
  refine ⟨out, _, pos, hins, herr, hhdr, rfl, ?_, hpos, hbefore, hafter, hsame, hk1, hshift,
    hkeys⟩
  rw [hkeys]
  apply sorted_put _ _ _ hsorted
  · intro x hx
    rw [slotKeys_take _ _ _ hpos] at hx
    obtain ⟨j, hj, rfl⟩ := (mem_slotKeys _ _ _).1 hx
    exact hbefore j hj
  · intro x hx
    obtain ⟨j, hj1, hj2, rfl⟩ := mem_slotKeys_drop _ _ _ _ hx
    have hlt := hafter (by omega)
    rcases Nat.eq_or_lt_of_le hj1 with rfl | hj3
    · exact Nat.le_of_lt hlt
    · exact Nat.le_trans (Nat.le_of_lt hlt)
        ((slotKeys_sorted_iff _ _).1 hsorted pos j hj3 hj2)

/-- C17 (as amended): a slot entry occupies 24 bytes of the page.  On a consistent page with
room for one more slot, `InsertKeyValue` advances free-space-start by 24; the slot it writes
for the key lies in the 24 bytes from offset `20 + 24*pos` on, `pos` its place in the slot
array; and a value that is not empty and no longer than the inline threshold is stored in
the page (free-space-end moves down by its length) exactly when 24 plus its length is at
most the free space. -/
theorem C17_slot_takes_24_bytes {σ : Type} (p : BLinkTreePage) (h : PageHeader) (key : Nat)
    (value : List Byte) (alloc : σ → (OverflowPage × Nat) × σ) (a : σ)
    (hh : pageHeader p = .ok h) (hkey : key < 2 ^ 64)
    (hslots : sizeofPageHeader + h.NumKeys * sizeofSlotEntry ≤ h.FreeSpaceOffset)
    (hoe : h.FreeSpaceOffset ≤ h.FreeSpaceEnd) (hend : h.FreeSpaceEnd ≤ p.Buf.length)
    (hroom : sizeofPageHeader + (h.NumKeys + 1) * sizeofSlotEntry ≤ p.Buf.length)
    (hwrap : h.FreeSpaceOffset + 24 < 2 ^ 16)
    (hbuf : ∀ s, PageSize ≤ (alloc s).1.1.Buf.length)
    (hids : ∀ id ∈ allocIds alloc (chunkCount value.length) a, id < 2 ^ 32) :
    sizeofSlotEntry = 24 ∧
      ∃ (out : InsertOutcome σ) (pos fin : Nat) (s : List Byte) (slot1 : SlotEntry),
        InsertKeyValue p key value alloc a = .ok out ∧
        pageHeader out.page = .ok { h with NumKeys := h.NumKeys + 1,
                                           FreeSpaceOffset := h.FreeSpaceOffset + 24,
                                           FreeSpaceEnd := fin } ∧
        pos ≤ h.NumKeys ∧
        slice out.page.Buf (20 + 24 * pos) (20 + 24 * pos + 24) = .ok s ∧
        ReadSlot s = .ok slot1 ∧ slot1.Key = key ∧
        (0 < value.length → value.length ≤ InlineThreshold →
          (fin = h.FreeSpaceEnd - value.length ↔
            24 + value.length ≤ h.FreeSpaceEnd - h.FreeSpaceOffset)) := by
  refine ⟨rfl, ?_⟩
  obtain ⟨out, pos, slot1, fin, hins, herr, hlen, hhdr, hpos, -, -, -, hat, -, -, hcase⟩ :=
    InsertKeyValue_spec p h key value alloc a hh hkey hslots hoe hend hroom hbuf hids
  rw [Nat.mod_eq_of_lt hwrap] at hhdr
  have hin : sizeofPageHeader + (pos + 1) * sizeofSlotEntry ≤ out.page.Buf.length := by
    rw [hlen]
    simp only [sizeofPageHeader, sizeofSlotEntry] at hroom ⊢
    have : (pos + 1) * 24 ≤ (h.NumKeys + 1) * 24 := Nat.mul_le_mul_right _ (by omega)
    omega
  have hr := readSlotAt_eq out.page.Buf pos hin
  simp only [readSlotAt, sizeofPageHeader, sizeofSlotEntry, bind_eq_ok] at hr
  obtain ⟨s, hs1, hs2⟩ := hr
  refine ⟨out, pos, fin, s, slotOf out.page.Buf pos, hins, hhdr, hpos, ?_, hs2, ?_, ?_⟩
  · rw [Nat.mul_comm 24 pos]
    exact hs1
  · rw [hat]
    rcases hcase with ⟨-, -, rfl, -⟩ | ⟨-, -, rfl, -⟩ <;> rfl
  · intro h0 hinl
    simp only [sizeofSlotEntry] at hcase
    have hl20 := (pageHeader_range p h hh).1
    simp only [sizeofPageHeader, sizeofSlotEntry] at hslots
    rcases hcase with ⟨⟨-, -, hfree⟩, hfin, -⟩ | ⟨hnot, hfin, -⟩
    · exact ⟨fun _ => by omega, fun _ => hfin⟩
    · constructor
      · intro he; omega
      · intro hfit
        exact absurd ⟨h0, hinl, by omega⟩ hnot

/-- C13 (as amended): on a page whose header is consistent with its slot array, with 24 free
bytes, whose slots are in non-decreasing key order and do not hold `key`, `InsertKeyValue`
with an empty value returns nil; it writes a slot whose value offset, value length and
overflow id are zero; the allocator is not called (it comes back in the state it went in,
and no overflow page was obtained); free-space-end and the bytes from free-space-end on stay
as they were; and `FindKey` for the key then returns the empty byte sequence. -/
theorem C13_empty_value {σ : Type} (p : BLinkTreePage) (h : PageHeader) (key : Nat)
    (alloc : σ → (OverflowPage × Nat) × σ) (a : σ)
    (load : Nat → Except Err OverflowPage) (cf : Nat)
    (hh : pageHeader p = .ok h) (hkey : key < 2 ^ 64)
    (hslots : sizeofPageHeader + h.NumKeys * sizeofSlotEntry ≤ h.FreeSpaceOffset)
    (hfree : h.FreeSpaceOffset + sizeofSlotEntry ≤ h.FreeSpaceEnd)
    (hend : h.FreeSpaceEnd ≤ p.Buf.length)
    (hsorted : (slotKeys p.Buf h.NumKeys).Pairwise (· ≤ ·))
    (hnew : key ∉ slotKeys p.Buf h.NumKeys) :
    ∃ (out : InsertOutcome σ) (pos : Nat),
      InsertKeyValue p key [] alloc a = .ok out ∧ out.err = none ∧
      out.overflow = [] ∧ out.alloc = a ∧
      pos ≤ h.NumKeys ∧
      slotOf out.page.Buf pos =
        { Key := key, ValueOffset := 0, ValueLength := 0, OverflowPageID := 0, ChildPageID := 0,
          Deleted := false } ∧
      pageHeader out.page = .ok { h with NumKeys := h.NumKeys + 1,
                                         FreeSpaceOffset := h.FreeSpaceOffset + sizeofSlotEntry } ∧
      (∀ lo hi, h.FreeSpaceEnd ≤ lo → slice out.page.Buf lo hi = slice p.Buf lo hi) ∧
      FindKey out.page key load cf = .ok ([], none) := by
  obtain ⟨hl20, hm, hv, hn, ho, he, hr⟩ := pageHeader_range p h hh
  have hh0 := hh
  unfold pageHeader at hh0
  simp only [bind_eq_ok] at hh0
  obtain ⟨hb, hb1, hb2⟩ := hh0
  simp only [sizeofPageHeader, sizeofSlotEntry] at hslots hfree
  have hroom : sizeofPageHeader + (h.NumKeys + 1) * sizeofSlotEntry ≤ p.Buf.length := by
    simp only [sizeofPageHeader, sizeofSlotEntry]; omega
  have hoff : (h.FreeSpaceOffset + 24) % 2 ^ 16 = h.FreeSpaceOffset + 24 :=
    Nat.mod_eq_of_lt (by omega)
  obtain ⟨buf4, hins, hlen4, hframe, hhdr, hfind⟩ :=
    insertSlot_then_find p.Buf h
      { Key := key, ValueOffset := 0, ValueLength := 0, OverflowPageID := 0, ChildPageID := 0,
        Deleted := false } key hroom rfl hkey (by norm_num)
      (by norm_num) (by norm_num) (by norm_num) hm hv (by omega) he hr hsorted hnew
  obtain ⟨buf5, pos, hins5, -, hpos, -, -, -, hat, -, -, -⟩ :=
    insertSlot_spec p.Buf h
      { Key := key, ValueOffset := 0, ValueLength := 0, OverflowPageID := 0, ChildPageID := 0,
        Deleted := false } key hroom hm hv (by omega) he hr
  rw [hins] at hins5
  cases hins5
  rw [normSlot_eq _ hkey (by norm_num) (by norm_num) (by norm_num) (by norm_num)] at hat
  refine ⟨{ page := { Buf := buf4 }, overflow := [], alloc := a, err := none }, pos, ?_, rfl,
    rfl, rfl, hpos, hat, ?_, ?_, ?_⟩
  · unfold InsertKeyValue
    simp only [hb1, hb2, bind, Except.bind, placeValue_empty, hins, pure, Except.pure]
    rfl
  · rw [hhdr, hoff]
    rfl
  · intro lo hi hlo
    exact hframe lo hi (by simp only [sizeofPageHeader, sizeofSlotEntry]; omega)
  · rw [hfind load cf]
    simp only [loadValue, if_true, Nat.add_zero, Nat.zero_mod]
    rw [slice_ok (le_refl _) (Nat.zero_le _)]
    rfl

end storage
end PebbleSQL
namespace PebbleSQL
namespace storage

set_option maxRecDepth 20000

theorem C20_sorted_slot_insertion_witness :
    pageHeader pageWith5 = .ok (leafHeader 1 44 97) ∧
      (slotKeys pageWith5.Buf 1).Pairwise (· ≤ ·) ∧
      ∃ out, InsertKeyValue pageWith5 3 [4, 5] AllocateOverflowPage (store 1) = .ok out ∧
        slotKeys out.page.Buf 2 = [3, 5] := by
  obtain ⟨out, h1, pos, hins, -, -, -, -, hpos, hbefore, -, -, -, -, hkeys⟩ :=
    C20_sorted_slot_insertion pageWith5 (leafHeader 1 44 97) 3 [4, 5] AllocateOverflowPage
      (store 1) header_pageWith5 (by decide) (by decide) (by decide) (by decide) (by decide)
      (by decide) length_allocated (by decide)
  refine ⟨header_pageWith5, by decide, out, hins, ?_⟩
  have hk : slotKeys pageWith5.Buf (leafHeader 1 44 97).NumKeys = [5] := by decide
  have hk5 : (slotOf pageWith5.Buf 0).Key = 5 := by decide
  have hp0 : pos = 0 := by
    have h1 : pos ≤ 1 := hpos
    rcases Nat.eq_or_lt_of_le h1 with h2 | h2
    · subst h2
      have := hbefore 0 (by decide)
      rw [hk5] at this
      omega
    · omega
  subst hp0
  have e : (leafHeader 1 44 97).NumKeys + 1 = 2 := rfl
  rw [e, hk] at hkeys
  exact hkeys

/-- C20 (as stated, refuted): the page `pageOver100` has two slots with the keys 1 and 2, in
order, and 100 bytes, room for a third slot; its header has free-space-start 68 and
free-space-end 44.  `InsertKeyValue(3, v)` with 24 bytes `9` as `v` writes the value over the
slot of key 1 and then puts the slot of key 3 in front: the slot keys are then
`[3, 0x0909090909090909, 2]`, not in order, and the slot of key 1 is lost. -/
theorem C20_counterexample :
    pageHeader pageOver100 = .ok (leafHeader 2 68 44) ∧ slotKeys pageOver100.Buf 2 = [1, 2] ∧
      sizeofPageHeader + (2 + 1) * sizeofSlotEntry ≤ pageOver100.Buf.length ∧
      InsertKeyValue pageOver100 3 (List.replicate 24 9) AllocateOverflowPage (store 1) =
        .ok { page := pageBad, overflow := [], alloc := store 1, err := none } ∧
      pageHeader pageBad = .ok (leafHeader 3 92 20) ∧
      slotKeys pageBad.Buf 3 = [3, 651061555542690057, 2] := by
  decide

theorem C17_slot_takes_24_bytes_witness :
    pageHeader page100 = .ok (leafHeader 0 20 100) ∧
      sizeofSlotEntry = 24 ∧
      ∃ out, InsertKeyValue page100 5 [1, 2, 3] AllocateOverflowPage (store 1) = .ok out ∧
        pageHeader out.page = .ok (leafHeader 1 44 97) := by
  obtain ⟨h24, out, pos, fin, s, slot1, hins, hhdr, -, -, -, -, hfin⟩ :=
    C17_slot_takes_24_bytes page100 (leafHeader 0 20 100) 5 [1, 2, 3] AllocateOverflowPage
      (store 1) header_page100 (by decide) (by decide) (by decide) (by decide) (by decide)
      (by decide) length_allocated (by decide)
  have hf : fin = 97 := (hfin (by decide) (by decide)).2 (by decide)
  subst hf
  exact ⟨header_page100, h24, out, hins, hhdr⟩

/-- C17 (as stated, refuted): `InsertKeyValue(5, [1, 2, 3])` on the empty page of 100 bytes
moves free-space-start from 20 to 44, by 24 and not by 20; and on the page `pageWith35` the
second slot, that of key 5, starts at byte 44 = 20 + 24, not at byte 40 = 20 + 20. -/
theorem C17_counterexample :
    pageHeader page100 = .ok (leafHeader 0 20 100) ∧
      InsertKeyValue page100 5 [1, 2, 3] AllocateOverflowPage (store 1) =
        .ok { page := pageWith5, overflow := [], alloc := store 1, err := none } ∧
      pageHeader pageWith5 = .ok (leafHeader 1 44 97) ∧
      slotKeys pageWith35.Buf 2 = [3, 5] ∧
      slice pageWith35.Buf 44 52 = .ok [5, 0, 0, 0, 0, 0, 0, 0] ∧
      slice pageWith35.Buf 40 48 = .ok [0, 0, 0, 0, 5, 0, 0, 0] := by
  decide

theorem C13_empty_value_witness :
    pageHeader pageWith5 = .ok (leafHeader 1 44 97) ∧
      ∃ out, InsertKeyValue pageWith5 3 [] AllocateOverflowPage (store 1) = .ok out ∧
        out.err = none ∧ out.overflow = [] ∧ out.alloc = store 1 ∧
        pageHeader out.page = .ok (leafHeader 2 68 97) ∧
        FindKey out.page 3 (loaderOf []) 0 = .ok ([], none) := by
  obtain ⟨out, pos, hins, herr, hov, hal, -, -, hhdr, -, hfind⟩ :=
    C13_empty_value pageWith5 (leafHeader 1 44 97) 3 AllocateOverflowPage (store 1)
      (loaderOf []) 0 header_pageWith5 (by decide) (by decide) (by decide) (by decide)
      (by decide) (by decide)
  exact ⟨header_pageWith5, out, hins, herr, hov, hal, hhdr, hfind⟩

/-- C13 (as stated, refuted): the page `pageWith5` holds key 5 with the value `[1, 2, 3]`.
`InsertKeyValue(5, [])` returns nil and adds a second slot with key 5, and `FindKey(5)` then
returns `[1, 2, 3]`, not the empty byte sequence. -/
theorem C13_counterexample :
    pageHeader pageWith5 = .ok (leafHeader 1 44 97) ∧
      InsertKeyValue pageWith5 5 [] AllocateOverflowPage (store 1) =
        .ok { page := pageWith5E, overflow := [], alloc := store 1, err := none } ∧
      FindKey pageWith5E 5 (loaderOf []) 0 = .ok ([1, 2, 3], none) := by
  decide

/-- As long as the counter does not pass `2^32`, the calls of `AllocatePage` return the
values of the counter one after the other. -/
theorem allocatePages_eq : ∀ (k : Nat) (d : PebbleSQLDiskManager),
    d.nextPageID + k ≤ 2 ^ 32 → allocatePages k d = List.range' d.nextPageID k := by
  intro k
  induction k with
  | zero => intro d _; rfl
  | succ k ih =>
    intro d hd
    have e1 : (AllocatePage d).1 = d.nextPageID := by
      simp only [AllocatePage]
      omega
    cases k with
    | zero => simp only [allocatePages, e1]; rfl
    | succ k =>
      have e2 : (AllocatePage d).2.nextPageID = d.nextPageID + 1 := by
        simp only [AllocatePage]
        omega
      simp only [allocatePages] at ih ⊢
      rw [e1, ih (AllocatePage d).2 (by rw [e2]; omega), e2]
      rfl

/-- C16 (as amended): each `AllocatePage` call returns the current value of the 32-bit
counter and increments it modulo `2^32`; as long as the counter does not wrap around (`k`
calls from a counter value `c` with `c + k ≤ 2^32`), the calls return `c, c+1, ..., c+k-1`:
a later call returns a strictly larger id than an earlier one, and no id comes twice. -/
theorem C16_page_ids_increase (d : PebbleSQLDiskManager) (k : Nat)
    (hd : d.nextPageID < 2 ^ 32) (hk : d.nextPageID + k ≤ 2 ^ 32) :
    AllocatePage d = (d.nextPageID, { nextPageID := (d.nextPageID + 1) % 2 ^ 32 }) ∧
      allocatePages k d = List.range' d.nextPageID k ∧
      (allocatePages k d).Pairwise (· < ·) ∧ (allocatePages k d).Nodup := by
  have e := allocatePages_eq k d hk
  refine ⟨?_, e, ?_, ?_⟩
  · simp only [AllocatePage, Prod.mk.injEq, and_true]
    omega
  · rw [e]; exact List.pairwise_lt_range' _ _
  · rw [e]; exact List.nodup_range' _ _

theorem C16_page_ids_increase_witness :
    AllocatePage (store 7) = (7, store 8) ∧
      allocatePages 3 (store 7) = [7, 8, 9] ∧
      (allocatePages 3 (store 7)).Pairwise (· < ·) ∧ (allocatePages 3 (store 7)).Nodup :=
  C16_page_ids_increase (store 7) 3 (by decide) (by decide)

/-- C16 (as stated, refuted): with the counter at `2^32 - 1`, `AllocatePage` returns
`2^32 - 1` and the counter wraps around to 0; the next call returns 0, which is less than the
id returned before. -/
theorem C16_counterexample :
    AllocatePage (store 4294967295) = (4294967295, store 0) ∧
      AllocatePage (store 0) = (0, store 1) ∧
      allocatePages 2 (store 4294967295) = [4294967295, 0] ∧ ¬ (4294967295 < 0) := by
  decide

/-- C19 (the code falls short of it): the page `pageFull100` is built from the empty page of
100 bytes by `InsertKeyValue(1, v)` with 56 bytes `7` as `v`, and `FindKey(1)` returns `v`.
After `InsertKeyValue(2, [])`, a different key, `FindKey(1)` returns other bytes: the slot of
key 2 was written where the value of key 1 begins. -/
theorem C19_insert_disturbs_other_entry :
    PageBuilt pageFull100 [1] ∧
      FindKey pageFull100 1 (loaderOf []) 0 = .ok (List.replicate 56 7, none) ∧
      InsertKeyValue pageFull100 2 [] AllocateOverflowPage (store 1) =
        .ok { page := pageOver100, overflow := [], alloc := store 1, err := none } ∧
      FindKey pageOver100 1 (loaderOf []) 0 ≠ .ok (List.replicate 56 7, none) :=
  ⟨built_pageFull100, by decide, by decide, by decide⟩

end storage
end PebbleSQL
namespace PebbleSQL
namespace blinktree

theorem data_eq_ok {α : Type} (x : Except Fault α) (a : α) : data x = .ok a ↔ x = .ok a := by
  cases x <;> simp [data]

/-- `Insert`, with its lock calls, on a tree of one leaf whose lock is free: when the call
returns, the leaf has taken the entry and holds at most `maxKeys` keys, the lock is free
again, and the tree is the one that the data part `Insert` gives. -/
theorem insertLocked_leaf (fuel : Nat) (leaf : Node) (k : Int) (v : List Byte)
    (t1 : BlinkTree) (locks1 : List RWMutex) (hl : leaf.isLeaf = true)
    (h : InsertLocked fuel { heap := [leaf], root := 0 } [RWMutex.free] k v = .ok (t1, locks1)) :
    ∃ ks vs, insertAt leaf.keys (SearchInts leaf.keys k) k = .ok ks ∧
      insertAt leaf.values (SearchInts leaf.keys k) v = .ok vs ∧ ks.length ≤ maxKeys ∧
      t1 = { heap := [{ leaf with keys := ks, values := vs }], root := 0 } ∧
      locks1 = [RWMutex.free] ∧
      Insert fuel { heap := [leaf], root := 0 } k v = .ok t1 := by
  cases fuel with
  | zero => simp [InsertLocked, insertLocked] at h
  | succ fuel =>
    have hlock : lockCall [RWMutex.free] 0 RWMutex.Lock =
        .ok [{ writer := true, readers := 0 }] := by decide
    have hunlock : lockCall [{ writer := true, readers := 0 }] 0 RWMutex.Unlock =
        .ok [RWMutex.free] := by decide
    simp only [InsertLocked, insertLocked, deref, List.getElem?_cons_zero, bind_eq_ok,
      data_eq_ok, Except.ok.injEq, exists_eq_left', hl, if_true, hlock] at h
    obtain ⟨ks, hks, vs, hvs, heap, hheap, h⟩ := h
    simp only [modify, List.getElem?_cons_zero, List.set_cons_zero, Except.ok.injEq] at hheap
    subst hheap
    by_cases hgt : ks.length > maxKeys
    · simp only [hgt, if_true, bind_eq_ok] at h
      obtain ⟨r, hr, -⟩ := h
      rw [splitLocked_of_held fuel _ _ 0 { writer := true, readers := 0 } rfl (Or.inl rfl)]
        at hr
      simp at hr
    · simp only [hgt, if_false, bind_eq_ok, hunlock, Except.ok.injEq, pure, Except.pure,
        Prod.mk.injEq] at h
      obtain ⟨locksB, hB, h1, h2⟩ := h
      subst hB h1 h2
      refine ⟨ks, vs, hks, hvs, by omega, rfl, rfl, ?_⟩
      simp only [Insert, insert, deref, List.getElem?_cons_zero, bind, Except.bind, hl,
        if_true, hks, hvs, modify, List.set_cons_zero, hgt, if_false, pure, Except.pure]

/-- `Insert`, with its lock calls, on a tree of one leaf that holds `maxKeys` keys, its lock
free: the leaf takes the entry, `split` is called with the lock of the leaf held, and the
call ends in `log.Fatal`. -/
theorem InsertLocked_full (fuel : Nat) (leaf : Node) (k : Int) (v : List Byte)
    (hl : leaf.isLeaf = true) (hk : leaf.keys.length = maxKeys)
    (hv : leaf.values.length = leaf.keys.length) :
    InsertLocked (fuel + 1) { heap := [leaf], root := 0 } [RWMutex.free] k v
      = .error .logFatal := by
  have hlock : lockCall [RWMutex.free] 0 RWMutex.Lock =
      .ok [{ writer := true, readers := 0 }] := by decide
  have hle := SearchInts_le leaf.keys k
  have hks : insertAt leaf.keys (SearchInts leaf.keys k) k =
      .ok (leaf.keys.take (SearchInts leaf.keys k) ++ k :: leaf.keys.drop (SearchInts leaf.keys k)) :=
    insertAt_eq_ok.2 ⟨hle, rfl⟩
  have hvs : insertAt leaf.values (SearchInts leaf.keys k) v =
      .ok (leaf.values.take (SearchInts leaf.keys k) ++ v :: leaf.values.drop (SearchInts leaf.keys k)) :=
    insertAt_eq_ok.2 ⟨by omega, rfl⟩
  have hgt : (leaf.keys.take (SearchInts leaf.keys k) ++
      k :: leaf.keys.drop (SearchInts leaf.keys k)).length > maxKeys := by
    simp only [List.length_append, List.length_take, List.length_cons, List.length_drop]
    omega
  simp only [InsertLocked, insertLocked, deref, List.getElem?_cons_zero, data, bind, Except.bind,
    hl, if_true, hlock, hks, hvs, modify, List.set_cons_zero, hgt]
  rw [splitLocked_of_held fuel _ _ 0 { writer := true, readers := 0 } rfl (Or.inl rfl)]

/-- Every tree that `Insert` calls of the code build, each call returning: it is one leaf with
as many keys and values as entries were inserted, at most `maxKeys`; no lock is held; and it
is the tree that the data part builds from the same entries. -/
theorem builtLocked_leaf {t : BlinkTree} {locks : List RWMutex} {es : List (Int × List Byte)}
    (hb : BuiltLocked t locks es) :
    ∃ leaf : Node, t = { heap := [leaf], root := 0 } ∧ leaf.isLeaf = true ∧
      locks = [RWMutex.free] ∧ Built t es ∧ leaf.keys.length = es.length ∧
      leaf.values.length = es.length ∧ es.length ≤ maxKeys := by
  induction hb with
  | new => exact ⟨_, rfl, rfl, rfl, Built.new, rfl, rfl, by decide⟩
  | @step t t1 locks locks1 es fuel k v _ hins ih =>
    obtain ⟨leaf, rfl, hl, rfl, hbuilt, hkl, hvl, -⟩ := ih
    obtain ⟨ks, vs, hks, hvs, hle, rfl, rfl, hdata⟩ :=
      insertLocked_leaf fuel leaf k v t1 locks1 hl hins
    obtain ⟨-, rfl⟩ := insertAt_eq_ok.1 hks
    obtain ⟨hvle, rfl⟩ := insertAt_eq_ok.1 hvs
    have hle2 := SearchInts_le leaf.keys k
    have hlen : (leaf.keys.take (SearchInts leaf.keys k) ++
        k :: leaf.keys.drop (SearchInts leaf.keys k)).length = es.length + 1 := by
      simp only [List.length_append, List.length_take, List.length_cons, List.length_drop]
      omega
    refine ⟨_, rfl, hl, rfl, Built.step hbuilt hdata, ?_, ?_, ?_⟩
    · show (leaf.keys.take (SearchInts leaf.keys k) ++
          k :: leaf.keys.drop (SearchInts leaf.keys k)).length = (es ++ [(k, v)]).length
      rw [hlen, List.length_append, List.length_singleton]
    · simp only [List.length_append, List.length_take, List.length_cons, List.length_drop,
        List.length_singleton, List.length_nil]
      omega
    · simp only [List.length_append, List.length_singleton]
      rw [hlen] at hle
      exact hle

/-- After four `Insert` calls that returned, every further `Insert` ends in `log.Fatal`. -/
theorem InsertLocked_fifth {t : BlinkTree} {locks : List RWMutex} {es : List (Int × List Byte)}
    (hb : BuiltLocked t locks es) (h4 : es.length = maxKeys) (fuel : Nat) (k : Int)
    (v : List Byte) : InsertLocked (fuel + 1) t locks k v = .error .logFatal := by
  obtain ⟨leaf, rfl, hl, rfl, -, hkl, hvl, -⟩ := builtLocked_leaf hb
  exact InsertLocked_full fuel leaf k v hl (by omega) (by omega)

/-- A run of `insertAllLocked` that returns builds its tree by `Insert` calls that return. -/
theorem builtLocked_insertAllLocked (fuel : Nat) :
    ∀ (es0 es : List (Int × List Byte)) (t t1 : BlinkTree) (locks locks1 : List RWMutex),
      BuiltLocked t locks es0 → insertAllLocked fuel t locks es = .ok (t1, locks1) →
      BuiltLocked t1 locks1 (es0 ++ es) := by
  intro es0 es
  induction es generalizing es0 with
  | nil =>
    intro t t1 locks locks1 hb h
    simp only [insertAllLocked, Except.ok.injEq, Prod.mk.injEq] at h
    obtain ⟨rfl, rfl⟩ := h
    simpa using hb
  | cons e es ih =>
    intro t t1 locks locks1 hb h
    obtain ⟨k, v⟩ := e
    simp only [insertAllLocked, bind_eq_ok] at h
    obtain ⟨⟨t2, locks2⟩, h2, h3⟩ := h
    have := ih (es0 ++ [(k, v)]) t2 t1 locks2 locks1 (BuiltLocked.step hb h2) h3
    simpa using this

theorem builtLocked_tree4 : BuiltLocked tree4 [RWMutex.free] seq4 :=
  builtLocked_insertAllLocked 5 [] seq4 NewBlinkTree tree4 _ _ BuiltLocked.new (by decide)

theorem builtLocked_treeDup : BuiltLocked treeDup [RWMutex.free] [(30, [1]), (30, [2])] :=
  builtLocked_insertAllLocked 5 [] _ NewBlinkTree treeDup _ _ BuiltLocked.new (by decide)

/-- `Search`, with its lock calls, on a tree of one leaf whose lock is free: the read lock of
the leaf is taken and released, and the result is that of the scan of the leaf. -/
theorem SearchLocked_leaf (fuel : Nat) (leaf : Node) (k : Int) (hl : leaf.isLeaf = true)
    (r : List Byte × Bool) (hr : scanLeaf k leaf.values leaf.keys 0 = .ok r) :
    SearchLocked (fuel + 1) { heap := [leaf], root := 0 } [RWMutex.free] k
      = .ok (r, [RWMutex.free]) := by
  have hlock : lockCall [RWMutex.free] 0 RWMutex.RLock =
      .ok [{ writer := false, readers := 1 }] := by decide
  have hunlock : lockCall [{ writer := false, readers := 1 }] 0 RWMutex.RUnlock =
      .ok [RWMutex.free] := by decide
  simp only [SearchLocked, searchDescendLocked, deref, List.getElem?_cons_zero, data, bind,
    Except.bind, hl, if_true, hlock, hunlock, pure, Except.pure, hr]

/-- C1 (the code falls short of it): the entries of `TestBlinkTreeOperations`, ten distinct
keys, are inserted into a new tree, `Insert` with its lock calls.  The first four calls return
and leave one leaf with the keys 10, 20, 30, 40.  `Insert(50, "fifty")` takes the lock of the
leaf, brings it to five keys and calls `split`, which finds the lock taken and ends in
`log.Fatal`: the sequence of `Insert` calls does not come to an end, and no `Search` for the
inserted keys follows. -/
theorem C1_insert_of_fifth_key_is_fatal :
    (testEntries.map Prod.fst).Nodup ∧
      insertAllLocked 5 NewBlinkTree [RWMutex.free] (testEntries.take 4)
        = .ok (treeTest4, [RWMutex.free]) ∧
      InsertLocked 5 treeTest4 [RWMutex.free] 50 [102, 105, 102, 116, 121] = .error .logFatal ∧
      insertAllLocked 5 NewBlinkTree [RWMutex.free] testEntries = .error .logFatal := by
  decide

/-- C6: in every tree that `Insert` calls built from `NewBlinkTree` (each call with its lock
calls, and returning), `Search(k)`, with its lock calls, for a key `k` that was never inserted
returns `(nil, false)` and leaves no lock held; on the empty tree it does so for every key. -/
theorem C6_search_absent_key (t : BlinkTree) (locks : List RWMutex)
    (es : List (Int × List Byte)) (fuel : Nat) (k : Int) (hb : BuiltLocked t locks es)
    (hk : k ∉ es.map Prod.fst) :
    SearchLocked (fuel + 1) t locks k = .ok (([], false), [RWMutex.free]) ∧
      ∀ k1 : Int, SearchLocked (fuel + 1) NewBlinkTree [RWMutex.free] k1
        = .ok (([], false), [RWMutex.free]) := by
  obtain ⟨leaf, rfl, hl, rfl, hbuilt, -, -, -⟩ := builtLocked_leaf hb
  constructor
  · obtain ⟨-, hcount⟩ := built_leafCount hbuilt 0 leaf rfl hl
    have hnot : k ∉ leaf.keys := by
      intro hmem
      have h1 := List.count_pos_iff.2 hmem
      have h2 := hcount k
      rw [List.count_eq_zero_of_not_mem hk] at h2
      omega
    exact SearchLocked_leaf fuel leaf k hl _ (scanLeaf_not_mem k leaf.values leaf.keys 0 hnot)
  · intro k1
    exact SearchLocked_leaf fuel _ k1 rfl _ rfl

theorem C6_search_absent_key_witness :
    BuiltLocked tree4 [RWMutex.free] seq4 ∧ (999 : Int) ∉ seq4.map Prod.fst ∧
      SearchLocked 5 tree4 [RWMutex.free] 999 = .ok (([], false), [RWMutex.free]) ∧
      ∀ k1 : Int, SearchLocked 5 NewBlinkTree [RWMutex.free] k1
        = .ok (([], false), [RWMutex.free]) :=
  ⟨builtLocked_tree4, by decide,
    C6_search_absent_key tree4 [RWMutex.free] seq4 4 999 builtLocked_tree4 (by decide)⟩

/-- C7 (the code falls short of it): `split`, with its lock calls, is called on the internal
node at address 6 of `treeWide`, which holds five keys over six children and whose lock is
free, as `split` of a leaf calls it on the parent.  The node keeps the keys `[3, 5]` and the
children `[0, 1, 2]`; the new node (address 7) gets the keys `[7, 9, 11]` and the children
`[3, 4, 5]`, three keys and three children; the new root (address 8) gets the key 7 and the
children `[6, 7]`. -/
theorem C7_split_of_internal_node :
    (treeWide.heap[6]?).map (fun x => (x.isLeaf, x.keys, x.children)) =
        some (false, [3, 5, 7, 9, 11], [0, 1, 2, 3, 4, 5]) ∧
      splitLocked 5 treeWide (List.replicate 7 RWMutex.free) 6 =
        .ok (treeWideSplit,
          [RWMutex.free, RWMutex.free, RWMutex.free, RWMutex.free, RWMutex.free, RWMutex.free,
           { writer := true, readers := 0 }, RWMutex.free, RWMutex.free]) ∧
      (treeWideSplit.heap[6]?).map (fun x => (x.isLeaf, x.keys, x.children)) =
        some (false, [3, 5], [0, 1, 2]) ∧
      (treeWideSplit.heap[7]?).map (fun x => (x.isLeaf, x.keys, x.children)) =
        some (false, [7, 9, 11], [3, 4, 5]) ∧
      (treeWideSplit.heap[8]?).map (fun x => (x.isLeaf, x.keys, x.children)) =
        some (false, [7], [6, 7]) ∧
      treeWideSplit.root = 8 :=
  ⟨by decide, by decide, by decide, by decide, by decide, by decide⟩

/-- C8 (the code falls short of it): after `Insert` of the keys 1 to 4 the tree is one leaf
with four keys.  A further `Insert`, of a key below, between or above them, brings the leaf
to five keys; the leaf is not split into a node of two keys and a right node: `Insert`, which
holds the lock of the leaf, calls `split`, and `split` ends in `log.Fatal`. -/
theorem C8_full_leaf_is_not_split :
    insertAllLocked 5 NewBlinkTree [RWMutex.free] seq4 = .ok (tree4, [RWMutex.free]) ∧
      tree4.heap.map (fun x => x.keys.length) = [maxKeys] ∧
      InsertLocked 5 tree4 [RWMutex.free] 0 [0] = .error .logFatal ∧
      InsertLocked 5 tree4 [RWMutex.free] 3 [9] = .error .logFatal ∧
      InsertLocked 5 tree4 [RWMutex.free] 9 [9] = .error .logFatal := by
  decide

end blinktree

namespace storage

/-- C9 (as amended): after any sequence of inserts, keys are in non-decreasing order, and in
strictly increasing order (no key twice) where the inserted keys are pairwise distinct: so for
the slot keys of a page built from an empty page by `InsertKeyValue` calls (each made with 24
free bytes for the slot), and for the keys of every node of a tree built from a new tree by
`Insert` calls, with their lock calls, that returned. -/
theorem C9_keys_stay_sorted (p : BLinkTreePage) (ks : List Nat) (t : blinktree.BlinkTree)
    (locks : List blinktree.RWMutex) (es : List (Int × List Byte)) (hp : PageBuilt p ks)
    (ht : blinktree.BuiltLocked t locks es) :
    (∃ h, pageHeader p = .ok h ∧ (slotKeys p.Buf h.NumKeys).Pairwise (· ≤ ·) ∧
        (ks.Nodup → (slotKeys p.Buf h.NumKeys).Pairwise (· < ·))) ∧
      ∀ x ∈ t.heap, x.keys.Pairwise (· ≤ ·) ∧
        ((es.map Prod.fst).Nodup → x.keys.Pairwise (· < ·)) := by
  constructor
  · obtain ⟨h, hh, -, -, -, hsorted, hperm⟩ := pageBuilt_ok hp
    exact ⟨h, hh, hsorted, fun hnd => List.Sorted.lt_of_le hsorted (hperm.symm.nodup hnd)⟩
  · obtain ⟨leaf, rfl, hl, -, hbuilt, -, -, -⟩ := blinktree.builtLocked_leaf ht
    intro x hx
    simp only [List.mem_singleton] at hx
    subst hx
    obtain ⟨hsorted, hcount⟩ := blinktree.built_leafCount hbuilt 0 x rfl hl
    refine ⟨hsorted, fun hnd => ?_⟩
    refine List.Sorted.lt_of_le hsorted (List.nodup_iff_count_le_one.2 (fun k => ?_))
    exact le_trans (hcount k) (List.nodup_iff_count_le_one.1 hnd k)

theorem C9_keys_stay_sorted_witness :
    PageBuilt pageWith35 [5, 3] ∧
      blinktree.BuiltLocked blinktree.tree4 [blinktree.RWMutex.free] blinktree.seq4 ∧
      ([5, 3] : List Nat).Nodup ∧ (blinktree.seq4.map Prod.fst).Nodup ∧
      ((∃ h, pageHeader pageWith35 = .ok h ∧
          (slotKeys pageWith35.Buf h.NumKeys).Pairwise (· ≤ ·) ∧
          (([5, 3] : List Nat).Nodup → (slotKeys pageWith35.Buf h.NumKeys).Pairwise (· < ·))) ∧
        ∀ x ∈ blinktree.tree4.heap, x.keys.Pairwise (· ≤ ·) ∧
          ((blinktree.seq4.map Prod.fst).Nodup → x.keys.Pairwise (· < ·))) :=
  ⟨built_pageWith35, blinktree.builtLocked_tree4, by decide, by decide,
    C9_keys_stay_sorted pageWith35 [5, 3] blinktree.tree4 [blinktree.RWMutex.free]
      blinktree.seq4 built_pageWith35 blinktree.builtLocked_tree4⟩

/-- C9 (as stated, refuted): the key 5 is inserted twice into an empty page, and the page then
has two slots with key 5; the key 30 is inserted twice into a new tree (both `Insert` calls,
with their lock calls, return), and its leaf then has the keys `[30, 30]`: the keys are not
strictly ascending. -/
theorem C9_counterexample :
    (PageBuilt pageWith55 [5, 5] ∧ pageHeader pageWith55 = .ok (leafHeader 2 68 95) ∧
        slotKeys pageWith55.Buf 2 = [5, 5]) ∧
      (blinktree.BuiltLocked blinktree.treeDup [blinktree.RWMutex.free] [(30, [1]), (30, [2])] ∧
        blinktree.treeDup.heap.map (fun x => x.keys) = [[30, 30]]) :=
  ⟨⟨built_pageWith55, by decide, by decide⟩, ⟨blinktree.builtLocked_treeDup, by decide⟩⟩

end storage
end PebbleSQL
